import Mathlib

/-!
# mbasicc_web: the browser file system and the interpreter session

A shallow embedding of `src/src/wasm_filesystem.cpp` (the `EM_JS` bodies and the
`WasmFileHandle` / `WasmFileSystem` wrappers), of `WasmIO::print` in `src/src/wasm_io.cpp`
and of `MBasicSession::loadProgram` and `MBasicSession::tick` in
`src/src/wasm_bindings.cpp`.

Conventions of the embedding.

* A JavaScript string is the finite sequence of its UTF-16 code units
  (`JSString = List Nat`); `'\n'` is the code unit `10`.  `length`, `substring`,
  `indexOf` and `charCodeAt` all count code units, as in JavaScript.
* A JavaScript `Map` is an association list in insertion order (`JSMap`).
* JavaScript numbers holding integers are integers (`Int`) and their arithmetic is exact.
  The code computes in IEEE doubles, which gives the same numbers as long as they stay
  within `2 ^ 53` in magnitude; `jsNumber` is the rounding that sets in beyond.  Lengths
  of strings and positions inside a buffer are within that bound; the position
  `js_file_seek_record` computes from its arguments need not be, and the statement on it
  (C3) carries the bound.
* A byte of the WebAssembly heap is a `Fin 256`; a store into `HEAP8` keeps the low
  8 bits of the number stored.
* A C++ `int` is an integer (`Int`).  The arithmetic `WasmIO::print` does on the `int`
  field `column_` is the 32-bit arithmetic of the WebAssembly build (`wrapInt32`).  A C++
  `std::string` handed to `WasmIO::print` is the list of its `char`s (bytes); the host
  reads it as a C string, up to its first NUL byte (`cString`).
* The strings that cross the C / JavaScript boundary are marshalled by the
  Emscripten runtime (`UTF8ToString`, `stringToUTF8`), which is not part of the
  repository.  The embedding sits on the JavaScript side of that boundary: a
  text argument is the string `UTF8ToString` produced, a text result is the
  string handed to `stringToUTF8`.
* The host hooks `Module.onFileSave`, `Module.onFileDelete` and
  `Module.onFileRename` are notifications; the calls made to them are recorded
  in `Module.hostLog`.  `Module.onFileOpen` and `Module.onFileExists` are pure
  functions of their arguments.
-/

namespace mbasic

/-! ## JavaScript strings -/

/-- A JavaScript string: its UTF-16 code units. -/
abbrev JSString := List Nat

/-- The line feed `'\n'`. -/
def LF : Nat := 10

/-- Clamp an index argument into `[0, len]`, as `substring` and `indexOf` do. -/
def clampIndex (len : Nat) (i : Int) : Nat := min i.toNat len

/-- Two-argument `String.prototype.substring(a, b)`: both arguments are clamped
into `[0, length]` and swapped when `a > b`. -/
def substring (s : JSString) (a b : Int) : JSString :=
  let a' := clampIndex s.length a
  let b' := clampIndex s.length b
  (s.drop (min a' b')).take (max a' b' - min a' b')

/-- One-argument `String.prototype.substring(a)`: up to the end of the string. -/
def substringFrom (s : JSString) (a : Int) : JSString :=
  s.drop (clampIndex s.length a)

/-- The offset of the first `c` in `s`, if any. -/
def findUnit (c : Nat) : JSString → Option Nat
  | [] => none
  | x :: xs => if x = c then some 0 else (findUnit c xs).map (· + 1)

/-- Two-argument `String.prototype.indexOf(c, from)` for a one-unit pattern:
the first index `≥ from` holding `c`, or `-1`. -/
def indexOf (s : JSString) (c : Nat) (fromIndex : Int) : Int :=
  let k := clampIndex s.length fromIndex
  match findUnit c (s.drop k) with
  | some j => ((k + j : Nat) : Int)
  | none => -1

/-! ## JavaScript maps -/

/-- A JavaScript `Map`, as its entries in insertion order. -/
abbrev JSMap (κ ν : Type) := List (κ × ν)

namespace JSMap

variable {κ ν : Type} [DecidableEq κ]

/-- The method `Map.prototype.get`; `none` is `undefined`. -/
def get : JSMap κ ν → κ → Option ν
  | [], _ => none
  | (k', v) :: rest, k => if k' = k then some v else get rest k

/-- The method `Map.prototype.has`. -/
def has (m : JSMap κ ν) (k : κ) : Bool := (get m k).isSome

/-- The method `Map.prototype.set`: an existing key keeps its place. -/
def set : JSMap κ ν → κ → ν → JSMap κ ν
  | [], k, v => [(k, v)]
  | (k', v') :: rest, k, v =>
    if k' = k then (k', v) :: rest else (k', v') :: set rest k v

/-- The map left by `Map.prototype.delete`. -/
def delete : JSMap κ ν → κ → JSMap κ ν
  | [], _ => []
  | (k', v) :: rest, k => if k' = k then delete rest k else (k', v) :: delete rest k

end JSMap

/-! ## The state kept on `Module` -/

/-- The strings `['input', 'output', 'append', 'random']` of `js_file_open`. -/
inductive ModeStr where
  | input
  | output
  | append
  | random
  deriving DecidableEq, Repr

/-- The expression `['input', 'output', 'append', 'random'][mode]`; `none` is `undefined`. -/
def modeStrOf (mode : Int) : Option ModeStr :=
  if mode = 0 then some .input
  else if mode = 1 then some .output
  else if mode = 2 then some .append
  else if mode = 3 then some .random
  else none

/-- An entry of `Module.fileSystem.files`. -/
structure OpenFile where
  name : JSString
  mode : Option ModeStr
  recordLength : Int
  data : JSString
  position : Int
  eof : Bool
  deriving DecidableEq, Repr

/-- The object `Module.fileSystem`. -/
structure FileSystem where
  files : JSMap Int OpenFile
  nextHandle : Int
  virtualFiles : JSMap JSString JSString
  deriving DecidableEq, Repr

/-- A call made to one of the notification hooks. -/
inductive HostEvent where
  | fileSave (name data : JSString)
  | fileDelete (name : JSString)
  | fileRename (oldName newName : JSString)
  deriving DecidableEq, Repr

/-- The part of the Emscripten `Module` object the file system reads and writes. -/
structure Module where
  /-- The object `Module.fileSystem`; `none` while it is `undefined`. -/
  fileSystem : Option FileSystem
  /-- The hook `Module.onFileOpen`; its `none` result is `null`. -/
  onFileOpen : Option (JSString → Option ModeStr → Int → Option JSString)
  /-- The hook `Module.onFileExists`. -/
  onFileExists : Option (JSString → Bool)
  /-- Whether `Module.onFileSave` is a function. -/
  onFileSave : Bool
  /-- Whether `Module.onFileDelete` is a function. -/
  onFileDelete : Bool
  /-- Whether `Module.onFileRename` is a function. -/
  onFileRename : Bool
  /-- The calls made to the notification hooks, oldest first. -/
  hostLog : List HostEvent

/-- The object literal `js_file_open` installs when `Module.fileSystem` is `undefined`. -/
def FileSystem.fresh : FileSystem :=
  { files := [], nextHandle := 1, virtualFiles := [] }

/-- The persisted store `Module.fileSystem.virtualFiles` (empty while there is no file system). -/
def Module.store (M : Module) : JSMap JSString JSString :=
  match M.fileSystem with
  | none => []
  | some fs => fs.virtualFiles

/-- The open-file table `Module.fileSystem.files` (empty while there is no file system). -/
def Module.table (M : Module) : JSMap Int OpenFile :=
  match M.fileSystem with
  | none => []
  | some fs => fs.files

/-- Replace the file system object. -/
def Module.withFS (M : Module) (fs : FileSystem) : Module :=
  { M with fileSystem := some fs }

/-! ## The `EM_JS` functions of `wasm_filesystem.cpp` -/

/-- The file system object after the first statement of `js_file_open`: the existing
one, or the fresh one it installs when `Module.fileSystem` is `undefined`. -/
def Module.fsOrFresh (M : Module) : FileSystem :=
  match M.fileSystem with
  | none => FileSystem.fresh
  | some fs => fs

/-- The object literal `js_file_open` stores in the open-file table:
`{name, mode, recordLength, data, position: 0, eof: false}`. -/
def OpenFile.opened (fname : JSString) (modeStr : Option ModeStr) (record_length : Int)
    (data : JSString) : OpenFile :=
  { name := fname, mode := modeStr, recordLength := record_length,
    data := data, position := 0, eof := false }

/-- The function `js_file_open(filename, mode, record_length)`. -/
def js_file_open (M : Module) (fname : JSString) (mode : Int) (record_length : Int) :
    Module × Int :=
  let fs := M.fsOrFresh
  let modeStr := modeStrOf mode
  match M.onFileOpen with
  | some hook =>
    let handle := fs.nextHandle
    let fs := { fs with nextHandle := fs.nextHandle + 1 }
    match hook fname modeStr record_length with
    | some fileData =>
      let file := OpenFile.opened fname modeStr record_length fileData
      (M.withFS { fs with files := fs.files.set handle file }, handle)
    | none => (M.withFS fs, -1)
  | none =>
    let handle := fs.nextHandle
    let fs := { fs with nextHandle := fs.nextHandle + 1 }
    if mode = 0 ∧ !fs.virtualFiles.has fname then
      (M.withFS fs, -1)
    else
      let data : JSString :=
        if mode = 0 then (fs.virtualFiles.get fname).getD []
        else if mode = 1 then []
        else if mode = 2 then (fs.virtualFiles.get fname).getD []
        else if mode = 3 then (fs.virtualFiles.get fname).getD []
        else []
      let file := OpenFile.opened fname modeStr record_length data
      (M.withFS { fs with files := fs.files.set handle file }, handle)

/-- Whether `js_file_close` saves a file of this mode. -/
def savesOnClose (mode : Option ModeStr) : Bool :=
  mode = some .output || mode = some .append || mode = some .random

/-- The function `js_file_close(handle)`. -/
def js_file_close (M : Module) (handle : Int) : Module :=
  match M.fileSystem with
  | none => M
  | some fs =>
    match fs.files.get handle with
    | none => M
    | some file =>
      if savesOnClose file.mode then
        let fs' : FileSystem :=
          { fs with virtualFiles := fs.virtualFiles.set file.name file.data,
                    files := fs.files.delete handle }
        let log := if M.onFileSave then M.hostLog ++ [HostEvent.fileSave file.name file.data]
                   else M.hostLog
        { M with fileSystem := some fs', hostLog := log }
      else
        M.withFS { fs with files := fs.files.delete handle }

/-- Store a changed entry back under its handle. -/
def Module.putFile (M : Module) (fs : FileSystem) (handle : Int) (file : OpenFile) : Module :=
  M.withFS { fs with files := fs.files.set handle file }

/-- The function `js_file_read_line(handle)`; `none` is the null pointer. -/
def js_file_read_line (M : Module) (handle : Int) : Module × Option JSString :=
  match M.fileSystem with
  | none => (M, none)
  | some fs =>
    match fs.files.get handle with
    | none => (M, none)
    | some file =>
      if file.position ≥ file.data.length then
        (M.putFile fs handle { file with eof := true }, none)
      else
        let endPos := indexOf file.data LF file.position
        let endPos : Int := if endPos = -1 then file.data.length else endPos
        let line := substring file.data file.position endPos
        let file := { file with position := endPos + 1 }
        let file := if file.position ≥ file.data.length then { file with eof := true } else file
        (M.putFile fs handle file, some line)

/-- The function `js_file_write_line(handle, line)`. -/
def js_file_write_line (M : Module) (handle : Int) (text : JSString) : Module :=
  match M.fileSystem with
  | none => M
  | some fs =>
    match fs.files.get handle with
    | none => M
    | some file =>
      let file := { file with data := file.data ++ (text ++ [LF]) }
      let file := { file with position := file.data.length }
      M.putFile fs handle file

/-- The function `js_file_write(handle, data)`. -/
def js_file_write (M : Module) (handle : Int) (text : JSString) : Module :=
  match M.fileSystem with
  | none => M
  | some fs =>
    match fs.files.get handle with
    | none => M
    | some file =>
      let file := { file with data := file.data ++ text }
      let file := { file with position := file.data.length }
      M.putFile fs handle file

/-- The function `js_file_eof(handle)`. -/
def js_file_eof (M : Module) (handle : Int) : Int :=
  match M.fileSystem with
  | none => 1
  | some fs =>
    match fs.files.get handle with
    | none => 1
    | some file => if file.eof || decide (file.position ≥ file.data.length) then 1 else 0

/-- The function `js_file_read_chars(handle, n)`; `none` is the null pointer. -/
def js_file_read_chars (M : Module) (handle : Int) (n : Int) : Module × Option JSString :=
  match M.fileSystem with
  | none => (M, none)
  | some fs =>
    match fs.files.get handle with
    | none => (M, none)
    | some file =>
      let chars := substring file.data file.position (file.position + n)
      let file := { file with position := file.position + chars.length }
      let file := if file.position ≥ file.data.length then { file with eof := true } else file
      (M.putFile fs handle file, some chars)

/-- The function `js_file_position(handle)`. -/
def js_file_position (M : Module) (handle : Int) : Int :=
  match M.fileSystem with
  | none => 0
  | some fs =>
    match fs.files.get handle with
    | none => 0
    | some file => file.position

/-- The function `js_file_length(handle)`. -/
def js_file_length (M : Module) (handle : Int) : Int :=
  match M.fileSystem with
  | none => 0
  | some fs =>
    match fs.files.get handle with
    | none => 0
    | some file => file.data.length

/-- The number of binary digits of `n`, found in at most `fuel` halvings. -/
def bitLength : Nat → Nat → Nat
  | 0, _ => 0
  | fuel + 1, n => if n = 0 then 0 else bitLength fuel (n / 2) + 1

/-- The JavaScript number (an IEEE 754 double) nearest to the integer `x`, a tie going to
the even significand: what an arithmetic operation of the code produces when its exact
result is `x`.  It is `x` itself up to `2 ^ 53` in magnitude; a larger `x` keeps its 53
leading binary digits.  (The integers past the largest double, near `1.8 * 10 ^ 308`, are
out of reach of 32-bit arguments.) -/
def jsNumber (x : Int) : Int :=
  let a := x.natAbs
  if a ≤ 9007199254740992 then x
  else
    let ulp := 2 ^ (bitLength a a - 53)
    let q := a / ulp
    let rest := a % ulp
    let q := if ulp < 2 * rest ∨ (ulp = 2 * rest ∧ q % 2 = 1) then q + 1 else q
    x.sign * ((q * ulp : Nat) : Int)

/-- The function `js_file_seek_record(handle, record, record_length)`.  The product is
computed here as an exact integer; the code computes it as a JavaScript number, which is
`jsNumber` of this integer and the same number as long as the product is at most `2 ^ 53`
in magnitude (`jsNumber_of_le`). -/
def js_file_seek_record (M : Module) (handle : Int) (record record_length : Int) : Module :=
  match M.fileSystem with
  | none => M
  | some fs =>
    match fs.files.get handle with
    | none => M
    | some file =>
      let file := { file with position := (record - 1) * record_length }
      let file := { file with eof := decide (file.position ≥ file.data.length) }
      M.putFile fs handle file

/-- A byte of the WebAssembly heap. -/
abbrev Byte := Fin 256

/-- The byte an `Int8Array` / `Uint8Array` element keeps of a stored number: its low 8 bits. -/
def toByte (x : Nat) : Byte := ⟨x % 256, Nat.mod_lt x (by decide)⟩

/-- The method `String.prototype.charCodeAt(i)` for an index inside the string. -/
def charCodeAt (s : JSString) (i : Nat) : Nat := s.getD i 0

/-- The bytes the loop of `js_file_read_raw` stores at `buffer[0 .. size)`. -/
def rawBytes (data : JSString) (size : Int) : List Byte :=
  (List.range size.toNat).map fun i =>
    if i < data.length then toByte (charCodeAt data i) else toByte 0

/-- The function `js_file_read_raw(handle, buffer, size)`, returning the bytes it stores
into `buffer`; `none` when it returns without touching the buffer. -/
def js_file_read_raw (M : Module) (handle : Int) (size : Int) : Module × Option (List Byte) :=
  match M.fileSystem with
  | none => (M, none)
  | some fs =>
    match fs.files.get handle with
    | none => (M, none)
    | some file =>
      let data := substring file.data file.position (file.position + size)
      let out := rawBytes data size
      let file := { file with position := file.position + size }
      let file := if file.position ≥ file.data.length then { file with eof := true } else file
      (M.putFile fs handle file, some out)

/-- The function `js_file_write_raw(handle, buffer, size)`; `buffer` is the `size` bytes
found at the pointer. -/
def js_file_write_raw (M : Module) (handle : Int) (buffer : List Byte) : Module :=
  match M.fileSystem with
  | none => M
  | some fs =>
    match fs.files.get handle with
    | none => M
    | some file =>
      let size : Int := buffer.length
      let data : JSString := buffer.map fun b => b.val
      let file :=
        if file.position < file.data.length then
          { file with data := substring file.data 0 file.position ++ data ++
                              substringFrom file.data (file.position + size) }
        else
          { file with data := file.data ++ data }
      let file := { file with position := file.position + size }
      M.putFile fs handle file

/-- The function `js_file_flush(handle)`. -/
def js_file_flush (M : Module) (handle : Int) : Module :=
  match M.fileSystem with
  | none => M
  | some fs =>
    match fs.files.get handle with
    | none => M
    | some file =>
      let fs' : FileSystem :=
        { fs with virtualFiles := fs.virtualFiles.set file.name file.data }
      let log := if M.onFileSave then M.hostLog ++ [HostEvent.fileSave file.name file.data]
                 else M.hostLog
      { M with fileSystem := some fs', hostLog := log }

/-- The function `js_file_exists(filename)`. -/
def js_file_exists (M : Module) (fname : JSString) : Int :=
  match M.fileSystem with
  | none => 0
  | some fs =>
    match M.onFileExists with
    | some hook => if hook fname then 1 else 0
    | none => if fs.virtualFiles.has fname then 1 else 0

/-- The function `js_file_remove(filename)`. -/
def js_file_remove (M : Module) (fname : JSString) : Module × Int :=
  match M.fileSystem with
  | none => (M, 0)
  | some fs =>
    let log := if M.onFileDelete then M.hostLog ++ [HostEvent.fileDelete fname] else M.hostLog
    let fs' : FileSystem := { fs with virtualFiles := fs.virtualFiles.delete fname }
    ({ M with fileSystem := some fs', hostLog := log },
      if fs.virtualFiles.has fname then 1 else 0)

/-- The function `js_file_rename(old_name, new_name)`. -/
def js_file_rename (M : Module) (oldName newName : JSString) : Module × Int :=
  match M.fileSystem with
  | none => (M, 0)
  | some fs =>
    match fs.virtualFiles.get oldName with
    | none => (M, 0)
    | some data =>
      let fs' : FileSystem :=
        { fs with virtualFiles := (fs.virtualFiles.delete oldName).set newName data }
      let log := if M.onFileRename then M.hostLog ++ [HostEvent.fileRename oldName newName]
                 else M.hostLog
      ({ M with fileSystem := some fs', hostLog := log }, 1)

/-! ## The C++ wrappers `WasmFileHandle` and `WasmFileSystem` -/

/-- The class `WasmFileHandle`: the fields `handle_` and `open_`. -/
structure WasmFileHandle where
  handle_ : Int
  open_ : Bool
  deriving DecidableEq, Repr

/-- The method `WasmFileHandle::close()`. -/
def WasmFileHandle.close (M : Module) (h : WasmFileHandle) : Module × WasmFileHandle :=
  if h.open_ then (js_file_close M h.handle_, { h with open_ := false }) else (M, h)

/-- The method `WasmFileHandle::is_open()`. -/
def WasmFileHandle.is_open (h : WasmFileHandle) : Bool := h.open_

/-- The method `WasmFileHandle::eof()`. -/
def WasmFileHandle.eof (M : Module) (h : WasmFileHandle) : Bool :=
  js_file_eof M h.handle_ ≠ 0

/-- The method `WasmFileSystem::exists(filename)`. -/
def WasmFileSystem.exists (M : Module) (filename : JSString) : Bool :=
  js_file_exists M filename ≠ 0

/-- The method `WasmFileSystem::rename(old_name, new_name)`. -/
def WasmFileSystem.rename (M : Module) (old_name new_name : JSString) : Module × Bool :=
  let r := js_file_rename M old_name new_name
  (r.1, r.2 ≠ 0)

/-! ## Scripts of calls -/

/-- Call `write_line` once for each text, in order. -/
def writeLines (M : Module) (handle : Int) : List JSString → Module
  | [] => M
  | t :: ts => writeLines (js_file_write_line M handle t) handle ts

/-- Make `n` successive `read_line` calls, each followed by an `eof()` query; the results
of the calls, in order. -/
def readLines (M : Module) (handle : Int) : Nat → List (Option JSString × Int)
  | 0 => []
  | n + 1 =>
    let r := js_file_read_line M handle
    (r.2, js_file_eof r.1 handle) :: readLines r.1 handle n

/-- The content `write_line` builds from a list of texts: each text followed by `'\n'`. -/
def joinLines : List JSString → JSString
  | [] => []
  | t :: ts => t ++ [LF] ++ joinLines ts

/-- What reading back `texts` must give: each text in order with `eof()` false after it,
except true after the last one, and then one `no more lines` with `eof()` true. -/
def expectedReads : List JSString → List (Option JSString × Int)
  | [] => [(none, 1)]
  | [t] => [(some t, 1), (none, 1)]
  | t :: t' :: ts => (some t, 0) :: expectedReads (t' :: ts)

/-- Handles are handed out from `1` upwards: the counter `nextHandle` is positive. -/
def Module.Inv (M : Module) : Prop :=
  ∀ fs, M.fileSystem = some fs → 1 ≤ fs.nextHandle

/-- The entry of the open-file table under a handle. -/
def Module.file (M : Module) (handle : Int) : Option OpenFile := M.table.get handle

/-- The buffer `js_file_open` loads without an `onFileOpen` hook. -/
def openData (store : JSMap JSString JSString) (fname : JSString) (mode : Int) : JSString :=
  if mode = 1 then [] else
  if mode = 0 ∨ mode = 2 ∨ mode = 3 then (store.get fname).getD [] else []

/-- Open `name` for output, write the texts as lines, close, and reopen `name` for input:
the module reached, the output handle and the input handle. -/
def writeThenReopen (M : Module) (name : JSString) (rl rl' : Int) (texts : List JSString) :
    Module × Int × Int :=
  let o := js_file_open M name 1 rl
  let M₁ := writeLines o.1 o.2 texts
  let M₂ := js_file_close M₁ o.2
  let i := js_file_open M₂ name 0 rl'
  (i.1, o.2, i.2)

/-- A module on which nothing has run yet: no file system object, no hooks. -/
def Module.initial : Module :=
  { fileSystem := none, onFileOpen := none, onFileExists := none, onFileSave := false,
    onFileDelete := false, onFileRename := false, hostLog := [] }

/-- The buffer `js_file_write_raw` leaves. -/
def rawWritten (d : JSString) (position : Int) (buffer : List Byte) : JSString :=
  if position < d.length then
    substring d 0 position ++ buffer.map (fun b => b.val) ++
      substringFrom d (position + buffer.length)
  else d ++ buffer.map (fun b => b.val)

/-- Seek to record `r` of length `L`, write the bytes `b` raw, seek back to the same record
and read `b.length` bytes raw. -/
def writeRawThenReadBack (M : Module) (h : Int) (r L : Int) (b : List Byte) :
    Module × Option (List Byte) :=
  let M₁ := js_file_seek_record M h r L
  let M₂ := js_file_write_raw M₁ h b
  let M₃ := js_file_seek_record M₂ h r L
  js_file_read_raw M₃ h b.length

/-- An empty file opened in random mode on a module nothing has run on (handle `1`). -/
def emptyRandomFile : Module := (js_file_open Module.initial [70] 3 1).1

/-- The bytes `read_raw` must deliver for the window of `size` units of `d` at offset `p`:
the low 8 bits of each unit inside `d`, and `0` at and past the end of `d`. -/
def windowBytes (d : JSString) (p size : Nat) : List Byte :=
  (List.range size).map fun i => if p + i < d.length then toByte (d.getD (p + i) 0) else 0

/-- A file holding the one text `"€"` (the code unit `0x20AC`), written with `write`, closed
and reopened in random mode with record length 1 (handle `2`). -/
def euroFile : Module :=
  let o := js_file_open Module.initial [70] 1 128
  let M₁ := js_file_write o.1 o.2 [0x20AC]
  let M₂ := js_file_close M₁ o.2
  (js_file_open M₂ [70] 3 1).1

/-- A random-mode file with record length 2 whose buffer holds the units `1..5`, open under
handle `1`. -/
def fiveByteFile : Module :=
  Module.initial.putFile FileSystem.fresh 1 (OpenFile.opened [70] (some .random) 2 [1, 2, 3, 4, 5])

/-- A text write on an open handle: `write(text)` or `write_line(text)`. -/
inductive TextWrite where
  | write (text : JSString)
  | write_line (text : JSString)
  deriving DecidableEq, Repr

/-- Make the call. -/
def TextWrite.run (M : Module) (handle : Int) : TextWrite → Module
  | .write text => js_file_write M handle text
  | .write_line text => js_file_write_line M handle text

/-- Make the calls in order. -/
def runWrites (M : Module) (handle : Int) : List TextWrite → Module
  | [] => M
  | w :: ws => runWrites (w.run M handle) handle ws

/-- Open `name` for output, make the writes, close, and reopen `name` for input: the
module reached, the output handle and the input handle. -/
def writeCloseReopen (M : Module) (name : JSString) (rl rl' : Int) (ws : List TextWrite) :
    Module × Int × Int :=
  let o := js_file_open M name 1 rl
  let M₁ := runWrites o.1 o.2 ws
  let M₂ := js_file_close M₁ o.2
  let i := js_file_open M₂ name 0 rl'
  (i.1, o.2, i.2)

/-- A store holding `"B"` with content `"x"`, with `"B"` open for input under handle `2`. -/
def storeWithB : Module := (writeCloseReopen Module.initial [66] 128 128 [.write [120]]).1

/-- The module `storeWithB` with an `onFileExists` hook that answers true for every name. -/
def storeWithBHooked : Module := { storeWithB with onFileExists := some fun _ => true }

/-- Two handles open on the name `"F"`: handle `1` in output mode holding `"a"`, handle `2`
in append mode holding `"b"`. -/
def twoWriters : Module :=
  let o₁ := js_file_open Module.initial [70] 1 128
  let M₁ := js_file_write o₁.1 o₁.2 [97]
  let o₂ := js_file_open M₁ [70] 2 128
  js_file_write o₂.1 o₂.2 [98]

/-- The name `"B"` open twice on `storeWithB`: handle `2` in input mode holding the stored
`"x"`, handle `3` in output mode holding `"q"`. -/
def readerAndWriter : Module :=
  let o := js_file_open storeWithB [66] 1 128
  js_file_write o.1 o.2 [113]

/-! ## The interpreter session of `wasm_bindings.cpp` -/

/-- What a call into the interpreter library can throw, by the `catch` clause of
`loadProgram` that takes it: `mbasic::ParseError`, `mbasic::LexerError`, any other
`std::exception`, or something that is not a `std::exception`. -/
inductive Thrown where
  | ParseError (line column : Int) (what : String)
  | LexerError (line column : Int) (what : String)
  | std_exception (what : String)
  | foreign
  deriving DecidableEq, Repr

/-- The interpreter library `mbasic` (`mbasic/parser.hpp`, `mbasic/runtime.hpp`,
`mbasic/interpreter.hpp`), which is not part of the repository: the calls `loadProgram`
makes into it, each returning its result or what it throws. -/
structure Engine (Program Runtime Interpreter : Type) where
  /-- The function `mbasic::parse(source)`. -/
  parse : String → Except Thrown Program
  /-- The constructor `mbasic::Runtime()`. -/
  newRuntime : Except Thrown Runtime
  /-- The method `Runtime::load(program)`: the runtime it leaves, and what it throws. -/
  load : Runtime → Program → Runtime × Option Thrown
  /-- The constructor `mbasic::Interpreter(runtime, io)`. -/
  newInterpreter : Runtime → Except Thrown Interpreter

/-- The class `WasmIO`: the fields `column_` and `width_`. -/
structure WasmIO where
  column_ : Int
  width_ : Int
  deriving DecidableEq, Repr

/-- The class `MBasicSession`: its fields. -/
structure MBasicSession (Program Runtime Interpreter : Type) where
  io_ : WasmIO
  program_ : Option Program
  runtime_ : Option Runtime
  interpreter_ : Option Interpreter
  program_source_ : String
  last_error_ : String
  loaded_ : Bool

namespace MBasicSession

variable {Program Runtime Interpreter : Type}

/-- The constructor `MBasicSession()`. -/
def new : MBasicSession Program Runtime Interpreter :=
  { io_ := { column_ := 0, width_ := 80 }, program_ := none, runtime_ := none,
    interpreter_ := none, program_source_ := "", last_error_ := "", loaded_ := false }

/-- The `try` block of `loadProgram`: the session it leaves and what it throws, if
anything. -/
def loadProgramTry (E : Engine Program Runtime Interpreter)
    (s : MBasicSession Program Runtime Interpreter) (source : String) :
    MBasicSession Program Runtime Interpreter × Option Thrown :=
  match E.parse source with
  | .error e => (s, some e)
  | .ok program =>
    let s := { s with program_ := some program }
    let s := { s with program_source_ := source }
    match E.newRuntime with
    | .error e => (s, some e)
    | .ok runtime =>
      let r := E.load runtime program
      let s := { s with runtime_ := some r.1 }
      match r.2 with
      | some e => (s, some e)
      | none =>
        match E.newInterpreter r.1 with
        | .error e => (s, some e)
        | .ok interpreter =>
          let s := { s with interpreter_ := some interpreter }
          ({ s with loaded_ := true }, none)

/-- The method `MBasicSession::loadProgram(source)`: the session it leaves, and the value
it returns or the exception it lets through. -/
def loadProgram (E : Engine Program Runtime Interpreter)
    (s : MBasicSession Program Runtime Interpreter) (source : String) :
    MBasicSession Program Runtime Interpreter × Except Thrown Bool :=
  let r := loadProgramTry E s source
  match r.2 with
  | none => (r.1, .ok true)
  | some (.ParseError line column what) =>
    ({ r.1 with last_error_ := "Parse error at line " ++ toString line ++
                               ", col " ++ toString column ++ ": " ++ what }, .ok false)
  | some (.LexerError line column what) =>
    ({ r.1 with last_error_ := "Lexer error at line " ++ toString line ++
                               ", col " ++ toString column ++ ": " ++ what }, .ok false)
  | some (.std_exception what) =>
    ({ r.1 with last_error_ := "Error: " ++ what }, .ok false)
  | some .foreign => (r.1, .error .foreign)

/-- The method `MBasicSession::clear()`. -/
def clear (s : MBasicSession Program Runtime Interpreter) :
    MBasicSession Program Runtime Interpreter :=
  { s with loaded_ := false, interpreter_ := none, runtime_ := none, program_ := none,
           program_source_ := "", last_error_ := "" }

/-- The method `MBasicSession::getLastError()`. -/
def getLastError (s : MBasicSession Program Runtime Interpreter) : String := s.last_error_

/-- The method `MBasicSession::isLoaded()`. -/
def isLoaded (s : MBasicSession Program Runtime Interpreter) : Bool := s.loaded_

/-- The method `MBasicSession::listProgram()`. -/
def listProgram (s : MBasicSession Program Runtime Interpreter) : String := s.program_source_

end MBasicSession

/-- A stand-in for the interpreter library: it accepts the source `10 PRINT 1` and rejects
every other source with a parse error at line 10, column 9. -/
def sampleEngine : Engine String Unit Unit where
  parse := fun source =>
    if source = "10 PRINT 1" then .ok source else .error (.ParseError 10 9 "Syntax error")
  newRuntime := .ok ()
  load := fun _ _ => ((), none)
  newInterpreter := fun _ => .ok ()

/-- A session of `sampleEngine` holding the loaded program `10 PRINT 1`. -/
def loadedSession : MBasicSession String Unit Unit :=
  (MBasicSession.loadProgram sampleEngine MBasicSession.new "10 PRINT 1").1

/-! ## The terminal of `wasm_io.cpp` -/

/-- The `std::string`s whose `c_str()` was handed to `js_print`, oldest first.  `js_print`
reads its argument as a C string, so the host sees each text up to its first NUL byte:
`Terminal.received`. -/
abbrev Terminal := List (List Byte)

/-- What a reader of the C string `text.c_str()` sees of the `std::string` `text`: the
characters before the first NUL byte. -/
def cString (text : List Byte) : List Byte := text.takeWhile (fun c => c ≠ 0)

/-- What the host terminal has received: each text as `js_print` reads it. -/
def Terminal.received (terminal : Terminal) : List (List Byte) := terminal.map cString

/-- The value a 32-bit `int` of the WebAssembly build holds after an arithmetic operation
whose exact result is `x`: the result is kept modulo `2 ^ 32`, in the range from
`-2147483648` to `2147483647`. -/
def wrapInt32 (x : Int) : Int := (x + 2147483648) % 4294967296 - 2147483648

/-- One turn of the loop of `WasmIO::print`: the terminal state after the character `c`.
The division is the one of C++ `int`, which truncates; `column_` is a 32-bit `int`, so the
sum and the product are kept in 32 bits. -/
def WasmIO.track ( io : WasmIO) (c : Byte) : WasmIO :=
  if c = 10 ∨ c = 13 then { io with column_ := 0 }
  else if c = 9 then
    { io with column_ := wrapInt32 (wrapInt32 (Int.tdiv io.column_ 8 + 1) * 8) }
  else
    let next := { io with column_ := wrapInt32 (io.column_ + 1) }
    if next.column_ ≥ next.width_ then { next with column_ := 0 } else next

/-- The method `WasmIO::print(text)`: `text.c_str()` goes to `js_print` and the column is
tracked over all the characters of `text` in order. -/
def WasmIO.print ( io : WasmIO) (terminal : Terminal) (text : List Byte) : WasmIO × Terminal :=
  (text.foldl WasmIO.track io, terminal ++ [text])

/-- The method `WasmIO::set_width(w)`. -/
def WasmIO.set_width ( io : WasmIO) (w : Int) : WasmIO := { io with width_ := w }

/-- The method `WasmIO::set_column(col)`. -/
def WasmIO.set_column ( io : WasmIO) (col : Int) : WasmIO := { io with column_ := col }

/-- The state of a default-constructed `WasmIO`: column 0, width 80. -/
def WasmIO.default : WasmIO := { column_ := 0, width_ := 80 }

/-! ## Sequences of file calls -/

/-- The method `WasmFileSystem::remove(filename)`. -/
def WasmFileSystem.remove (M : Module) (filename : JSString) : Module × Bool :=
  let r := js_file_remove M filename
  (r.1, r.2 ≠ 0)

/-- A call on an open handle other than `close`. -/
inductive HandleCall where
  | read_line
  | write_line (text : JSString)
  | write (text : JSString)
  | read_chars (n : Int)
  | seek_record (record record_length : Int)
  | read_raw (size : Int)
  | write_raw (buffer : List Byte)
  | flush
  deriving DecidableEq, Repr

/-- Make the call on the handle. -/
def HandleCall.run (M : Module) (handle : Int) : HandleCall → Module
  | .read_line => (js_file_read_line M handle).1
  | .write_line text => js_file_write_line M handle text
  | .write text => js_file_write M handle text
  | .read_chars n => (js_file_read_chars M handle n).1
  | .seek_record record record_length => js_file_seek_record M handle record record_length
  | .read_raw size => (js_file_read_raw M handle size).1
  | .write_raw buffer => js_file_write_raw M handle buffer
  | .flush => js_file_flush M handle

/-- Make the calls on the handle, in order. -/
def runHandleCalls (M : Module) (handle : Int) : List HandleCall → Module
  | [] => M
  | c :: cs => runHandleCalls (c.run M handle) handle cs

/-- A file holding `"abc"`, with no `'\n'` at its end, open for input under handle `2`. -/
def unterminatedFile : Module :=
  (writeCloseReopen Module.initial [70] 128 128 [.write [97, 98, 99]]).1

/-- A call on the file system. -/
inductive FileCall where
  | openCall (fname : JSString) (mode record_length : Int)
  | closeCall (handle : Int)
  | handleCall (handle : Int) (call : HandleCall)
  | removeCall (fname : JSString)
  | renameCall (oldName newName : JSString)

/-- Make the call: the module it leaves and, for an `open`, the value returned. -/
def FileCall.run (M : Module) : FileCall → Module × Option Int
  | .openCall fname mode record_length =>
    let r := js_file_open M fname mode record_length
    (r.1, some r.2)
  | .closeCall handle => (js_file_close M handle, none)
  | .handleCall handle call => (call.run M handle, none)
  | .removeCall fname => ((js_file_remove M fname).1, none)
  | .renameCall oldName newName => ((js_file_rename M oldName newName).1, none)

/-- Make the calls in order: the module reached and the handles the successful opens
returned (the values other than `-1`), oldest first. -/
def runCalls (M : Module) : List FileCall → Module × List Int
  | [] => (M, [])
  | c :: cs =>
    let r := c.run M
    let rest := runCalls r.1 cs
    match r.2 with
    | some handle => if handle = -1 then rest else (rest.1, handle :: rest.2)
    | none => rest

/-- The counter `nextHandle` the next `js_file_open` will use. -/
def Module.next (M : Module) : Int := M.fsOrFresh.nextHandle

/-- The counter is positive and every handle in the open-file table is below it. -/
def Module.HandlesBelow (M : Module) : Prop :=
  1 ≤ M.next ∧ ∀ h f, M.file h = some f → h < M.next

/-- A sequential read: `read_line`, or `read_chars(n)` with `n ≥ 0`. -/
def HandleCall.IsSeqRead (c : HandleCall) : Prop :=
  c = .read_line ∨ ∃ n : Int, 0 ≤ n ∧ c = .read_chars n

/-! ## Running the program: `MBasicSession::tick` -/

/-- The `char`s of the C++ `std::string` holding a text: its UTF-8 bytes. -/
def cppChars (s : String) : List Byte :=
  (s.data.flatMap String.utf8EncodeChar).map fun b => toByte b.toNat

/-- What `Interpreter::tick()` can throw, by the `catch` clause of `tick` that takes it:
`mbasic::RuntimeError`, any other `std::exception`, or something that is not a
`std::exception`. -/
inductive TickThrown where
  | RuntimeError (line : Int) (what : String)
  | std_exception (what : String)
  | foreign
  deriving DecidableEq, Repr

/-- What a call of `Interpreter::tick()` leaves behind: the interpreter and the runtime and
terminal handler it holds references to, the terminal, and the value returned or what was
thrown. -/
structure TickOutcome (Runtime Interpreter : Type) where
  interpreter : Interpreter
  runtime : Option Runtime
  io : WasmIO
  terminal : Terminal
  result : Except TickThrown Bool

/-- The method `Interpreter::tick()` of the library `mbasic` (`mbasic/interpreter.hpp`),
which is not part of the repository. -/
structure Stepper (Runtime Interpreter : Type) where
  tick : Interpreter → Option Runtime → WasmIO → Terminal → TickOutcome Runtime Interpreter

namespace MBasicSession

variable {Program Runtime Interpreter : Type}

/-- The two statements of a `catch` clause of `tick`: record the error text and print it
between two newlines. -/
def reportError (s : MBasicSession Program Runtime Interpreter) (terminal : Terminal)
    (text : String) : MBasicSession Program Runtime Interpreter × Terminal :=
  let s := { s with last_error_ := text }
  let p := WasmIO.print s.io_ terminal (cppChars ("\n" ++ s.last_error_ ++ "\n"))
  ({ s with io_ := p.1 }, p.2)

/-- The method `MBasicSession::tick()`: the session and the terminal it leaves, and the
value it returns or the exception it lets through. -/
def tick (T : Stepper Runtime Interpreter) (s : MBasicSession Program Runtime Interpreter)
    (terminal : Terminal) :
    (MBasicSession Program Runtime Interpreter × Terminal) × Except TickThrown Bool :=
  match s.loaded_, s.interpreter_ with
  | false, _ => ((s, terminal), .ok false)
  | true, none => ((s, terminal), .ok false)
  | true, some interpreter =>
    let o := T.tick interpreter s.runtime_ s.io_ terminal
    let s := { s with interpreter_ := some o.interpreter, runtime_ := o.runtime, io_ := o.io }
    match o.result with
    | .ok more => ((s, o.terminal), .ok more)
    | .error (.RuntimeError line what) =>
      (reportError s o.terminal ("Runtime error at line " ++ toString line ++ ": " ++ what),
        .ok false)
    | .error (.std_exception what) =>
      (reportError s o.terminal ("Error: " ++ what), .ok false)
    | .error .foreign => ((s, o.terminal), .error .foreign)

end MBasicSession

/-- A stand-in for `Interpreter::tick()`: it prints `HI` and then raises a runtime error at
line 20. -/
def sampleStepper : Stepper Unit Unit where
  tick := fun interpreter runtime io terminal =>
    { interpreter := interpreter, runtime := runtime,
      io := ( WasmIO.print io terminal [72, 73]).1,
      terminal := ( WasmIO.print io terminal [72, 73]).2,
      result := .error (.RuntimeError 20 "Division by zero") }

/-! ## The lines of a buffer -/

/-- The segments obtained by splitting a text at every `'\n'` (never an empty list: a text
without `'\n'` is its own single segment). -/
def splitOnLF : JSString → List JSString
  | [] => [[]]
  | x :: xs =>
    if x = LF then [] :: splitOnLF xs
    else
      match splitOnLF xs with
      | [] => [[x]]
      | s :: ss => (x :: s) :: ss

/-- The lines of a buffer as the specification words them: the segments obtained by
splitting at every `'\n'`, without the final empty segment when the buffer is empty or
ends with `'\n'`. -/
def lineSegments (d : JSString) : List JSString :=
  if d = [] ∨ d.getLast? = some LF then (splitOnLF d).dropLast else splitOnLF d

/-- A file holding `"a\n\nbc"`, open for input under handle `2`. -/
def threeLineFile : Module :=
  (writeCloseReopen Module.initial [70] 128 128 [.write [97, 10, 10, 98, 99]]).1

/-! ## The calls on a handle and the eof flag -/

/-- The calls on a handle with non-negative sizes: `read_chars(n)` with `n ≥ 0`, `read_raw(size)` with
`size ≥ 0`, `seek_record(record, record_length)` with `record ≥ 1` and
`record_length ≥ 0`, and every `read_line`, `write`, `write_line`, `write_raw` and
`flush`. -/
def HandleCall.Admissible : HandleCall → Prop
  | .read_chars n => 0 ≤ n
  | .read_raw size => 0 ≤ size
  | .seek_record record record_length => 1 ≤ record ∧ 0 ≤ record_length
  | _ => True

/-- The stored eof flag is true only if the position is at or past the buffer length. -/
def OpenFile.EofSound (f : OpenFile) : Prop :=
  f.eof = true → f.position ≥ f.data.length

/-! # Properties of the embedding -/

/-! ## Strings and maps -/

theorem clampIndex_natCast (len k : Nat) : clampIndex len (k : Int) = min k len := by
  simp [clampIndex]

theorem substring_middle (pre t rest : JSString) :
    substring (pre ++ (t ++ rest)) (pre.length : Int) ((pre.length + t.length : Nat) : Int) = t := by
  unfold substring
  rw [clampIndex_natCast, clampIndex_natCast]
  have h1 : min pre.length (pre ++ (t ++ rest)).length = pre.length := by simp
  have h2 : min (pre.length + t.length) (pre ++ (t ++ rest)).length = pre.length + t.length := by
    simp
  simp only [h1, h2]
  have h3 : min pre.length (pre.length + t.length) = pre.length := by omega
  have h4 : max pre.length (pre.length + t.length) - pre.length = t.length := by omega
  rw [h3, h4]
  simp

theorem findUnit_append (c : Nat) (t rest : JSString) (h : c ∉ t) :
    findUnit c (t ++ c :: rest) = some t.length := by
  induction t with
  | nil => simp [findUnit]
  | cons x xs ih =>
    have hx : x ≠ c := fun e => h (by simp [e])
    have hxs : c ∉ xs := fun e => h (by simp [e])
    simp [findUnit, hx, ih hxs]

theorem indexOf_middle (c : Nat) (pre t rest : JSString) (h : c ∉ t) :
    indexOf (pre ++ (t ++ c :: rest)) c (pre.length : Int) = ((pre.length + t.length : Nat) : Int) := by
  unfold indexOf
  rw [clampIndex_natCast]
  have h1 : min pre.length (pre ++ (t ++ c :: rest)).length = pre.length := by simp
  simp only [h1]
  have h2 : List.drop pre.length (pre ++ (t ++ c :: rest)) = t ++ c :: rest := by simp
  rw [h2, findUnit_append c t rest h]

namespace JSMap

variable {κ ν : Type} [DecidableEq κ]

theorem get_set_self (m : JSMap κ ν) (k : κ) (v : ν) : get (set m k v) k = some v := by
  induction m with
  | nil => simp [set, get]
  | cons e rest ih =>
    obtain ⟨k', v'⟩ := e
    by_cases hk : k' = k <;> simp [set, get, hk, ih]

theorem get_set_of_ne (m : JSMap κ ν) (k k' : κ) (v : ν) (h : k' ≠ k) :
    get (set m k v) k' = get m k' := by
  induction m with
  | nil => simp [set, get, Ne.symm h]
  | cons e rest ih =>
    obtain ⟨k₀, v₀⟩ := e
    by_cases hk : k₀ = k
    · subst hk
      simp [set, get, Ne.symm h]
    · by_cases hk' : k₀ = k'
      · subst hk'
        simp [set, get, hk]
      · simp [set, get, hk, hk', ih]

theorem get_delete_self (m : JSMap κ ν) (k : κ) : get (delete m k) k = none := by
  induction m with
  | nil => simp [delete, get]
  | cons e rest ih =>
    obtain ⟨k₀, v₀⟩ := e
    by_cases hk : k₀ = k <;> simp [delete, get, hk, ih]

theorem get_delete_of_ne (m : JSMap κ ν) (k k' : κ) (h : k' ≠ k) :
    get (delete m k) k' = get m k' := by
  induction m with
  | nil => simp [delete, get]
  | cons e rest ih =>
    obtain ⟨k₀, v₀⟩ := e
    by_cases hk : k₀ = k
    · subst hk
      simp [delete, get, Ne.symm h, ih]
    · by_cases hk' : k₀ = k'
      · subst hk'
        simp [delete, get, hk]
      · simp [delete, get, hk, hk', ih]

theorem delete_of_get_none (m : JSMap κ ν) (k : κ) (h : get m k = none) : delete m k = m := by
  induction m with
  | nil => simp [delete]
  | cons e rest ih =>
    obtain ⟨k₀, v₀⟩ := e
    by_cases hk : k₀ = k
    · simp [get, hk] at h
    · have h' : get rest k = none := by simpa [get, hk] using h
      simp [delete, hk, ih h']

theorem has_eq_true_iff (m : JSMap κ ν) (k : κ) : has m k = true ↔ ∃ v, get m k = some v := by
  simp [has, Option.isSome_iff_exists]

theorem has_eq_false_iff (m : JSMap κ ν) (k : κ) : has m k = false ↔ get m k = none := by
  simp [has]

theorem set_set (m : JSMap κ ν) (k : κ) (v v' : ν) : set (set m k v) k v' = set m k v' := by
  induction m with
  | nil => simp [set]
  | cons e rest ih =>
    obtain ⟨k₀, v₀⟩ := e
    by_cases hk : k₀ = k <;> simp [set, hk, ih]

theorem set_of_get (m : JSMap κ ν) (k : κ) (v : ν) (h : get m k = some v) : set m k v = m := by
  induction m with
  | nil => simp [get] at h
  | cons e rest ih =>
    obtain ⟨k₀, v₀⟩ := e
    by_cases hk : k₀ = k
    · simp [get, hk] at h
      simp [set, hk, h]
    · simp [get, hk] at h
      simp [set, hk, ih h]

theorem delete_set_self (m : JSMap κ ν) (k : κ) (v : ν) : delete (set m k v) k = delete m k := by
  induction m with
  | nil => simp [set, delete]
  | cons e rest ih =>
    obtain ⟨k₀, v₀⟩ := e
    by_cases hk : k₀ = k <;> simp [set, delete, hk, ih]

end JSMap

/-! ## The operations on an open entry -/

theorem Module.putFile_fileSystem (M : Module) (fs : FileSystem) (h : Int) (f : OpenFile) :
    (M.putFile fs h f).fileSystem = some { fs with files := fs.files.set h f } := rfl

theorem Module.putFile_putFile (M : Module) (fs : FileSystem) (h : Int) (f f' : OpenFile) :
    (M.putFile fs h f).putFile { fs with files := fs.files.set h f } h f' = M.putFile fs h f' := by
  simp [Module.putFile, Module.withFS, JSMap.set_set]

theorem Module.eq_putFile (M : Module) (fs : FileSystem) (h : Int) (f : OpenFile)
    (hfs : M.fileSystem = some fs) (hf : fs.files.get h = some f) : M.putFile fs h f = M := by
  cases M
  simp at hfs
  simp [Module.putFile, Module.withFS, JSMap.set_of_get _ _ _ hf, hfs]

theorem js_file_write_line_putFile (M : Module) (fs : FileSystem) (h : Int) (f : OpenFile)
    (t : JSString) :
    js_file_write_line (M.putFile fs h f) h t =
      M.putFile fs h { f with data := f.data ++ (t ++ [LF]),
                              position := ((f.data ++ (t ++ [LF])).length : Nat) } := by
  simp only [js_file_write_line, Module.putFile_fileSystem, JSMap.get_set_self,
    Module.putFile_putFile]

theorem js_file_write_putFile (M : Module) (fs : FileSystem) (h : Int) (f : OpenFile)
    (t : JSString) :
    js_file_write (M.putFile fs h f) h t =
      M.putFile fs h { f with data := f.data ++ t,
                              position := ((f.data ++ t).length : Nat) } := by
  simp only [js_file_write, Module.putFile_fileSystem, JSMap.get_set_self,
    Module.putFile_putFile]

theorem js_file_eof_putFile (M : Module) (fs : FileSystem) (h : Int) (f : OpenFile) :
    js_file_eof (M.putFile fs h f) h =
      if f.eof || decide (f.position ≥ f.data.length) then 1 else 0 := by
  simp only [js_file_eof, Module.putFile_fileSystem, JSMap.get_set_self]

theorem js_file_read_line_putFile_end (M : Module) (fs : FileSystem) (h : Int) (f : OpenFile)
    (hpos : f.position ≥ f.data.length) :
    js_file_read_line (M.putFile fs h f) h = (M.putFile fs h { f with eof := true }, none) := by
  simp only [js_file_read_line, Module.putFile_fileSystem, JSMap.get_set_self,
    Module.putFile_putFile, if_pos hpos]

theorem js_file_read_line_putFile_line (M : Module) (fs : FileSystem) (h : Int) (f : OpenFile)
    (pre t rest : JSString) (hdata : f.data = pre ++ (t ++ LF :: rest))
    (hpos : f.position = (pre.length : Nat)) (ht : LF ∉ t) :
    js_file_read_line (M.putFile fs h f) h =
      (M.putFile fs h
        (if rest = [] then
          { f with position := ((pre.length + t.length : Nat) : Int) + 1, eof := true }
         else { f with position := ((pre.length + t.length : Nat) : Int) + 1 }),
       some t) := by
  have hlt : ¬ f.position ≥ f.data.length := by
    rw [hpos, hdata]; simp; omega
  have hidx : indexOf f.data LF f.position = ((pre.length + t.length : Nat) : Int) := by
    rw [hpos, hdata]; exact indexOf_middle LF pre t rest ht
  have hne : ¬ (((pre.length + t.length : Nat) : Int) = -1) := by omega
  have hsub : substring f.data f.position ((pre.length + t.length : Nat) : Int) = t := by
    rw [hpos, hdata]; exact substring_middle pre t (LF :: rest)
  have hlen : ((f.data.length : Nat) : Int) = ((pre.length + t.length : Nat) : Int) + 1 + rest.length := by
    rw [hdata]; simp; omega
  simp only [js_file_read_line, Module.putFile_fileSystem, JSMap.get_set_self,
    Module.putFile_putFile, if_neg hlt, hidx, if_neg hne, hsub]
  by_cases hr : rest = []
  · subst hr
    have : ((pre.length + t.length : Nat) : Int) + 1 ≥ (f.data.length : Int) := by
      rw [hlen]; simp
    simp only [if_pos this, if_true]
  · have hrl : 0 < rest.length := List.length_pos.mpr hr
    have : ¬ ((pre.length + t.length : Nat) : Int) + 1 ≥ (f.data.length : Int) := by
      rw [hlen]; omega
    simp only [if_neg this, if_neg hr]

theorem js_file_open_noHook (M : Module) (hook : M.onFileOpen = none) (fname : JSString)
    (mode rl : Int) (hok : mode = 0 → M.fsOrFresh.virtualFiles.has fname = true) :
    js_file_open M fname mode rl =
      (M.putFile { M.fsOrFresh with nextHandle := M.fsOrFresh.nextHandle + 1 }
          M.fsOrFresh.nextHandle
          (OpenFile.opened fname (modeStrOf mode) rl (openData M.fsOrFresh.virtualFiles fname mode)),
        M.fsOrFresh.nextHandle) := by
  have hc : ¬ (mode = 0 ∧ (!M.fsOrFresh.virtualFiles.has fname) = true) := by
    rintro ⟨h0, h1⟩
    simp [hok h0] at h1
  have hd : (if mode = 0 then (M.fsOrFresh.virtualFiles.get fname).getD []
        else if mode = 1 then []
        else if mode = 2 then (M.fsOrFresh.virtualFiles.get fname).getD []
        else if mode = 3 then (M.fsOrFresh.virtualFiles.get fname).getD []
        else ([] : JSString)) = openData M.fsOrFresh.virtualFiles fname mode := by
    unfold openData
    by_cases h0 : mode = 0
    · simp [h0]
    · by_cases h1 : mode = 1
      · simp [h1]
      · by_cases h2 : mode = 2
        · simp [h2]
        · by_cases h3 : mode = 3
          · simp [h3]
          · simp [h0, h1, h2, h3]
  simp only [js_file_open, hook, if_neg hc, hd, Module.putFile]

theorem js_file_open_noHook_absent (M : Module) (hook : M.onFileOpen = none) (fname : JSString)
    (rl : Int) (habs : M.fsOrFresh.virtualFiles.has fname = false) :
    js_file_open M fname 0 rl =
      (M.withFS { M.fsOrFresh with nextHandle := M.fsOrFresh.nextHandle + 1 }, -1) := by
  simp [js_file_open, hook, habs]

theorem js_file_close_putFile (M : Module) (fs : FileSystem) (h : Int) (f : OpenFile) :
    js_file_close (M.putFile fs h f) h =
      if savesOnClose f.mode then
        { M with
          fileSystem := some { fs with virtualFiles := fs.virtualFiles.set f.name f.data,
                                       files := fs.files.delete h },
          hostLog := if M.onFileSave then M.hostLog ++ [HostEvent.fileSave f.name f.data]
                     else M.hostLog }
      else M.withFS { fs with files := fs.files.delete h } := by
  simp only [js_file_close, Module.putFile_fileSystem, JSMap.get_set_self,
    JSMap.delete_set_self]
  rfl

theorem Module.fsOrFresh_store (M : Module) : M.fsOrFresh.virtualFiles = M.store := by
  cases h : M.fileSystem <;> simp [Module.fsOrFresh, Module.store, h, FileSystem.fresh]

theorem Module.fsOrFresh_table (M : Module) : M.fsOrFresh.files = M.table := by
  cases h : M.fileSystem <;> simp [Module.fsOrFresh, Module.table, h, FileSystem.fresh]

theorem Module.Inv.nextHandle_pos {M : Module} (hinv : M.Inv) : 1 ≤ M.fsOrFresh.nextHandle := by
  cases h : M.fileSystem with
  | none => simp [Module.fsOrFresh, h, FileSystem.fresh]
  | some fs => simpa [Module.fsOrFresh, h] using hinv fs h

/-! ## C1: lines written are the lines read back -/

theorem joinLines_ne_nil (t : JSString) (ts : List JSString) : joinLines (t :: ts) ≠ [] := by
  cases t <;> simp [joinLines]

theorem expectedReads_cons (t : JSString) (ts : List JSString) :
    expectedReads (t :: ts) = (some t, if ts = [] then 1 else 0) :: expectedReads ts := by
  cases ts <;> simp [expectedReads]

/-- The list `expectedReads texts` spelled out by index: entry `k` is the text `k` with
`eof()` true exactly for the last text, and one `no more lines` entry follows. -/
theorem expectedReads_enum (ts : List JSString) :
    expectedReads ts =
      (ts.enum.map fun p => (some p.2, if p.1 + 1 = ts.length then (1 : Int) else 0)) ++
        [(none, 1)] := by
  have key : ∀ (ts : List JSString) (n : Nat),
      expectedReads ts =
        ((ts.enumFrom n).map fun p =>
          (some p.2, if p.1 + 1 = n + ts.length then (1 : Int) else 0)) ++ [(none, 1)] := by
    intro ts
    induction ts with
    | nil => intro n; simp [expectedReads]
    | cons t ts ih =>
      intro n
      rw [expectedReads_cons, ih (n + 1)]
      simp only [List.enumFrom_cons, List.map_cons, List.cons_append, List.length_cons]
      refine congrArg₂ List.cons ?_ ?_
      · by_cases h : ts = []
        · subst h; simp
        · have : ts.length ≠ 0 := fun e => h (List.length_eq_zero.mp e)
          simp [h, this]
      · congr 1
        apply List.map_congr_left
        intro p _
        have : (p.1 + 1 = n + 1 + ts.length) ↔ (p.1 + 1 = n + (ts.length + 1)) := by omega
        simp only [this]
  simpa [List.enum] using key ts 0

/-- The entry `writeLines` leaves: the texts appended, the position at the end. -/
theorem writeLines_putFile (M : Module) (fs : FileSystem) (h : Int) (ts : List JSString) :
    ∀ f : OpenFile, ∃ f' : OpenFile,
      writeLines (M.putFile fs h f) h ts = M.putFile fs h f' ∧
      f'.data = f.data ++ joinLines ts ∧ f'.name = f.name ∧ f'.mode = f.mode := by
  induction ts with
  | nil => intro f; exact ⟨f, rfl, by simp [joinLines], rfl, rfl⟩
  | cons t ts ih =>
    intro f
    let f₁ : OpenFile :=
      { f with data := f.data ++ (t ++ [LF]), position := ((f.data ++ (t ++ [LF])).length : Nat) }
    obtain ⟨f', h1, h2, h3, h4⟩ := ih f₁
    refine ⟨f', ?_, ?_, h3, h4⟩
    · simp only [writeLines, js_file_write_line_putFile]; exact h1
    · rw [h2]; simp [joinLines]

/-- Reading a buffer that ends in `joinLines ts` from the start of that part. -/
theorem readLines_joinLines (M : Module) (fs : FileSystem) (h : Int) (ts : List JSString) :
    ∀ (pre : JSString) (f : OpenFile), (∀ t ∈ ts, LF ∉ t) → f.data = pre ++ joinLines ts →
      f.position = (pre.length : Nat) → (ts ≠ [] → f.eof = false) →
      readLines (M.putFile fs h f) h (ts.length + 1) = expectedReads ts := by
  induction ts with
  | nil =>
    intro pre f _ hdata hpos _
    have hp : f.position ≥ f.data.length := by
      rw [hpos, hdata]; simp [joinLines]
    simp [readLines, js_file_read_line_putFile_end M fs h f hp, js_file_eof_putFile,
      expectedReads]
  | cons t ts ih =>
    intro pre f hnl hdata hpos heof
    have ht : LF ∉ t := hnl t (by simp)
    have hts : ∀ t' ∈ ts, LF ∉ t' := fun t' ht' => hnl t' (by simp [ht'])
    have hdata' : f.data = pre ++ (t ++ LF :: joinLines ts) := by
      rw [hdata]; simp [joinLines]
    have hfe : f.eof = false := heof (by simp)
    rw [expectedReads_cons]
    show (_ :: readLines _ h (ts.length + 1)) = _
    rw [js_file_read_line_putFile_line M fs h f pre t (joinLines ts) hdata' hpos ht]
    by_cases hts0 : ts = []
    · subst hts0
      simp only [joinLines, if_true, js_file_eof_putFile]
      refine congrArg₂ List.cons ?_ ?_
      · simp
      · exact ih (pre ++ (t ++ [LF])) _ hts (by simp [hdata, joinLines])
          (by simp; omega) (by simp)
    · have hj : joinLines ts ≠ [] := by
        cases ts with
        | nil => exact absurd rfl hts0
        | cons t' ts' => exact joinLines_ne_nil t' ts'
      simp only [if_neg hj, if_neg hts0, js_file_eof_putFile]
      refine congrArg₂ List.cons ?_ ?_
      · have hlen : ((pre.length : Nat) : Int) + (t.length : Nat) + 1 < (f.data.length : Int) := by
          have : 0 < (joinLines ts).length := List.length_pos.mpr hj
          rw [hdata']; simp; omega
        simp [hfe, hlen]
      · exact ih (pre ++ (t ++ [LF])) _ hts (by simp [hdata, joinLines])
          (by simp; omega) (fun _ => hfe)

theorem Module.initial_inv : Module.initial.Inv := by
  intro fs h
  simp [Module.initial] at h

theorem openData_output (store : JSMap JSString JSString) (fname : JSString) :
    openData store fname 1 = [] := by simp [openData]

theorem openData_input (store : JSMap JSString JSString) (fname : JSString) :
    openData store fname 0 = (store.get fname).getD [] := by simp [openData]

/-- The state after writing `content` to a fresh output handle on `name` and closing it,
reopened for input: the handle is the counter's value and its entry holds `content`. -/
theorem reopen_after_close (M : Module) (hook : M.onFileOpen = none) (fs : FileSystem)
    (h : Int) (f : OpenFile) (hmode : savesOnClose f.mode = true) (rl' : Int) :
    js_file_open (js_file_close (M.putFile fs h f) h) f.name 0 rl' =
      ((js_file_close (M.putFile fs h f) h).putFile
          { files := fs.files.delete h, nextHandle := fs.nextHandle + 1,
            virtualFiles := fs.virtualFiles.set f.name f.data }
          fs.nextHandle (OpenFile.opened f.name (some .input) rl' f.data),
        fs.nextHandle) := by
  have hc := js_file_close_putFile M fs h f
  rw [if_pos hmode] at hc
  have hfs : (js_file_close (M.putFile fs h f) h).fsOrFresh =
      { files := fs.files.delete h, nextHandle := fs.nextHandle,
        virtualFiles := fs.virtualFiles.set f.name f.data } := by
    rw [hc]; rfl
  have hhook : (js_file_close (M.putFile fs h f) h).onFileOpen = none := by
    rw [hc]; exact hook
  rw [js_file_open_noHook _ hhook f.name 0 rl'
    (by intro _; rw [hfs]; simp [JSMap.has, JSMap.get_set_self])]
  rw [hfs]
  simp [openData_input, JSMap.get_set_self, modeStrOf]

/-- C1: with no `onFileOpen` hook, opening `name` for output, writing the texts
`t1..tn` (none containing `'\n'`) with `write_line`, closing and reopening `name` for input
succeeds, and `n + 1` successive `read_line` calls return `t1..tn` in order, with `eof()`
false after each of the first `n - 1` reads and true after the `n`-th, and then report
`no more lines`. -/
theorem C1_write_lines_read_back (M : Module) (hook : M.onFileOpen = none) (hinv : M.Inv)
    (name : JSString) (rl rl' : Int) (texts : List JSString) (hnl : ∀ t ∈ texts, LF ∉ t) :
    0 ≤ (writeThenReopen M name rl rl' texts).2.1 ∧
    0 ≤ (writeThenReopen M name rl rl' texts).2.2 ∧
    readLines (writeThenReopen M name rl rl' texts).1 (writeThenReopen M name rl rl' texts).2.2
      (texts.length + 1) = expectedReads texts := by
  have hpos := hinv.nextHandle_pos
  obtain ⟨fs₁, hfs₁⟩ : ∃ fs₁ : FileSystem,
      fs₁ = { M.fsOrFresh with nextHandle := M.fsOrFresh.nextHandle + 1 } := ⟨_, rfl⟩
  obtain ⟨f₀, hf₀⟩ : ∃ f₀ : OpenFile, f₀ = OpenFile.opened name (modeStrOf 1) rl
      (openData M.fsOrFresh.virtualFiles name 1) := ⟨_, rfl⟩
  have hopen : js_file_open M name 1 rl =
      (M.putFile fs₁ M.fsOrFresh.nextHandle f₀, M.fsOrFresh.nextHandle) := by
    rw [hfs₁, hf₀]
    exact js_file_open_noHook M hook name 1 rl (by intro h; exact absurd h (by decide))
  obtain ⟨f', hw, hdata, hname, hmode⟩ :=
    writeLines_putFile M fs₁ M.fsOrFresh.nextHandle texts f₀
  have hname' : f'.name = name := by rw [hname, hf₀]; rfl
  have hsave : savesOnClose f'.mode = true := by rw [hmode, hf₀]; rfl
  have hdata' : f'.data = [] ++ joinLines texts := by
    rw [hdata, hf₀]; simp [openData_output, OpenFile.opened]
  have hre := reopen_after_close M hook fs₁ M.fsOrFresh.nextHandle f' hsave rl'
  rw [hname'] at hre
  have hn₁ : fs₁.nextHandle = M.fsOrFresh.nextHandle + 1 := by rw [hfs₁]
  have h1 : (writeThenReopen M name rl rl' texts).2.1 = M.fsOrFresh.nextHandle := by
    simp only [writeThenReopen, hopen]
  have h2 : (writeThenReopen M name rl rl' texts).2.2 = M.fsOrFresh.nextHandle + 1 := by
    simp only [writeThenReopen, hopen, hw, hre, hn₁]
  have h3 : (writeThenReopen M name rl rl' texts).1 =
      (js_file_close (M.putFile fs₁ M.fsOrFresh.nextHandle f') M.fsOrFresh.nextHandle).putFile
        { files := fs₁.files.delete M.fsOrFresh.nextHandle, nextHandle := fs₁.nextHandle + 1,
          virtualFiles := fs₁.virtualFiles.set name f'.data }
        (M.fsOrFresh.nextHandle + 1) (OpenFile.opened name (some .input) rl' f'.data) := by
    simp only [writeThenReopen, hopen, hw, hre, hn₁]
  rw [h1, h2, h3]
  refine ⟨by omega, by omega, ?_⟩
  exact readLines_joinLines _ _ _ texts [] _ hnl hdata' rfl (fun _ => rfl)

theorem C1_write_lines_read_back_witness :
    0 ≤ (writeThenReopen Module.initial [70] 128 128 [[72, 73], [], [74]]).2.1 ∧
    0 ≤ (writeThenReopen Module.initial [70] 128 128 [[72, 73], [], [74]]).2.2 ∧
    readLines (writeThenReopen Module.initial [70] 128 128 [[72, 73], [], [74]]).1
      (writeThenReopen Module.initial [70] 128 128 [[72, 73], [], [74]]).2.2 4 =
      [(some [72, 73], 0), (some [], 0), (some [74], 1), (none, 1)] :=
  C1_write_lines_read_back Module.initial rfl Module.initial_inv [70] 128 128
    [[72, 73], [], [74]] (by decide)

/-! ## C2: raw write and read back -/

theorem js_file_seek_record_putFile (M : Module) (fs : FileSystem) (h : Int) (f : OpenFile)
    (record record_length : Int) :
    js_file_seek_record (M.putFile fs h f) h record record_length =
      M.putFile fs h { f with position := (record - 1) * record_length,
                              eof := decide ((record - 1) * record_length ≥ f.data.length) } := by
  simp only [js_file_seek_record, Module.putFile_fileSystem, JSMap.get_set_self,
    Module.putFile_putFile]

theorem js_file_write_raw_putFile (M : Module) (fs : FileSystem) (h : Int) (f : OpenFile)
    (buffer : List Byte) :
    js_file_write_raw (M.putFile fs h f) h buffer =
      M.putFile fs h { f with data := rawWritten f.data f.position buffer,
                              position := f.position + buffer.length } := by
  simp only [js_file_write_raw, Module.putFile_fileSystem, JSMap.get_set_self,
    Module.putFile_putFile, rawWritten]
  by_cases hp : f.position < f.data.length
  · simp only [if_pos hp]
  · simp only [if_neg hp]

theorem js_file_read_raw_putFile (M : Module) (fs : FileSystem) (h : Int) (f : OpenFile)
    (size : Int) :
    js_file_read_raw (M.putFile fs h f) h size =
      (M.putFile fs h
        (if f.position + size ≥ f.data.length then
          { f with position := f.position + size, eof := true }
         else { f with position := f.position + size }),
       some (rawBytes (substring f.data f.position (f.position + size)) size)) := by
  simp only [js_file_read_raw, Module.putFile_fileSystem, JSMap.get_set_self,
    Module.putFile_putFile]

theorem toByte_val (b : Byte) : toByte b.val = b := by
  apply Fin.ext
  simp [toByte, Nat.mod_eq_of_lt b.isLt]

theorem rawBytes_map_val (b : List Byte) :
    rawBytes (b.map fun x => x.val) (b.length : Nat) = b := by
  apply List.ext_getElem
  · simp [rawBytes]
  · intro i h1 h2
    simp [rawBytes, charCodeAt, h2, toByte_val]

theorem rawWritten_readBack (d : JSString) (p : Nat) (hp : p ≤ d.length) (b : List Byte) :
    substring (rawWritten d p b) (p : Int) ((p : Int) + (b.length : Nat)) =
      b.map fun x => x.val := by
  have hpre : (d.take p).length = p := by simp [hp]
  by_cases hlt : (p : Int) < d.length
  · have h0 : substring d 0 (p : Int) = d.take p := by
      simp [substring, clampIndex, hp]
    have := substring_middle (d.take p) (b.map fun x => x.val)
      (substringFrom d ((p : Int) + (b.length : Nat)))
    simp only [rawWritten, if_pos hlt, h0, List.append_assoc]
    simpa [hpre] using this
  · have hpe : p = d.length := by omega
    have := substring_middle d (b.map fun x => x.val) []
    simp only [rawWritten, if_neg hlt]
    subst hpe
    simpa using this

theorem Module.file_putFile (M : Module) (fs : FileSystem) (h : Int) (f : OpenFile) :
    (M.putFile fs h f).file h = some f := by
  simp [Module.file, Module.table, Module.putFile, Module.withFS, JSMap.get_set_self]

theorem Module.exists_putFile (M : Module) (h : Int) (f : OpenFile) (hf : M.file h = some f) :
    ∃ fs, M.fileSystem = some fs ∧ fs.files.get h = some f ∧ M.putFile fs h f = M := by
  cases hfs : M.fileSystem with
  | none => simp [Module.file, Module.table, hfs, JSMap.get] at hf
  | some fs =>
    have hg : fs.files.get h = some f := by simpa [Module.file, Module.table, hfs] using hf
    exact ⟨fs, rfl, hg, Module.eq_putFile M fs h f hfs hg⟩

/-- C2 (as the code has it): on an open file with buffer `d`, for a record position
`P = (r-1)*L` with `0 ≤ P ≤ length d` and bytes `b`, writing `b` raw at `P`, seeking back
to `P` and reading `length b` bytes raw returns exactly `b`, whether `P + length b` is
within, at or beyond the end of `d`; and for `P` at or beyond the end of `d` the write
leaves the buffer `d` followed by `b`, with nothing between the old end and `b`. -/
theorem C2_write_raw_read_back (M : Module) (h : Int) (f : OpenFile) (hf : M.file h = some f)
    (r L : Int) (b : List Byte) :
    (0 ≤ (r - 1) * L → (r - 1) * L ≤ f.data.length →
      (writeRawThenReadBack M h r L b).2 = some b) ∧
    ((f.data.length : Int) ≤ (r - 1) * L →
      ((js_file_write_raw (js_file_seek_record M h r L) h b).file h).map (fun g => g.data) =
        some (f.data ++ b.map fun x => x.val)) := by
  obtain ⟨fs, -, -, hM⟩ := M.exists_putFile h f hf
  rw [← hM]
  constructor
  · intro h0 hle
    obtain ⟨p, hp⟩ := Int.eq_ofNat_of_zero_le h0
    have hpl : p ≤ f.data.length := by omega
    simp only [writeRawThenReadBack, js_file_seek_record_putFile, js_file_write_raw_putFile,
      js_file_read_raw_putFile, hp]
    rw [rawWritten_readBack f.data p hpl b, rawBytes_map_val]
  · intro hge
    have hnlt : ¬ (r - 1) * L < (f.data.length : Int) := by omega
    simp [js_file_seek_record_putFile, js_file_write_raw_putFile, Module.file_putFile,
      rawWritten, hnlt]

theorem C2_write_raw_read_back_witness :
    (writeRawThenReadBack (Module.initial.putFile FileSystem.fresh 1
      (OpenFile.opened [70] (some .random) 1 [7])) 1 2 1 [65, 66, 67]).2 = some [65, 66, 67] ∧
    ((js_file_write_raw (js_file_seek_record (Module.initial.putFile FileSystem.fresh 1
      (OpenFile.opened [70] (some .random) 1 [7])) 1 2 1) 1 [65, 66, 67]).file 1).map
      (fun g => g.data) = some [7, 65, 66, 67] :=
  ⟨(C2_write_raw_read_back _ 1 (OpenFile.opened [70] (some .random) 1 [7])
      (Module.file_putFile _ _ _ _) 2 1 [65, 66, 67]).1 (by decide) (by decide),
   (C2_write_raw_read_back _ 1 (OpenFile.opened [70] (some .random) 1 [7])
      (Module.file_putFile _ _ _ _) 2 1 [65, 66, 67]).2 (by decide)⟩

/-- C2 fails beyond the end of the buffer: on an empty random file, writing the byte `65`
at record 2 of length 1 (position 1) and reading that record back gives the byte `0`, and
the buffer is the single unit `65`: the byte was appended at the old end, not stored at
position 1 behind a zero. -/
theorem C2_counterexample :
    (writeRawThenReadBack emptyRandomFile 1 2 1 [65]).2 = some [0] ∧
    (writeRawThenReadBack emptyRandomFile 1 2 1 [65]).2 ≠ some [65] ∧
    ((js_file_write_raw (js_file_seek_record emptyRandomFile 1 2 1) 1 [65]).file 1).map
      (fun g => g.data) = some [65] := by
  decide

/-! ## C3: seek to a record and read it raw -/

/-- Up to `2 ^ 53` in magnitude an integer is a JavaScript number. -/
theorem jsNumber_of_le (x : Int) (h : x.natAbs ≤ 9007199254740992) : jsNumber x = x := by
  simp [jsNumber, h]

/-- Past `2 ^ 53` the product of `js_file_seek_record` is rounded: at record 2147483647 of
length 2147483647 the JavaScript number is 4611686011984936960, two less than the exact
product. -/
theorem jsNumber_record_product :
    jsNumber ((2147483647 - 1) * 2147483647) = 4611686011984936960 ∧
    (2147483647 - 1) * 2147483647 = (4611686011984936962 : Int) := by
  decide

theorem substring_window_length (d : JSString) (p size : Nat) :
    (substring d (p : Int) ((p : Int) + (size : Nat))).length = min (p + size) d.length - min p d.length := by
  have e : ((p : Int) + (size : Nat)) = ((p + size : Nat) : Int) := by simp
  rw [e]
  unfold substring
  rw [clampIndex_natCast, clampIndex_natCast]
  simp only [List.length_take, List.length_drop]
  omega

theorem substring_window_getD (d : JSString) (p size i : Nat) (hi : i < size)
    (hin : p + i < d.length) :
    (substring d (p : Int) ((p : Int) + (size : Nat))).getD i 0 = d.getD (p + i) 0 := by
  have e : ((p : Int) + (size : Nat)) = ((p + size : Nat) : Int) := by simp
  rw [e]
  unfold substring
  rw [clampIndex_natCast, clampIndex_natCast]
  have h1 : min (min p d.length) (min (p + size) d.length) = p := by omega
  have h2 : i < max (min p d.length) (min (p + size) d.length) - p := by omega
  simp only [h1]
  simp only [List.getD_eq_getElem?_getD]
  rw [List.getElem?_take_of_lt h2, List.getElem?_drop]

theorem rawBytes_window (d : JSString) (p size : Nat) :
    rawBytes (substring d (p : Int) ((p : Int) + (size : Nat))) (size : Nat) = windowBytes d p size := by
  unfold rawBytes windowBytes
  simp only [Int.toNat_ofNat]
  apply List.map_congr_left
  intro i hi
  have hi' : i < size := List.mem_range.mp hi
  rw [substring_window_length]
  by_cases hin : p + i < d.length
  · have : i < min (p + size) d.length - min p d.length := by omega
    simp only [if_pos this, if_pos hin, charCodeAt]
    rw [substring_window_getD d p size i hi' hin]
  · have : ¬ i < min (p + size) d.length - min p d.length := by omega
    simp only [if_neg this, if_neg hin]
    rfl

theorem windowBytes_val_of_bytes (d : JSString) (hd : ∀ x ∈ d, x < 256) (p size : Nat) :
    (windowBytes d p size).map (fun b => b.val) = (List.range size).map fun i => d.getD (p + i) 0 := by
  unfold windowBytes
  rw [List.map_map]
  apply List.map_congr_left
  intro i _
  by_cases hin : p + i < d.length
  · have hx : d[p + i] < 256 := hd _ (List.getElem_mem _)
    simp [hin, toByte, Nat.mod_eq_of_lt hx]
  · have hnone : d[p + i]? = none := List.getElem?_eq_none (by omega)
    simp [hin, hnone]

/-- C3 (as the code has it): on an open file with buffer `d`, for a record number `r ≥ 1`
and a record length `L ≥ 0` with `r*L ≤ 2^53`, `seek_record(r, L)` sets the position to
`(r-1)*L` and the eof flag to `position ≥ length d`; a following `read_raw(L)` returns
exactly `L` bytes, the byte for offset `(r-1)*L + i` being the low 8 bits of the unit of `d`
there when the offset is inside `d` and `0` when it is at or past the end, and leaves the
position at `r*L`.  Where every unit of `d` is a byte value (below 256) the bytes returned
are the units of `d` themselves.  Under the bound on `r*L` the product `(r-1)*L` and the sum
`(r-1)*L + L` are the JavaScript numbers the code computes. -/
theorem C3_seek_record_read_raw (M : Module) (h : Int) (f : OpenFile) (hf : M.file h = some f)
    (r L : Int) (hr : 1 ≤ r) (hL : 0 ≤ L) (hb : r * L ≤ 9007199254740992) :
    ((js_file_seek_record M h r L).file h).map (fun g => (g.position, g.eof, g.data)) =
      some ((r - 1) * L, decide ((r - 1) * L ≥ f.data.length), f.data) ∧
    (js_file_read_raw (js_file_seek_record M h r L) h L).2 =
      some (windowBytes f.data ((r - 1) * L).toNat L.toNat) ∧
    (windowBytes f.data ((r - 1) * L).toNat L.toNat).length = L.toNat ∧
    ((js_file_read_raw (js_file_seek_record M h r L) h L).1.file h).map (fun g => g.position) =
      some (r * L) ∧
    ((∀ x ∈ f.data, x < 256) →
      (windowBytes f.data ((r - 1) * L).toNat L.toNat).map (fun b => b.val) =
        (List.range L.toNat).map fun i => f.data.getD (((r - 1) * L).toNat + i) 0) ∧
    jsNumber ((r - 1) * L) = (r - 1) * L ∧
    jsNumber ((r - 1) * L + L) = r * L := by
  obtain ⟨fs, -, -, hM⟩ := M.exists_putFile h f hf
  rw [← hM]
  have hP : 0 ≤ (r - 1) * L := Int.mul_nonneg (by omega) hL
  obtain ⟨n, hn⟩ := Int.eq_ofNat_of_zero_le hL
  subst hn
  obtain ⟨p, hp⟩ := Int.eq_ofNat_of_zero_le hP
  have hrL : r * (n : Int) = (r - 1) * n + n := by ring
  refine ⟨?_, ?_, ?_, ?_, ?_, ?_, ?_⟩
  · simp [js_file_seek_record_putFile, Module.file_putFile]
  · simp only [js_file_seek_record_putFile, js_file_read_raw_putFile, hp]
    rw [rawBytes_window]
    simp
  · simp [windowBytes]
  · simp only [js_file_seek_record_putFile, js_file_read_raw_putFile, hrL]
    split <;> simp [Module.file_putFile]
  · intro hd
    exact windowBytes_val_of_bytes f.data hd _ _
  · exact jsNumber_of_le _ (by omega)
  · rw [← hrL]
    exact jsNumber_of_le _ (by omega)

theorem C3_seek_record_read_raw_witness :
    ((js_file_seek_record fiveByteFile 1 2 2).file 1).map
        (fun g => (g.position, g.eof, g.data)) = some (2, false, [1, 2, 3, 4, 5]) ∧
    (js_file_read_raw (js_file_seek_record fiveByteFile 1 2 2) 1 2).2 = some [3, 4] ∧
    ([3, 4] : List Byte).length = 2 ∧
    ((js_file_read_raw (js_file_seek_record fiveByteFile 1 2 2) 1 2).1.file 1).map
        (fun g => g.position) = some 4 ∧
    ([3, 4] : List Byte).map (fun b => b.val) = [3, 4] ∧
    jsNumber ((2 - 1) * 2) = (2 - 1) * 2 :=
  have w := C3_seek_record_read_raw fiveByteFile 1
    (OpenFile.opened [70] (some .random) 2 [1, 2, 3, 4, 5]) (by decide) 2 2 (by decide)
    (by decide) (by decide)
  ⟨w.1, w.2.1, w.2.2.1, w.2.2.2.1, w.2.2.2.2.1 (by decide), w.2.2.2.2.2.1⟩

/-- C3 fails on a buffer holding a unit above 255: on the file holding `"€"`,
`seek_record(1, 1)` then `read_raw(1)` returns the byte `0xAC`, the low 8 bits of the unit
`0x20AC` at offset 0, not the unit itself. -/
theorem C3_counterexample :
    (euroFile.file 2).map (fun g => g.data) = some [0x20AC] ∧
    (js_file_read_raw (js_file_seek_record euroFile 2 1 1) 2 1).2 = some [0xAC] ∧
    ((0xAC : Byte).val ≠ 0x20AC) := by
  decide

/-! ## C4: opening for input -/

theorem Module.Inv_of_nextHandle (M M' : Module)
    (h : ∀ fs', M'.fileSystem = some fs' → M.fsOrFresh.nextHandle ≤ fs'.nextHandle)
    (hinv : M.Inv) : M'.Inv := by
  intro fs' hfs'
  have := hinv.nextHandle_pos
  have := h fs' hfs'
  omega

theorem Module.Inv_open (M : Module) (hinv : M.Inv) (fname : JSString) (mode rl : Int) :
    (js_file_open M fname mode rl).1.Inv := by
  apply Module.Inv_of_nextHandle M _ _ hinv
  intro fs' hfs'
  unfold js_file_open at hfs'
  simp only [Module.withFS] at hfs'
  split at hfs'
  · split at hfs' <;> (simp at hfs'; subst hfs'; simp)
  · split at hfs' <;> (simp at hfs'; subst hfs'; simp)

theorem Module.Inv_putFile (M : Module) (fs : FileSystem) (h : Int) (f : OpenFile)
    (hfs : 1 ≤ fs.nextHandle) : (M.putFile fs h f).Inv := by
  intro fs' hfs'
  simp [Module.putFile, Module.withFS] at hfs'
  subst hfs'
  exact hfs

/-- Every operation on an existing file system keeps the handle counter positive. -/
theorem Module.Inv_ops (M : Module) (hinv : M.Inv) (h : Int) (t : JSString) (n r L : Int)
    (b : List Byte) (name name' : JSString) :
    (js_file_close M h).Inv ∧ (js_file_read_line M h).1.Inv ∧ (js_file_write_line M h t).Inv ∧
    (js_file_write M h t).Inv ∧ (js_file_read_chars M h n).1.Inv ∧
    (js_file_seek_record M h r L).Inv ∧ (js_file_read_raw M h n).1.Inv ∧
    (js_file_write_raw M h b).Inv ∧ (js_file_flush M h).Inv ∧ (js_file_remove M name).1.Inv ∧
    (js_file_rename M name name').1.Inv := by
  cases hM : M.fileSystem with
  | none =>
    simp only [js_file_close, js_file_read_line, js_file_write_line, js_file_write,
      js_file_read_chars, js_file_seek_record, js_file_read_raw, js_file_write_raw,
      js_file_flush, js_file_remove, js_file_rename, hM]
    exact ⟨hinv, hinv, hinv, hinv, hinv, hinv, hinv, hinv, hinv, hinv, hinv⟩
  | some fs =>
    have hn := hinv fs hM
    cases hf : fs.files.get h with
    | none =>
      simp only [js_file_close, js_file_read_line, js_file_write_line, js_file_write,
        js_file_read_chars, js_file_seek_record, js_file_read_raw, js_file_write_raw,
        js_file_flush, hM, hf]
      refine ⟨hinv, hinv, hinv, hinv, hinv, hinv, hinv, hinv, hinv, ?_, ?_⟩
      · intro fs' hfs'
        simp [js_file_remove, hM] at hfs'
        subst hfs'; exact hn
      · intro fs' hfs'
        unfold js_file_rename at hfs'
        simp only [hM] at hfs'
        split at hfs'
        · exact hinv fs' (by simpa using hfs')
        · simp at hfs'; subst hfs'; exact hn
    | some f =>
      simp only [js_file_close, js_file_read_line, js_file_write_line, js_file_write,
        js_file_read_chars, js_file_seek_record, js_file_read_raw, js_file_write_raw,
        js_file_flush, hM, hf]
      refine ⟨?_, ?_, ?_, ?_, ?_, ?_, ?_, ?_, ?_, ?_, ?_⟩
      · intro fs' hfs'
        split at hfs' <;> (simp [Module.withFS] at hfs'; subst hfs'; exact hn)
      · split <;> exact Module.Inv_putFile _ _ _ _ hn
      · exact Module.Inv_putFile _ _ _ _ hn
      · exact Module.Inv_putFile _ _ _ _ hn
      · exact Module.Inv_putFile _ _ _ _ hn
      · exact Module.Inv_putFile _ _ _ _ hn
      · exact Module.Inv_putFile _ _ _ _ hn
      · exact Module.Inv_putFile _ _ _ _ hn
      · intro fs' hfs'
        simp at hfs'; subst hfs'; exact hn
      · intro fs' hfs'
        simp [js_file_remove, hM] at hfs'
        subst hfs'; exact hn
      · intro fs' hfs'
        unfold js_file_rename at hfs'
        simp only [hM] at hfs'
        split at hfs'
        · exact hinv fs' (by simpa using hfs')
        · simp at hfs'; subst hfs'; exact hn

/-! ## C5, C6: rename -/

theorem js_file_rename_absent (M : Module) (oldName newName : JSString)
    (habs : M.store.has oldName = false) : js_file_rename M oldName newName = (M, 0) := by
  cases hM : M.fileSystem with
  | none => simp [js_file_rename, hM]
  | some fs =>
    have hg : fs.virtualFiles.get oldName = none := by
      simpa [Module.store, hM, JSMap.has] using habs
    simp [js_file_rename, hM, hg]

/-- C5: when `old` is absent from the persisted store, `rename(old, new)` returns false and
leaves the persisted store (every name and its content, `new` included) and the open-file
table unchanged; the whole module is as it was and no hook is notified. -/
theorem C5_rename_absent (M : Module) (oldName newName : JSString)
    (habs : M.store.has oldName = false) :
    (WasmFileSystem.rename M oldName newName).2 = false ∧
    (js_file_rename M oldName newName).2 = 0 ∧
    (js_file_rename M oldName newName).1.store = M.store ∧
    (js_file_rename M oldName newName).1.table = M.table ∧
    (js_file_rename M oldName newName).1.hostLog = M.hostLog := by
  simp [WasmFileSystem.rename, js_file_rename_absent M oldName newName habs]

theorem C5_rename_absent_witness :
    (WasmFileSystem.rename storeWithB [65] [66]).2 = false ∧
    (js_file_rename storeWithB [65] [66]).2 = 0 ∧
    (js_file_rename storeWithB [65] [66]).1.store = storeWithB.store ∧
    (js_file_rename storeWithB [65] [66]).1.table = storeWithB.table ∧
    (js_file_rename storeWithB [65] [66]).1.hostLog = storeWithB.hostLog :=
  C5_rename_absent storeWithB [65] [66] (by decide)

theorem js_file_rename_present (M : Module) (fs : FileSystem) (oldName newName c : JSString)
    (hM : M.fileSystem = some fs) (hc : fs.virtualFiles.get oldName = some c) :
    js_file_rename M oldName newName =
      ({ M with
         fileSystem := some { fs with virtualFiles := (fs.virtualFiles.delete oldName).set newName c },
         hostLog := if M.onFileRename then M.hostLog ++ [HostEvent.fileRename oldName newName]
                    else M.hostLog }, 1) := by
  simp [js_file_rename, hM, hc]

theorem Module.store_get_some (M : Module) (name c : JSString) (hc : M.store.get name = some c) :
    ∃ fs, M.fileSystem = some fs ∧ fs.virtualFiles.get name = some c := by
  cases hM : M.fileSystem with
  | none => simp [Module.store, hM, JSMap.get] at hc
  | some fs => exact ⟨fs, rfl, by simpa [Module.store, hM] using hc⟩

theorem js_file_open_input_present (M : Module) (hook : M.onFileOpen = none) (name c : JSString)
    (rl : Int) (hc : M.store.get name = some c) :
    js_file_open M name 0 rl =
      (M.putFile { M.fsOrFresh with nextHandle := M.fsOrFresh.nextHandle + 1 }
          M.fsOrFresh.nextHandle (OpenFile.opened name (some .input) rl c),
        M.fsOrFresh.nextHandle) := by
  rw [js_file_open_noHook M hook name 0 rl
    (by intro _; rw [M.fsOrFresh_store]; simp [JSMap.has, hc])]
  rw [openData_input, M.fsOrFresh_store, hc]
  rfl

/-- C6 (as the code has it): when `old` is present in the persisted store with content `c`,
`rename(old, new)` returns true, afterwards `new` holds `c` (with no `onFileOpen` hook,
`open(new, Input)` succeeds with buffer `c`) and every name other than `old` and `new`
keeps its content; when moreover `old` and `new` differ, `old` is absent from the store, so
that `exists(old)` is false with no `onFileExists` hook and `open(old, Input)` fails with
no `onFileOpen` hook. -/
theorem C6_rename_present (M : Module) (oldName newName c : JSString) (rl : Int)
    (hc : M.store.get oldName = some c) :
    (WasmFileSystem.rename M oldName newName).2 = true ∧
    (js_file_rename M oldName newName).1.store.get newName = some c ∧
    (∀ n, n ≠ oldName → n ≠ newName →
      (js_file_rename M oldName newName).1.store.get n = M.store.get n) ∧
    (M.onFileOpen = none → M.Inv →
      0 ≤ (js_file_open (js_file_rename M oldName newName).1 newName 0 rl).2 ∧
      (js_file_open (js_file_rename M oldName newName).1 newName 0 rl).1.file
        (js_file_open (js_file_rename M oldName newName).1 newName 0 rl).2 =
        some (OpenFile.opened newName (some .input) rl c)) ∧
    (oldName ≠ newName →
      (js_file_rename M oldName newName).1.store.has oldName = false ∧
      (M.onFileExists = none →
        WasmFileSystem.exists (js_file_rename M oldName newName).1 oldName = false) ∧
      (M.onFileOpen = none →
        (js_file_open (js_file_rename M oldName newName).1 oldName 0 rl).2 = -1)) := by
  obtain ⟨fs, hM, hg⟩ := M.store_get_some oldName c hc
  have hstore : M.store = fs.virtualFiles := by simp [Module.store, hM]
  have hren := js_file_rename_present M fs oldName newName c hM hg
  have hs' : (js_file_rename M oldName newName).1.store =
      (fs.virtualFiles.delete oldName).set newName c := by rw [hren]; rfl
  have hnew : (js_file_rename M oldName newName).1.store.get newName = some c := by
    rw [hs', JSMap.get_set_self]
  refine ⟨by simp [WasmFileSystem.rename, hren], hnew, ?_, ?_, ?_⟩
  · intro n hno hnn
    rw [hs', JSMap.get_set_of_ne _ _ _ _ hnn, JSMap.get_delete_of_ne _ _ _ hno, hstore]
  · intro hook hinv
    have hook' : (js_file_rename M oldName newName).1.onFileOpen = none := by rw [hren]; exact hook
    have hinv' : (js_file_rename M oldName newName).1.Inv :=
      (M.Inv_ops hinv 0 [] 0 0 0 [] oldName newName).2.2.2.2.2.2.2.2.2.2
    have hpos := hinv'.nextHandle_pos
    rw [js_file_open_input_present _ hook' newName c rl hnew]
    exact ⟨by show (0 : Int) ≤ _; omega, Module.file_putFile _ _ _ _⟩
  · intro hne
    have hold : (js_file_rename M oldName newName).1.store.get oldName = none := by
      rw [hs', JSMap.get_set_of_ne _ _ _ _ hne, JSMap.get_delete_self]
    have hhas : (js_file_rename M oldName newName).1.store.has oldName = false := by
      simp [JSMap.has, hold]
    refine ⟨hhas, ?_, ?_⟩
    · intro hex
      have hhas' : ((fs.virtualFiles.delete oldName).set newName c).has oldName = false := by
        rw [← hs']; exact hhas
      simp [WasmFileSystem.exists, js_file_exists, hren, hex, hhas']
    · intro hook
      have hook' : (js_file_rename M oldName newName).1.onFileOpen = none := by
        rw [hren]; exact hook
      rw [js_file_open_noHook_absent _ hook' oldName rl
        (by rw [Module.fsOrFresh_store]; exact hhas)]

theorem Module.inv_iff (M : Module) : M.Inv ↔ 1 ≤ M.fsOrFresh.nextHandle := by
  constructor
  · exact fun h => h.nextHandle_pos
  · intro h fs hfs
    simpa [Module.fsOrFresh, hfs] using h

theorem C6_rename_present_witness :
    (WasmFileSystem.rename storeWithB [66] [67]).2 = true ∧
    (js_file_rename storeWithB [66] [67]).1.store.get [67] = some [120] ∧
    (js_file_rename storeWithB [66] [67]).1.store.get [65] = storeWithB.store.get [65] ∧
    (0 ≤ (js_file_open (js_file_rename storeWithB [66] [67]).1 [67] 0 128).2 ∧
      (js_file_open (js_file_rename storeWithB [66] [67]).1 [67] 0 128).1.file
        (js_file_open (js_file_rename storeWithB [66] [67]).1 [67] 0 128).2 =
        some (OpenFile.opened [67] (some .input) 128 [120])) ∧
    (js_file_rename storeWithB [66] [67]).1.store.has [66] = false ∧
    WasmFileSystem.exists (js_file_rename storeWithB [66] [67]).1 [66] = false ∧
    (js_file_open (js_file_rename storeWithB [66] [67]).1 [66] 0 128).2 = -1 :=
  have w := C6_rename_present storeWithB [66] [67] [120] 128 (by decide)
  ⟨w.1, w.2.1, w.2.2.1 [65] (by decide) (by decide), w.2.2.2.1 rfl ((Module.inv_iff _).2 (by decide)),
    (w.2.2.2.2 (by decide)).1, (w.2.2.2.2 (by decide)).2.1 rfl,
    (w.2.2.2.2 (by decide)).2.2 rfl⟩

/-- C6 fails when `old` and `new` are the same name: renaming `"B"` to `"B"` returns true
and `"B"` is still present, `exists("B")` is true and `open("B", Input)` succeeds.  It also
fails for `exists` under an `onFileExists` hook: after renaming `"B"` to `"C"` the hook
still answers true for `"B"`. -/
theorem C6_counterexample :
    ((WasmFileSystem.rename storeWithB [66] [66]).2 = true ∧
      WasmFileSystem.exists (js_file_rename storeWithB [66] [66]).1 [66] = true ∧
      (js_file_open (js_file_rename storeWithB [66] [66]).1 [66] 0 128).2 = 3) ∧
    ((WasmFileSystem.rename storeWithBHooked [66] [67]).2 = true ∧
      WasmFileSystem.exists (js_file_rename storeWithBHooked [66] [67]).1 [66] = true) := by
  decide

/-! ## C7: text writes append -/

/-- C7: on an open file with buffer `d`, at any position, `write(t)` leaves the buffer equal
to `d` followed by `t` and `write_line(t)` leaves it equal to `d` followed by `t` and
`'\n'`; the units of `d` stay where they were and the position becomes the new buffer
length; nothing else of the entry changes. -/
theorem C7_text_writes_append (M : Module) (h : Int) (f : OpenFile) (hf : M.file h = some f)
    (t : JSString) :
    (js_file_write M h t).file h =
      some { f with data := f.data ++ t, position := ((f.data ++ t).length : Nat) } ∧
    (js_file_write_line M h t).file h =
      some { f with data := f.data ++ (t ++ [LF]),
                    position := ((f.data ++ (t ++ [LF])).length : Nat) } ∧
    (f.data ++ t).take f.data.length = f.data ∧
    (f.data ++ (t ++ [LF])).take f.data.length = f.data := by
  obtain ⟨fs, -, -, hM⟩ := M.exists_putFile h f hf
  rw [← hM]
  refine ⟨?_, ?_, by simp, by simp⟩
  · rw [js_file_write_putFile, Module.file_putFile]
  · rw [js_file_write_line_putFile, Module.file_putFile]

theorem C7_text_writes_append_witness :
    (js_file_write (js_file_seek_record fiveByteFile 1 2 2) 1 [65, 66]).file 1 =
      some { name := [70], mode := some .random, recordLength := 2,
             data := [1, 2, 3, 4, 5, 65, 66], position := 7, eof := false } ∧
    (js_file_write_line (js_file_seek_record fiveByteFile 1 2 2) 1 [65, 66]).file 1 =
      some { name := [70], mode := some .random, recordLength := 2,
             data := [1, 2, 3, 4, 5, 65, 66, 10], position := 8, eof := false } ∧
    ([1, 2, 3, 4, 5, 65, 66] : JSString).take 5 = [1, 2, 3, 4, 5] ∧
    ([1, 2, 3, 4, 5, 65, 66, 10] : JSString).take 5 = [1, 2, 3, 4, 5] :=
  C7_text_writes_append (js_file_seek_record fiveByteFile 1 2 2) 1
    { name := [70], mode := some .random, recordLength := 2,
      data := [1, 2, 3, 4, 5], position := 2, eof := false } (by decide) [65, 66]

/-! ## C8: close -/

theorem js_file_close_absent (M : Module) (h : Int) (hf : M.file h = none) :
    js_file_close M h = M := by
  cases hM : M.fileSystem with
  | none => simp [js_file_close, hM]
  | some fs =>
    have hg : fs.files.get h = none := by simpa [Module.file, Module.table, hM] using hf
    simp [js_file_close, hM, hg]

/-- What `js_file_close` does to an open handle, seen through the store, the table and
the log of hook calls. -/
theorem js_file_close_open (M : Module) (h : Int) (f : OpenFile) (hf : M.file h = some f) :
    (js_file_close M h).table = M.table.delete h ∧
    (js_file_close M h).store =
      (if savesOnClose f.mode then M.store.set f.name f.data else M.store) ∧
    (js_file_close M h).hostLog =
      (if savesOnClose f.mode && M.onFileSave then
        M.hostLog ++ [HostEvent.fileSave f.name f.data] else M.hostLog) := by
  obtain ⟨fs, hfs, hg, hM⟩ := M.exists_putFile h f hf
  have hc := js_file_close_putFile M fs h f
  rw [hM] at hc
  have ht : M.table = fs.files := by simp [Module.table, hfs]
  have hs : M.store = fs.virtualFiles := by simp [Module.store, hfs]
  rw [hc, ht, hs]
  by_cases hsave : savesOnClose f.mode = true
  · simp only [if_pos hsave, hsave, Bool.true_and]
    exact ⟨rfl, rfl, rfl⟩
  · simp only [if_neg hsave, Bool.not_eq_true] at hsave ⊢
    simp only [hsave, Bool.false_and]
    exact ⟨rfl, rfl, rfl⟩

/-- C8 (as the code has it): closing an open handle `h` on file name `f.name` with buffer
`f.data` removes `h` from the open-file table and leaves every other handle as it was; in
mode Output, Append or Random it sets the persisted content of that name to exactly the
buffer (one `onFileSave` call when that hook is installed) and leaves every other name as
it was; in mode Input it leaves the persisted store unchanged; a second close of the same
handle changes nothing.  `WasmFileHandle::close` on an open wrapper of `h` is exactly
`js_file_close(h)` and marks the wrapper closed, on a closed wrapper it does nothing, so
closing the wrapper twice is closing it once.  When another handle `h₂` on the same name
is closed afterwards, the store ends with the buffer of `h₂`, the one closed last, if
`h₂` is in mode Output, Append or Random; if `h₂` is in mode Input the store stays as the
first close left it. -/
theorem C8_close (M : Module) (h : Int) (f : OpenFile) (hf : M.file h = some f) :
    (js_file_close M h).file h = none ∧
    (∀ h', h' ≠ h → (js_file_close M h).file h' = M.file h') ∧
    (f.mode = some .output ∨ f.mode = some .append ∨ f.mode = some .random →
      (js_file_close M h).store.get f.name = some f.data ∧
      (∀ n, n ≠ f.name → (js_file_close M h).store.get n = M.store.get n) ∧
      (js_file_close M h).hostLog =
        (if M.onFileSave then M.hostLog ++ [HostEvent.fileSave f.name f.data] else M.hostLog)) ∧
    (f.mode = some .input →
      (js_file_close M h).store = M.store ∧ (js_file_close M h).hostLog = M.hostLog) ∧
    js_file_close (js_file_close M h) h = js_file_close M h ∧
    (∀ w : WasmFileHandle, w.handle_ = h →
      WasmFileHandle.close (WasmFileHandle.close M w).1 (WasmFileHandle.close M w).2 =
        WasmFileHandle.close M w) ∧
    (∀ w : WasmFileHandle, w.handle_ = h → w.open_ = true →
      WasmFileHandle.close M w = (js_file_close M h, { handle_ := h, open_ := false }) ∧
      WasmFileHandle.is_open (WasmFileHandle.close M w).2 = false ∧
      ((WasmFileHandle.close M w).1.file h = none) ∧
      WasmFileHandle.close (WasmFileHandle.close M w).1 (WasmFileHandle.close M w).2 =
        (js_file_close M h, { handle_ := h, open_ := false })) ∧
    (∀ w : WasmFileHandle, w.open_ = false → WasmFileHandle.close M w = (M, w)) ∧
    (∀ (h₂ : Int) (f₂ : OpenFile), h₂ ≠ h → M.file h₂ = some f₂ → f₂.name = f.name →
      (f₂.mode = some .output ∨ f₂.mode = some .append ∨ f₂.mode = some .random) →
      (js_file_close (js_file_close M h) h₂).store.get f.name = some f₂.data) ∧
    (∀ (h₂ : Int) (f₂ : OpenFile), h₂ ≠ h → M.file h₂ = some f₂ → f₂.name = f.name →
      f₂.mode = some .input →
      (js_file_close (js_file_close M h) h₂).store = (js_file_close M h).store ∧
      (js_file_close (js_file_close M h) h₂).hostLog = (js_file_close M h).hostLog) := by
  obtain ⟨htab, hstore, hlog⟩ := js_file_close_open M h f hf
  have hsaves : ∀ g : OpenFile,
      (g.mode = some .output ∨ g.mode = some .append ∨ g.mode = some .random) →
      savesOnClose g.mode = true := by
    intro g hg
    rcases hg with hg | hg | hg <;> simp [savesOnClose, hg]
  have hgone : (js_file_close M h).file h = none := by
    simp only [Module.file, htab, JSMap.get_delete_self]
  have hothers : ∀ h', h' ≠ h → (js_file_close M h).file h' = M.file h' := by
    intro h' hne
    simp only [Module.file, htab, JSMap.get_delete_of_ne _ _ _ hne]
  have hidem := js_file_close_absent _ h hgone
  refine ⟨hgone, hothers, ?_, ?_, hidem, ?_, ?_, ?_, ?_, ?_⟩
  · intro hmode
    have hs := hsaves f hmode
    rw [hstore, hlog, if_pos hs, hs]
    refine ⟨JSMap.get_set_self _ _ _, fun n hn => JSMap.get_set_of_ne _ _ _ _ hn, ?_⟩
    simp
  · intro hmode
    have hs : savesOnClose f.mode = false := by simp [savesOnClose, hmode]
    rw [hstore, hlog, hs]
    simp
  · intro w hw
    by_cases ho : w.open_ = true
    · simp [WasmFileHandle.close, ho]
    · simp [WasmFileHandle.close, ho]
  · intro w hw ho
    have hc : WasmFileHandle.close M w =
        (js_file_close M h, { handle_ := h, open_ := false }) := by
      simp [WasmFileHandle.close, ho, hw]
    rw [hc]
    exact ⟨rfl, rfl, hgone, by simp [WasmFileHandle.close]⟩
  · intro w ho
    simp [WasmFileHandle.close, ho]
  · intro h₂ f₂ hne hf₂ hname hmode₂
    have hf₂' : (js_file_close M h).file h₂ = some f₂ := by rw [hothers h₂ hne]; exact hf₂
    obtain ⟨-, hstore₂, -⟩ := js_file_close_open (js_file_close M h) h₂ f₂ hf₂'
    rw [hstore₂, if_pos (hsaves f₂ hmode₂), ← hname, JSMap.get_set_self]
  · intro h₂ f₂ hne hf₂ _ hmode₂
    have hf₂' : (js_file_close M h).file h₂ = some f₂ := by rw [hothers h₂ hne]; exact hf₂
    obtain ⟨-, hstore₂, hlog₂⟩ := js_file_close_open (js_file_close M h) h₂ f₂ hf₂'
    have hs : savesOnClose f₂.mode = false := by simp [savesOnClose, hmode₂]
    rw [hstore₂, hlog₂, hs]
    simp

theorem C8_close_witness :
    (js_file_close twoWriters 1).file 1 = none ∧
    (js_file_close twoWriters 1).file 2 = twoWriters.file 2 ∧
    ((js_file_close twoWriters 1).store.get [70] = some [97] ∧
      (js_file_close twoWriters 1).store.get [71] = twoWriters.store.get [71]) ∧
    (js_file_close storeWithB 2).store = storeWithB.store ∧
    js_file_close (js_file_close twoWriters 1) 1 = js_file_close twoWriters 1 ∧
    WasmFileHandle.close (WasmFileHandle.close twoWriters ⟨1, true⟩).1
        (WasmFileHandle.close twoWriters ⟨1, true⟩).2 =
      WasmFileHandle.close twoWriters ⟨1, true⟩ ∧
    WasmFileHandle.close twoWriters ⟨1, true⟩ = (js_file_close twoWriters 1, ⟨1, false⟩) ∧
    WasmFileHandle.close twoWriters ⟨1, false⟩ = (twoWriters, ⟨1, false⟩) ∧
    (js_file_close (js_file_close twoWriters 1) 2).store.get [70] = some [98] ∧
    (js_file_close (js_file_close readerAndWriter 3) 2).store =
      (js_file_close readerAndWriter 3).store :=
  have w := C8_close twoWriters 1
    { name := [70], mode := some .output, recordLength := 128, data := [97], position := 1,
      eof := false } (by decide)
  have v := C8_close storeWithB 2
    { name := [66], mode := some .input, recordLength := 128, data := [120], position := 0,
      eof := false } (by decide)
  have u := C8_close readerAndWriter 3
    { name := [66], mode := some .output, recordLength := 128, data := [113], position := 1,
      eof := false } (by decide)
  ⟨w.1, w.2.1 2 (by decide),
    ⟨(w.2.2.1 (Or.inl rfl)).1, (w.2.2.1 (Or.inl rfl)).2.1 [71] (by decide)⟩,
    (v.2.2.2.1 rfl).1, w.2.2.2.2.1, w.2.2.2.2.2.1 ⟨1, true⟩ rfl,
    (w.2.2.2.2.2.2.1 ⟨1, true⟩ rfl rfl).1,
    w.2.2.2.2.2.2.2.1 ⟨1, false⟩ rfl,
    w.2.2.2.2.2.2.2.2.1 2
      { name := [70], mode := some .append, recordLength := 128, data := [98], position := 1,
        eof := false } (by decide) (by decide) rfl (Or.inr (Or.inl rfl)),
    (u.2.2.2.2.2.2.2.2.2 2
      { name := [66], mode := some .input, recordLength := 128, data := [120], position := 0,
        eof := false } (by decide) (by decide) rfl rfl).1⟩

/-- C8, the claim as stated fails when the handle closed last is in Input mode: with `"B"`
open for input under handle `2` (buffer `"x"`) and for output under handle `3` (buffer
`"q"`), closing `3` and then `2` leaves the store holding `"q"`, the buffer of the handle
closed first, through `js_file_close` and through `WasmFileHandle::close` alike. -/
theorem C8_counterexample :
    (readerAndWriter.file 2).map (fun g => (g.name, g.mode, g.data)) =
      some ([66], some .input, [120]) ∧
    (readerAndWriter.file 3).map (fun g => (g.name, g.mode, g.data)) =
      some ([66], some .output, [113]) ∧
    (js_file_close (js_file_close readerAndWriter 3) 2).store.get [66] = some [113] ∧
    (js_file_close (js_file_close readerAndWriter 3) 2).store.get [66] ≠ some [120] ∧
    ( WasmFileHandle.close ( WasmFileHandle.close readerAndWriter ⟨3, true⟩).1
      ⟨2, true⟩).1.store.get [66] = some [113] := by
  decide

/-! ## C9, C10: a load that fails -/

namespace MBasicSession

variable {Program Runtime Interpreter : Type}

theorem loadProgramTry_parse_error (E : Engine Program Runtime Interpreter)
    (s : MBasicSession Program Runtime Interpreter) (source : String) (e : Thrown)
    (hparse : E.parse source = .error e) : loadProgramTry E s source = (s, some e) := by
  simp [loadProgramTry, hparse]

end MBasicSession

theorem ne_empty_of_prefix (a b : String) (ha : 0 < a.length) : a ++ b ≠ "" := by
  intro h
  have hl := congrArg String.length h
  rw [String.length_append] at hl
  have : ("" : String).length = 0 := rfl
  omega

/-- C9 (as the code has it): when the compilation of `source` fails with a lexer or
parse error, `loadProgram` leaves the loaded flag, the program, its source, the runtime,
the engine and the terminal as they were: `isLoaded()` and `listProgram()` answer as
before the call, so a session with no loaded program still has none, and a session that
held a loaded program still holds it. -/
theorem C9_failed_load_keeps_session {Program Runtime Interpreter : Type}
    (E : Engine Program Runtime Interpreter) (s : MBasicSession Program Runtime Interpreter)
    (source : String)
    (hfail : (∃ l c w, E.parse source = .error (.ParseError l c w)) ∨
             (∃ l c w, E.parse source = .error (.LexerError l c w))) :
    (MBasicSession.loadProgram E s source).1.isLoaded = s.isLoaded ∧
    (MBasicSession.loadProgram E s source).1.listProgram = s.listProgram ∧
    (MBasicSession.loadProgram E s source).1.program_ = s.program_ ∧
    (MBasicSession.loadProgram E s source).1.runtime_ = s.runtime_ ∧
    (MBasicSession.loadProgram E s source).1.interpreter_ = s.interpreter_ ∧
    (MBasicSession.loadProgram E s source).1.io_ = s.io_ ∧
    (s.isLoaded = false → (MBasicSession.loadProgram E s source).1.isLoaded = false) := by
  rcases hfail with ⟨l, c, w, hp⟩ | ⟨l, c, w, hp⟩ <;>
    simp [MBasicSession.loadProgram, MBasicSession.loadProgramTry_parse_error E s source _ hp,
      MBasicSession.isLoaded, MBasicSession.listProgram]

theorem C9_failed_load_keeps_session_witness :
    (MBasicSession.loadProgram sampleEngine loadedSession "10 PRINT (").1.isLoaded =
      loadedSession.isLoaded ∧
    (MBasicSession.loadProgram sampleEngine loadedSession "10 PRINT (").1.listProgram =
      loadedSession.listProgram ∧
    (MBasicSession.loadProgram sampleEngine MBasicSession.new "10 PRINT (").1.isLoaded = false :=
  have hp : sampleEngine.parse "10 PRINT (" = .error (.ParseError 10 9 "Syntax error") := rfl
  have w := C9_failed_load_keeps_session sampleEngine loadedSession "10 PRINT ("
    (Or.inl ⟨10, 9, "Syntax error", hp⟩)
  have v := C9_failed_load_keeps_session sampleEngine MBasicSession.new "10 PRINT ("
    (Or.inl ⟨10, 9, "Syntax error", hp⟩)
  ⟨w.1, w.2.1, v.2.2.2.2.2.2 rfl⟩

/-- C9 fails on a session that holds a loaded program: after `10 PRINT 1` is loaded, loading
a source that does not parse returns false and leaves `isLoaded()` true and
`listProgram()` returning `10 PRINT 1`, with the program, runtime and engine still there. -/
theorem C9_counterexample :
    sampleEngine.parse "10 PRINT (" = .error (.ParseError 10 9 "Syntax error") ∧
    (MBasicSession.loadProgram sampleEngine loadedSession "10 PRINT (").2 = .ok false ∧
    (MBasicSession.loadProgram sampleEngine loadedSession "10 PRINT (").1.isLoaded = true ∧
    (MBasicSession.loadProgram sampleEngine loadedSession "10 PRINT (").1.listProgram =
      "10 PRINT 1" ∧
    (MBasicSession.loadProgram sampleEngine loadedSession "10 PRINT (").1.program_ =
      some "10 PRINT 1" ∧
    (MBasicSession.loadProgram sampleEngine loadedSession "10 PRINT (").1.runtime_ = some () ∧
    (MBasicSession.loadProgram sampleEngine loadedSession "10 PRINT (").1.interpreter_ =
      some () :=
  ⟨rfl, rfl, rfl, rfl, rfl, rfl, rfl⟩

/-- C10: when parsing `source` raises a `ParseError`, a `LexerError` or any other standard
exception, `loadProgram` returns false and lets no exception through, and
`getLastError()` afterwards is a non-empty string: `Parse error at line L, col C: m` or
`Lexer error at line L, col C: m` with the line, column and message of the error, or
`Error: m` for another standard exception. -/
theorem C10_failed_load_reports {Program Runtime Interpreter : Type}
    (E : Engine Program Runtime Interpreter) (s : MBasicSession Program Runtime Interpreter)
    (source : String) (e : Thrown) (hparse : E.parse source = .error e)
    (hstd : e ≠ .foreign) :
    (MBasicSession.loadProgram E s source).2 = .ok false ∧
    (MBasicSession.loadProgram E s source).1.getLastError ≠ "" ∧
    (∀ l c w, e = .ParseError l c w →
      (MBasicSession.loadProgram E s source).1.getLastError =
        "Parse error at line " ++ toString l ++ ", col " ++ toString c ++ ": " ++ w) ∧
    (∀ l c w, e = .LexerError l c w →
      (MBasicSession.loadProgram E s source).1.getLastError =
        "Lexer error at line " ++ toString l ++ ", col " ++ toString c ++ ": " ++ w) ∧
    (∀ w, e = .std_exception w →
      (MBasicSession.loadProgram E s source).1.getLastError = "Error: " ++ w) := by
  have ht := MBasicSession.loadProgramTry_parse_error E s source e hparse
  cases e with
  | ParseError l c w =>
    simp only [MBasicSession.loadProgram, ht, MBasicSession.getLastError]
    refine ⟨trivial, ?_, ?_, ?_, ?_⟩
    · simp only [String.append_assoc]
      exact ne_empty_of_prefix _ _ (by decide)
    · intro l' c' w' h; cases h; rfl
    · intro l' c' w' h; cases h
    · intro w' h; cases h
  | LexerError l c w =>
    simp only [MBasicSession.loadProgram, ht, MBasicSession.getLastError]
    refine ⟨trivial, ?_, ?_, ?_, ?_⟩
    · simp only [String.append_assoc]
      exact ne_empty_of_prefix _ _ (by decide)
    · intro l' c' w' h; cases h
    · intro l' c' w' h; cases h; rfl
    · intro w' h; cases h
  | std_exception w =>
    simp only [MBasicSession.loadProgram, ht, MBasicSession.getLastError]
    refine ⟨trivial, ?_, ?_, ?_, ?_⟩
    · exact ne_empty_of_prefix _ _ (by decide)
    · intro l' c' w' h; cases h
    · intro l' c' w' h; cases h
    · intro w' h; cases h; rfl
  | foreign => exact absurd rfl hstd

theorem C10_failed_load_reports_witness :
    (MBasicSession.loadProgram sampleEngine loadedSession "10 PRINT (").2 = .ok false ∧
    (MBasicSession.loadProgram sampleEngine loadedSession "10 PRINT (").1.getLastError ≠ "" ∧
    (MBasicSession.loadProgram sampleEngine loadedSession "10 PRINT (").1.getLastError =
      "Parse error at line " ++ toString (10 : Int) ++ ", col " ++ toString (9 : Int) ++ ": " ++
        "Syntax error" :=
  have w := C10_failed_load_reports sampleEngine loadedSession "10 PRINT ("
    (.ParseError 10 9 "Syntax error") rfl (by decide)
  ⟨w.1, w.2.1, w.2.2.1 10 9 "Syntax error" rfl⟩

/-! ## C11: the column `print` tracks -/

/-- A text without a NUL byte reaches the host whole. -/
theorem cString_of_no_nul (text : List Byte) (h : (0 : Byte) ∉ text) : cString text = text := by
  unfold cString
  rw [List.takeWhile_eq_self_iff]
  intro c hc
  have : c ≠ 0 := fun e => h (e ▸ hc)
  simpa using this

/-- The host sees a printed text up to its first NUL byte: `"A\0B"` arrives as `"A"`. -/
theorem Terminal.received_print :
    ( WasmIO.print WasmIO.default [] [65, 0, 66]).2.received = [[65]] ∧
    ( WasmIO.print WasmIO.default [] [65, 0, 66]).1.column_ = 3 := by
  decide

theorem WasmIO.print_nil ( io : WasmIO) (terminal : Terminal) :
    ( WasmIO.print io terminal []).1 = io := rfl

theorem WasmIO.print_cons ( io : WasmIO) (terminal : Terminal) (c : Byte) (cs : List Byte) :
    ( WasmIO.print io terminal (c :: cs)).1 = ( WasmIO.print ( WasmIO.track io c) terminal cs).1 := rfl

/-- A value inside the range of a 32-bit `int` is kept as it is. -/
theorem wrapInt32_of_range (x : Int) (h0 : -2147483648 ≤ x) (h1 : x ≤ 2147483647) :
    wrapInt32 x = x := by
  unfold wrapInt32
  omega

/-- The result of 32-bit arithmetic lies inside the range of `int`. -/
theorem wrapInt32_range (x : Int) : -2147483648 ≤ wrapInt32 x ∧ wrapInt32 x ≤ 2147483647 := by
  unfold wrapInt32
  omega

theorem WasmIO.track_width ( io : WasmIO) (c : Byte) : ( WasmIO.track io c).width_ = io.width_ := by
  unfold WasmIO.track
  split
  · rfl
  · split
    · rfl
    · dsimp only
      split <;> rfl

/-- C11: `WasmIO::print` tracks the column character by character, leaving the width alone:
from a column `c ≥ 0`, `'\n'` and `'\r'` set it to 0; a tab sets it to the least multiple
of 8 strictly greater than `c`, as long as `c ≤ 2147483639`, so that this multiple fits a
32-bit `int`; any other character sets it to `c + 1`, or to 0 when `c + 1` reaches the
width, as long as `c ≤ 2147483646`; and `print("A\tB")` from column 0 with width 80 leaves
the column at 9. -/
theorem C11_print_tracks_column ( io : WasmIO) (hc : 0 ≤ io.column_) (terminal : Terminal)
    (ch : Byte) (cs : List Byte) :
    ( WasmIO.print io terminal (ch :: cs)).1 =
      ( WasmIO.print ( WasmIO.track io ch) terminal cs).1 ∧
    ( WasmIO.print io terminal []).1 = io ∧
    ( WasmIO.track io ch).width_ = io.width_ ∧
    (ch = 10 ∨ ch = 13 → ( WasmIO.track io ch).column_ = 0) ∧
    (ch = 9 → io.column_ ≤ 2147483639 →
      (8 : Int) ∣ ( WasmIO.track io ch).column_ ∧ io.column_ < ( WasmIO.track io ch).column_ ∧
      ∀ m : Int, (8 : Int) ∣ m → io.column_ < m → ( WasmIO.track io ch).column_ ≤ m) ∧
    (ch ≠ 10 → ch ≠ 13 → ch ≠ 9 → io.column_ ≤ 2147483646 →
      ( WasmIO.track io ch).column_ =
        if io.column_ + 1 ≥ io.width_ then 0 else io.column_ + 1) ∧
    ( WasmIO.print WasmIO.default terminal [65, 9, 66]).1.column_ = 9 := by
  refine ⟨rfl, rfl, WasmIO.track_width io ch, ?_, ?_, ?_, rfl⟩
  · intro h
    simp [ WasmIO.track, h]
  · intro h hb
    subst h
    have hdiv : Int.tdiv io.column_ 8 = io.column_ / 8 := Int.tdiv_eq_ediv hc (by decide)
    have hin : wrapInt32 (io.column_ / 8 + 1) = io.column_ / 8 + 1 :=
      wrapInt32_of_range _ (by omega) (by omega)
    have hout : wrapInt32 ((io.column_ / 8 + 1) * 8) = (io.column_ / 8 + 1) * 8 :=
      wrapInt32_of_range _ (by omega) (by omega)
    have hcol : ( WasmIO.track io 9).column_ = (io.column_ / 8 + 1) * 8 := by
      simp [ WasmIO.track, hdiv, hin, hout]
    rw [hcol]
    refine ⟨Dvd.intro_left _ rfl, by omega, ?_⟩
    intro m hm hlt
    obtain ⟨k, rfl⟩ := hm
    omega
  · intro h1 h2 h3 hb
    have hin : wrapInt32 (io.column_ + 1) = io.column_ + 1 :=
      wrapInt32_of_range _ (by omega) (by omega)
    simp only [ WasmIO.track, h1, h2, h3, or_self, if_false, hin]
    split <;> rfl

theorem C11_print_tracks_column_witness :
    ( WasmIO.print ⟨3, 80⟩ [] [9, 65]).1 = ( WasmIO.print ( WasmIO.track ⟨3, 80⟩ 9) [] [65]).1 ∧
    ( WasmIO.track ⟨3, 80⟩ 9).width_ = 80 ∧
    ( WasmIO.track ⟨3, 80⟩ 10).column_ = 0 ∧
    ((8 : Int) ∣ ( WasmIO.track ⟨3, 80⟩ 9).column_ ∧ (3 : Int) < ( WasmIO.track ⟨3, 80⟩ 9).column_) ∧
    ( WasmIO.track ⟨79, 80⟩ 65).column_ = 0 ∧
    ((8 : Int) ∣ ( WasmIO.track ⟨2147483639, 80⟩ 9).column_ ∧
      (2147483639 : Int) < ( WasmIO.track ⟨2147483639, 80⟩ 9).column_) ∧
    ( WasmIO.print WasmIO.default [] [65, 9, 66]).1.column_ = 9 :=
  have w := C11_print_tracks_column ⟨3, 80⟩ (by decide) [] 9 [65]
  have v := C11_print_tracks_column ⟨3, 80⟩ (by decide) [] 10 []
  have u := C11_print_tracks_column ⟨79, 80⟩ (by decide) [] 65 []
  have t := C11_print_tracks_column ⟨2147483639, 80⟩ (by decide) [] 9 []
  ⟨w.1, w.2.2.1, v.2.2.2.1 (Or.inl rfl),
    ⟨(w.2.2.2.2.1 rfl (by decide)).1, (w.2.2.2.2.1 rfl (by decide)).2.1⟩,
    u.2.2.2.2.2.1 (by decide) (by decide) (by decide) (by decide),
    ⟨(t.2.2.2.2.1 rfl (by decide)).1, (t.2.2.2.2.1 rfl (by decide)).2.1⟩,
    w.2.2.2.2.2.2⟩

/-- C11, the claim as stated fails at the top of the range of `int`: at column 2147483640
(set with `set_column`) a tab leaves the column at -2147483648, which is not greater than
2147483640; at column 2147483647 with width 80 an ordinary character leaves -2147483648,
neither `c + 1` nor 0. -/
theorem C11_counterexample :
    ( WasmIO.print ( WasmIO.set_column WasmIO.default 2147483640) [] [9]).1.column_ =
      -2147483648 ∧
    ¬ ((2147483640 : Int) <
      ( WasmIO.print ( WasmIO.set_column WasmIO.default 2147483640) [] [9]).1.column_) ∧
    ( WasmIO.print ( WasmIO.set_column WasmIO.default 2147483647) [] [65]).1.column_ =
      -2147483648 ∧
    ( WasmIO.print ( WasmIO.set_column WasmIO.default 2147483647) [] [65]).1.width_ = 80 := by
  decide

/-! ## C12: remove -/

theorem js_file_remove_store (M : Module) (fname : JSString) :
    (js_file_remove M fname).1.store = M.store.delete fname ∧
    (js_file_remove M fname).2 = (if M.store.has fname then 1 else 0) ∧
    (js_file_remove M fname).1.table = M.table := by
  cases hM : M.fileSystem with
  | none => simp [js_file_remove, hM, Module.store, Module.table, JSMap.delete, JSMap.has, JSMap.get]
  | some fs => simp [js_file_remove, hM, Module.store, Module.table]

/-- C12: `remove(name)` returns true exactly when `name` was present in the persisted
store; afterwards `name` is absent and every other name keeps its content; removing an
absent name returns false and leaves the store unchanged; so a second `remove(name)`
returns false and leaves the store of the first. -/
theorem C12_remove (M : Module) (name : JSString) :
    ((WasmFileSystem.remove M name).2 = true ↔ M.store.has name = true) ∧
    (WasmFileSystem.remove M name).1.store.has name = false ∧
    (∀ n, n ≠ name → (WasmFileSystem.remove M name).1.store.get n = M.store.get n) ∧
    (M.store.has name = false →
      (WasmFileSystem.remove M name).2 = false ∧
      (WasmFileSystem.remove M name).1.store = M.store) ∧
    (WasmFileSystem.remove (WasmFileSystem.remove M name).1 name).2 = false ∧
    (WasmFileSystem.remove (WasmFileSystem.remove M name).1 name).1.store =
      (WasmFileSystem.remove M name).1.store ∧
    (WasmFileSystem.remove M name).1.table = M.table := by
  obtain ⟨hs, hr, ht⟩ := js_file_remove_store M name
  obtain ⟨hs₂, hr₂, -⟩ := js_file_remove_store (js_file_remove M name).1 name
  have habs : (js_file_remove M name).1.store.has name = false := by
    rw [hs]; simp [JSMap.has, JSMap.get_delete_self]
  have hnone : (js_file_remove M name).1.store.get name = none := by
    rw [hs]; exact JSMap.get_delete_self _ _
  simp only [WasmFileSystem.remove]
  refine ⟨?_, habs, ?_, ?_, ?_, ?_, ht⟩
  · cases hh : M.store.has name <;> simp [hr, hh]
  · intro n hn
    rw [hs, JSMap.get_delete_of_ne _ _ _ hn]
  · intro h
    refine ⟨by simp [hr, h], ?_⟩
    rw [hs]
    exact JSMap.delete_of_get_none _ _ (by simpa [JSMap.has] using h)
  · simp [hr₂, habs]
  · rw [hs₂]
    exact JSMap.delete_of_get_none _ _ hnone

theorem C12_remove_witness :
    ((WasmFileSystem.remove storeWithB [65]).2 = false ∧
      (WasmFileSystem.remove storeWithB [65]).1.store = storeWithB.store) ∧
    (WasmFileSystem.remove storeWithB [66]).2 = true :=
  ⟨(C12_remove storeWithB [65]).2.2.2.1 (by decide),
   (C12_remove storeWithB [66]).1.2 (by decide)⟩

/-! ## The effect of the calls on a handle, entry by entry -/

theorem Module.store_putFile (M : Module) (fs : FileSystem) (h : Int) (f : OpenFile) :
    (M.putFile fs h f).store = fs.virtualFiles := rfl

theorem Module.table_putFile (M : Module) (fs : FileSystem) (h : Int) (f : OpenFile) :
    (M.putFile fs h f).table = fs.files.set h f := rfl

theorem js_file_read_chars_putFile (M : Module) (fs : FileSystem) (h : Int) (f : OpenFile)
    (n : Int) :
    js_file_read_chars (M.putFile fs h f) h n =
      (M.putFile fs h
        (if f.position + (substring f.data f.position (f.position + n)).length ≥ f.data.length
          then { f with position := f.position +
                          (substring f.data f.position (f.position + n)).length, eof := true }
          else { f with position := f.position +
                          (substring f.data f.position (f.position + n)).length }),
       some (substring f.data f.position (f.position + n))) := by
  simp only [js_file_read_chars, Module.putFile_fileSystem, JSMap.get_set_self,
    Module.putFile_putFile]

theorem js_file_flush_putFile (M : Module) (fs : FileSystem) (h : Int) (f : OpenFile) :
    js_file_flush (M.putFile fs h f) h =
      { M with
        fileSystem := some { fs with virtualFiles := fs.virtualFiles.set f.name f.data,
                                     files := fs.files.set h f },
        hostLog := if M.onFileSave then M.hostLog ++ [HostEvent.fileSave f.name f.data]
                   else M.hostLog } := by
  simp only [js_file_flush, Module.putFile_fileSystem, JSMap.get_set_self]
  rfl

/-- The entry `js_file_read_line` leaves: only the position and the eof flag can differ. -/
theorem js_file_read_line_putFile_entry (M : Module) (fs : FileSystem) (h : Int) (f : OpenFile) :
    ∃ f' : OpenFile, (js_file_read_line (M.putFile fs h f) h).1 = M.putFile fs h f' ∧
      f'.name = f.name ∧ f'.mode = f.mode ∧ f'.recordLength = f.recordLength ∧
      f'.data = f.data := by
  simp only [js_file_read_line, Module.putFile_fileSystem, JSMap.get_set_self,
    Module.putFile_putFile]
  by_cases h1 : f.position ≥ f.data.length
  · simp only [if_pos h1]
    exact ⟨_, rfl, rfl, rfl, rfl, rfl⟩
  · simp only [if_neg h1]
    by_cases h2 : (if indexOf f.data LF f.position = -1 then (f.data.length : Int)
        else indexOf f.data LF f.position) + 1 ≥ f.data.length
    · simp only [if_pos h2]
      exact ⟨_, rfl, rfl, rfl, rfl, rfl⟩
    · simp only [if_neg h2]
      exact ⟨_, rfl, rfl, rfl, rfl, rfl⟩

/-- A call on a handle that is not open changes nothing. -/
theorem HandleCall.run_absent (M : Module) (h : Int) (c : HandleCall) (hf : M.file h = none) :
    c.run M h = M := by
  cases hM : M.fileSystem with
  | none =>
    cases c <;> simp [HandleCall.run, js_file_read_line, js_file_write_line, js_file_write,
      js_file_read_chars, js_file_seek_record, js_file_read_raw, js_file_write_raw,
      js_file_flush, hM]
  | some fs =>
    have hg : fs.files.get h = none := by simpa [Module.file, Module.table, hM] using hf
    cases c <;> simp [HandleCall.run, js_file_read_line, js_file_write_line, js_file_write,
      js_file_read_chars, js_file_seek_record, js_file_read_raw, js_file_write_raw,
      js_file_flush, hM, hg]

/-- A call on an open handle other than `flush` rewrites the entry of that handle and
nothing else. -/
theorem HandleCall.run_putFile (M : Module) (fs : FileSystem) (h : Int) (f : OpenFile)
    (c : HandleCall) (hc : c ≠ .flush) :
    ∃ f' : OpenFile, c.run (M.putFile fs h f) h = M.putFile fs h f' ∧
      f'.name = f.name ∧ f'.mode = f.mode ∧ f'.recordLength = f.recordLength := by
  cases c with
  | read_line =>
    obtain ⟨f', hf', h1, h2, h3, -⟩ := js_file_read_line_putFile_entry M fs h f
    exact ⟨f', hf', h1, h2, h3⟩
  | write_line t => exact ⟨_, js_file_write_line_putFile M fs h f t, rfl, rfl, rfl⟩
  | write t => exact ⟨_, js_file_write_putFile M fs h f t, rfl, rfl, rfl⟩
  | read_chars n =>
    rw [HandleCall.run, js_file_read_chars_putFile]
    by_cases hc' : f.position + (substring f.data f.position (f.position + n)).length ≥
        f.data.length
    · simp only [if_pos hc']; exact ⟨_, rfl, rfl, rfl, rfl⟩
    · simp only [if_neg hc']; exact ⟨_, rfl, rfl, rfl, rfl⟩
  | seek_record r L => exact ⟨_, js_file_seek_record_putFile M fs h f r L, rfl, rfl, rfl⟩
  | read_raw size =>
    rw [HandleCall.run, js_file_read_raw_putFile]
    by_cases hc' : f.position + size ≥ f.data.length
    · simp only [if_pos hc']; exact ⟨_, rfl, rfl, rfl, rfl⟩
    · simp only [if_neg hc']; exact ⟨_, rfl, rfl, rfl, rfl⟩
  | write_raw b => exact ⟨_, js_file_write_raw_putFile M fs h f b, rfl, rfl, rfl⟩
  | flush => exact absurd rfl hc

/-- Calls on one handle other than `close` and `flush` leave the persisted store as it
was. -/
theorem runHandleCalls_store (M : Module) (h : Int) (cs : List HandleCall)
    (hcs : HandleCall.flush ∉ cs) : (runHandleCalls M h cs).store = M.store := by
  induction cs generalizing M with
  | nil => rfl
  | cons c cs ih =>
    have hc : c ≠ .flush := fun e => hcs (by simp [e])
    have hrest : HandleCall.flush ∉ cs := fun e => hcs (by simp [e])
    rw [runHandleCalls, ih _ hrest]
    cases hf : M.file h with
    | none => rw [HandleCall.run_absent M h c hf]
    | some f =>
      obtain ⟨fs, hfs, -, hM⟩ := M.exists_putFile h f hf
      obtain ⟨f', hrun, -⟩ := HandleCall.run_putFile M fs h f c hc
      rw [← hM, hrun]
      rfl

/-! ## C13: opening for append and for output -/

theorem js_file_open_write_mode (M : Module) (hook : M.onFileOpen = none) (fname : JSString)
    (mode rl : Int) (hmode : mode ≠ 0) :
    js_file_open M fname mode rl =
      (M.putFile { M.fsOrFresh with nextHandle := M.fsOrFresh.nextHandle + 1 }
          M.fsOrFresh.nextHandle
          (OpenFile.opened fname (modeStrOf mode) rl (openData M.store fname mode)),
        M.fsOrFresh.nextHandle) := by
  rw [js_file_open_noHook M hook fname mode rl (fun h => absurd h hmode), M.fsOrFresh_store]

/-- C13: with no `onFileOpen` hook, for a name whose persisted content is `c` (empty when
the name is absent), `open(name, Append)` succeeds with a buffer equal to `c`, and after
`write_line(t)` and `close` the persisted content of the name is `c` followed by `t` and
`'\n'`; `open(name, Output)` succeeds with an empty buffer at position 0 and leaves the
persisted store as it was, and so do the calls made on the handle afterwards other than
`flush` and `close`. -/
theorem C13_open_append_output (M : Module) (hook : M.onFileOpen = none) (hinv : M.Inv)
    (name : JSString) (rl : Int) (t : JSString) (cs : List HandleCall)
    (hcs : HandleCall.flush ∉ cs) :
    0 ≤ (js_file_open M name 2 rl).2 ∧
    (js_file_open M name 2 rl).1.file (js_file_open M name 2 rl).2 =
      some (OpenFile.opened name (some .append) rl ((M.store.get name).getD [])) ∧
    (js_file_close (js_file_write_line (js_file_open M name 2 rl).1 (js_file_open M name 2 rl).2 t)
        (js_file_open M name 2 rl).2).store.get name =
      some ((M.store.get name).getD [] ++ (t ++ [LF])) ∧
    0 ≤ (js_file_open M name 1 rl).2 ∧
    (js_file_open M name 1 rl).1.file (js_file_open M name 1 rl).2 =
      some (OpenFile.opened name (some .output) rl []) ∧
    (js_file_open M name 1 rl).1.store = M.store ∧
    (runHandleCalls (js_file_open M name 1 rl).1 (js_file_open M name 1 rl).2 cs).store =
      M.store := by
  have hpos := hinv.nextHandle_pos
  have ha := js_file_open_write_mode M hook name 2 rl (by decide)
  have ho := js_file_open_write_mode M hook name 1 rl (by decide)
  have hda : openData M.store name 2 = (M.store.get name).getD [] := by simp [openData]
  have hdo : openData M.store name 1 = [] := by simp [openData]
  rw [hda] at ha
  rw [hdo] at ho
  have hstore : ∀ f : OpenFile,
      (M.putFile { M.fsOrFresh with nextHandle := M.fsOrFresh.nextHandle + 1 }
        M.fsOrFresh.nextHandle f).store = M.store := by
    intro f
    rw [Module.store_putFile]
    exact M.fsOrFresh_store
  rw [ha, ho]
  refine ⟨by show (0 : Int) ≤ M.fsOrFresh.nextHandle; omega, Module.file_putFile _ _ _ _, ?_,
    by show (0 : Int) ≤ M.fsOrFresh.nextHandle; omega, Module.file_putFile _ _ _ _,
    hstore _, ?_⟩
  · simp only [js_file_write_line_putFile, js_file_close_putFile]
    have hs : savesOnClose (modeStrOf 2) = true := by decide
    simp only [OpenFile.opened, hs, if_true]
    show JSMap.get (JSMap.set _ name _) name = _
    rw [JSMap.get_set_self]
  · rw [runHandleCalls_store _ _ cs hcs]
    exact hstore _

theorem C13_open_append_output_witness :
    0 ≤ (js_file_open storeWithB [66] 2 128).2 ∧
    (js_file_open storeWithB [66] 2 128).1.file (js_file_open storeWithB [66] 2 128).2 =
      some (OpenFile.opened [66] (some .append) 128 [120]) ∧
    (js_file_close (js_file_write_line (js_file_open storeWithB [66] 2 128).1
        (js_file_open storeWithB [66] 2 128).2 [121])
        (js_file_open storeWithB [66] 2 128).2).store.get [66] = some [120, 121, 10] ∧
    0 ≤ (js_file_open storeWithB [66] 1 128).2 ∧
    (js_file_open storeWithB [66] 1 128).1.file (js_file_open storeWithB [66] 1 128).2 =
      some (OpenFile.opened [66] (some .output) 128 []) ∧
    (js_file_open storeWithB [66] 1 128).1.store = storeWithB.store ∧
    (runHandleCalls (js_file_open storeWithB [66] 1 128).1 (js_file_open storeWithB [66] 1 128).2
      [.write [122], .seek_record 1 1, .write_raw [65]]).store = storeWithB.store :=
  C13_open_append_output storeWithB rfl ((Module.inv_iff _).2 (by decide)) [66] 128 [121]
    [.write [122], .seek_record 1 1, .write_raw [65]] (by decide)

/-! ## C14: read_chars -/

theorem substring_chars (d : JSString) (p n : Nat) (hp : p ≤ d.length) :
    substring d (p : Int) ((p : Int) + (n : Nat)) = (d.drop p).take (min n (d.length - p)) := by
  have e : ((p : Int) + (n : Nat)) = ((p + n : Nat) : Int) := by simp
  rw [e]
  unfold substring
  rw [clampIndex_natCast, clampIndex_natCast]
  have h1 : min (min p d.length) (min (p + n) d.length) = p := by omega
  have h2 : max (min p d.length) (min (p + n) d.length) - p = min n (d.length - p) := by omega
  simp only [h1, h2]

/-- C14: on an open file with buffer `d` at a position `p` with `0 ≤ p ≤ length d`, for
`n ≥ 0`, `read_chars(n)` returns the `min(n, length d - p)` characters of `d` starting at
`p`, advances the position by the number of characters returned, leaves the buffer (and
the name, mode and record length) unchanged, and sets the eof flag exactly when the new
position is at or past `length d`, leaving it as it was otherwise; so when the flag was
not set before the end of the buffer, it is set afterwards if and only if the new position
is at or past `length d`. -/
theorem C14_read_chars (M : Module) (h : Int) (f : OpenFile) (hf : M.file h = some f)
    (n : Int) (hp : 0 ≤ f.position) (hpl : f.position ≤ f.data.length) (hn : 0 ≤ n) :
    (js_file_read_chars M h n).2 =
      some ((f.data.drop f.position.toNat).take (min n.toNat (f.data.length - f.position.toNat))) ∧
    ((f.data.drop f.position.toNat).take
      (min n.toNat (f.data.length - f.position.toNat))).length =
      min n.toNat (f.data.length - f.position.toNat) ∧
    (js_file_read_chars M h n).1.file h =
      some { f with
        position := f.position + (min n.toNat (f.data.length - f.position.toNat) : Nat),
        eof := f.eof || decide (f.position +
          (min n.toNat (f.data.length - f.position.toNat) : Nat) ≥ f.data.length) } ∧
    ((f.eof = true → (f.data.length : Int) ≤ f.position) →
      ((js_file_read_chars M h n).1.file h).map (fun g => g.eof) =
        some (decide (f.position + (min n.toNat (f.data.length - f.position.toNat) : Nat) ≥
          f.data.length))) := by
  obtain ⟨fs, -, -, hM⟩ := M.exists_putFile h f hf
  rw [← hM]
  obtain ⟨p, hp'⟩ := Int.eq_ofNat_of_zero_le hp
  obtain ⟨k, hk⟩ := Int.eq_ofNat_of_zero_le hn
  subst hk
  have hple : p ≤ f.data.length := by omega
  have hsub := substring_chars f.data p k hple
  have hlen : ((f.data.drop p).take (min k (f.data.length - p))).length =
      min k (f.data.length - p) := by
    simp only [List.length_take, List.length_drop]; omega
  rw [js_file_read_chars_putFile, hp']
  simp only [Int.toNat_ofNat, hsub, hlen]
  refine ⟨trivial, trivial, ?_, ?_⟩
  · by_cases hc : (p : Int) + (min k (f.data.length - p) : Nat) ≥ f.data.length
    · simp only [if_pos hc, Module.file_putFile, decide_eq_true hc, Bool.or_true]
    · simp only [if_neg hc, Module.file_putFile, decide_eq_false hc, Bool.or_false]
  · intro hinv
    by_cases hc : (p : Int) + (min k (f.data.length - p) : Nat) ≥ f.data.length
    · simp only [if_pos hc, Module.file_putFile, decide_eq_true hc, Option.map_some']
    · have he : f.eof = false := by
        cases hfe : f.eof with
        | false => rfl
        | true =>
          have := hinv hfe
          omega
      simp only [if_neg hc, Module.file_putFile, decide_eq_false hc, Option.map_some', he]

theorem C14_read_chars_witness :
    (js_file_read_chars (js_file_seek_record fiveByteFile 1 2 2) 1 7).2 = some [3, 4, 5] ∧
    ([3, 4, 5] : JSString).length = 3 ∧
    (js_file_read_chars (js_file_seek_record fiveByteFile 1 2 2) 1 7).1.file 1 =
      some { name := [70], mode := some .random, recordLength := 2, data := [1, 2, 3, 4, 5],
             position := 5, eof := true } ∧
    ((js_file_read_chars (js_file_seek_record fiveByteFile 1 2 2) 1 7).1.file 1).map
      (fun g => g.eof) = some true :=
  have w := C14_read_chars (js_file_seek_record fiveByteFile 1 2 2) 1
    { name := [70], mode := some .random, recordLength := 2, data := [1, 2, 3, 4, 5],
      position := 2, eof := false } (by decide) 7 (by decide) (by decide) (by decide)
  ⟨w.1, w.2.1, w.2.2.1, w.2.2.2 (by decide)⟩

/-! ## C15: flush -/

/-- What `js_file_flush` does to an open handle, seen through the store, the table and
the log of hook calls. -/
theorem js_file_flush_open (M : Module) (h : Int) (f : OpenFile) (hf : M.file h = some f) :
    (js_file_flush M h).table = M.table ∧
    (js_file_flush M h).store = M.store.set f.name f.data ∧
    (js_file_flush M h).hostLog =
      (if M.onFileSave then M.hostLog ++ [HostEvent.fileSave f.name f.data] else M.hostLog) := by
  obtain ⟨fs, hfs, hg, hM⟩ := M.exists_putFile h f hf
  have hc := js_file_flush_putFile M fs h f
  rw [hM] at hc
  have ht : M.table = fs.files := by simp [Module.table, hfs]
  have hs : M.store = fs.virtualFiles := by simp [Module.store, hfs]
  rw [hc, ht, hs]
  refine ⟨?_, rfl, rfl⟩
  show fs.files.set h f = fs.files
  exact JSMap.set_of_get _ _ _ hg

/-- Calls on an open handle other than `close` keep the handle open under the same name
and in the same mode. -/
theorem runHandleCalls_open (h : Int) (cs : List HandleCall) :
    ∀ (M : Module) (f : OpenFile), M.file h = some f →
      ∃ g : OpenFile, (runHandleCalls M h cs).file h = some g ∧ g.name = f.name ∧
        g.mode = f.mode := by
  induction cs with
  | nil => intro M f hf; exact ⟨f, hf, rfl, rfl⟩
  | cons c cs ih =>
    intro M f hf
    by_cases hc : c = .flush
    · subst hc
      have hfl : (js_file_flush M h).file h = some f := by
        simp only [Module.file, (js_file_flush_open M h f hf).1]
        exact hf
      exact ih _ f hfl
    · obtain ⟨fs, -, -, hM⟩ := M.exists_putFile h f hf
      obtain ⟨f', hrun, hn, hm, -⟩ := HandleCall.run_putFile M fs h f c hc
      rw [hM] at hrun
      have hf' : (c.run M h).file h = some f' := by
        rw [hrun]; exact Module.file_putFile _ _ _ _
      obtain ⟨g, hg, hgn, hgm⟩ := ih _ f' hf'
      exact ⟨g, hg, by rw [hgn, hn], by rw [hgm, hm]⟩

/-- C15 (as the code has it): flushing an open handle `h` on file name `f.name` with buffer
`f.data` sets the persisted content of that name to exactly the buffer, in every mode,
leaves the handle open with its entry (buffer, position, eof flag, mode) unchanged and
every other store entry and every other handle as they were; after any further calls on
the handle, a close persists the buffer the handle holds at that time when its mode is
Output, Append or Random, and leaves the store as it is at that time when its mode is
Input. -/
theorem C15_flush (M : Module) (h : Int) (f : OpenFile) (hf : M.file h = some f)
    (cs : List HandleCall) :
    (js_file_flush M h).store.get f.name = some f.data ∧
    (∀ n, n ≠ f.name → (js_file_flush M h).store.get n = M.store.get n) ∧
    (js_file_flush M h).file h = some f ∧
    (js_file_flush M h).table = M.table ∧
    (f.mode = some .output ∨ f.mode = some .append ∨ f.mode = some .random →
      ∃ g : OpenFile, (runHandleCalls (js_file_flush M h) h cs).file h = some g ∧
        (js_file_close (runHandleCalls (js_file_flush M h) h cs) h).store.get f.name =
          some g.data) ∧
    (f.mode = some .input →
      (js_file_close (runHandleCalls (js_file_flush M h) h cs) h).store =
        (runHandleCalls (js_file_flush M h) h cs).store) := by
  obtain ⟨htab, hstore, -⟩ := js_file_flush_open M h f hf
  have hfl : (js_file_flush M h).file h = some f := by
    simp only [Module.file, htab]; exact hf
  obtain ⟨g, hg, hgn, hgm⟩ := runHandleCalls_open h cs (js_file_flush M h) f hfl
  obtain ⟨-, hcs, -⟩ := js_file_close_open _ h g hg
  refine ⟨by rw [hstore, JSMap.get_set_self],
    fun n hn => by rw [hstore, JSMap.get_set_of_ne _ _ _ _ hn], hfl, htab, ?_, ?_⟩
  · intro hmode
    have hs : savesOnClose g.mode = true := by
      rw [hgm]; rcases hmode with hm | hm | hm <;> simp [savesOnClose, hm]
    refine ⟨g, hg, ?_⟩
    rw [hcs, if_pos hs, ← hgn, JSMap.get_set_self]
  · intro hmode
    have hs : savesOnClose g.mode = false := by rw [hgm]; simp [savesOnClose, hmode]
    rw [hcs, hs]
    simp

theorem C15_flush_witness :
    (js_file_flush twoWriters 1).store.get [70] = some [97] ∧
    (js_file_flush twoWriters 1).store.get [71] = twoWriters.store.get [71] ∧
    (js_file_flush twoWriters 1).file 1 = twoWriters.file 1 ∧
    (js_file_flush twoWriters 1).table = twoWriters.table ∧
    (∃ g : OpenFile, (runHandleCalls (js_file_flush twoWriters 1) 1 [.write [99]]).file 1 = some g ∧
      (js_file_close (runHandleCalls (js_file_flush twoWriters 1) 1 [.write [99]]) 1).store.get
        [70] = some g.data) ∧
    (js_file_close (runHandleCalls (js_file_flush storeWithB 2) 2 [.read_line]) 2).store =
      (runHandleCalls (js_file_flush storeWithB 2) 2 [.read_line]).store :=
  have w := C15_flush twoWriters 1
    { name := [70], mode := some .output, recordLength := 128, data := [97], position := 1,
      eof := false } (by decide) [.write [99]]
  have v := C15_flush storeWithB 2
    { name := [66], mode := some .input, recordLength := 128, data := [120], position := 0,
      eof := false } (by decide) [.read_line]
  ⟨w.1, w.2.1 [71] (by decide), w.2.2.1.trans (by decide), w.2.2.2.1,
    w.2.2.2.2.1 (Or.inl rfl), v.2.2.2.2.2 rfl⟩

/-- C15 fails for a handle in Input mode: after `"B"` (content `"x"`) is opened for input
and flushed, a text written on the handle makes its buffer `"xy"`, and closing it leaves
`"x"` in the store; and when another handle writes `"q"` to `"B"` and closes, closing the
flushed input handle leaves `"q"` in the store, not its own buffer `"x"`. -/
theorem C15_counterexample :
    ((js_file_write (js_file_flush storeWithB 2) 2 [121]).file 2).map (fun g => g.data) =
      some [120, 121] ∧
    (js_file_close (js_file_write (js_file_flush storeWithB 2) 2 [121]) 2).store.get [66] =
      some [120] ∧
    (js_file_close (writeCloseReopen (js_file_flush storeWithB 2) [66] 128 128
      [.write [113]]).1 2).store.get [66] = some [113] ∧
    ((writeCloseReopen (js_file_flush storeWithB 2) [66] 128 128 [.write [113]]).1.file 2).map
      (fun g => g.data) = some [120] := by
  decide

/-! ## C16: the position under sequential reads -/

/-- C16, the code at the failing input: on a file opened for input whose content `"abc"`
has no trailing `'\n'`, the first `read_line` returns `"abc"` and leaves the position at
4, one past the buffer length 3. -/
theorem C16_read_line_past_end :
    (unterminatedFile.file 2).map (fun g => (g.mode, g.data, g.position)) =
      some (some .input, [97, 98, 99], 0) ∧
    (js_file_read_line unterminatedFile 2).2 = some [97, 98, 99] ∧
    ((js_file_read_line unterminatedFile 2).1.file 2).map
      (fun g => (g.position, (g.data.length : Int))) = some (4, 3) ∧
    js_file_position (js_file_read_line unterminatedFile 2).1 2 = 4 ∧
    js_file_length (js_file_read_line unterminatedFile 2).1 2 = 3 := by
  decide

theorem findUnit_lt (c : Nat) (s : JSString) (j : Nat) (h : findUnit c s = some j) :
    j < s.length := by
  induction s generalizing j with
  | nil => simp [findUnit] at h
  | cons x xs ih =>
    unfold findUnit at h
    by_cases hx : x = c
    · simp [hx] at h; subst h; simp
    · simp only [if_neg hx] at h
      cases hf : findUnit c xs with
      | none => simp [hf] at h
      | some k =>
        simp [hf] at h
        subst h
        have := ih k hf
        simp; omega

/-- The value of `indexOf` is `-1` or an index inside the string. -/
theorem indexOf_range (s : JSString) (c : Nat) (i : Int) :
    indexOf s c i = -1 ∨ (0 ≤ indexOf s c i ∧ indexOf s c i < s.length) := by
  cases hf : findUnit c (s.drop (clampIndex s.length i)) with
  | none => left; simp [indexOf, hf]
  | some j =>
    right
    have hj := findUnit_lt c _ j hf
    simp only [List.length_drop] at hj
    have hv : indexOf s c i = ((clampIndex s.length i + j : Nat) : Int) := by
      simp [indexOf, hf]
    rw [hv]
    constructor
    · exact Int.ofNat_nonneg _
    · have : clampIndex s.length i + j < s.length := by omega
      exact_mod_cast this

theorem substring_length_le (s : JSString) (a b : Int) (ha : 0 ≤ a) (hab : a ≤ b) :
    ((substring s a b).length : Int) + a ≤ max a s.length := by
  obtain ⟨p, rfl⟩ := Int.eq_ofNat_of_zero_le ha
  obtain ⟨q, rfl⟩ := Int.eq_ofNat_of_zero_le (le_trans ha hab)
  unfold substring
  rw [clampIndex_natCast, clampIndex_natCast]
  simp only [List.length_take, List.length_drop]
  have hpq : p ≤ q := by exact_mod_cast hab
  omega

/-- The extent of the defect behind C16: under sequential reads the buffer never changes
and the position stays between 0 and one past the end of the buffer. -/
theorem seqReads_position_bound (h : Int) (cs : List HandleCall)
    (hcs : ∀ c ∈ cs, c.IsSeqRead) :
    ∀ (M : Module) (f : OpenFile), M.file h = some f → 0 ≤ f.position →
      f.position ≤ (f.data.length : Int) + 1 →
      ∃ g : OpenFile, (runHandleCalls M h cs).file h = some g ∧ g.data = f.data ∧
        0 ≤ g.position ∧ g.position ≤ (g.data.length : Int) + 1 := by
  induction cs with
  | nil => intro M f hf h0 h1; exact ⟨f, hf, rfl, h0, h1⟩
  | cons c cs ih =>
    intro M f hf h0 h1
    have hc := hcs c (by simp)
    have hrest : ∀ c' ∈ cs, c'.IsSeqRead := fun c' hc' => hcs c' (by simp [hc'])
    obtain ⟨fs, -, -, hM⟩ := M.exists_putFile h f hf
    have step : ∃ f' : OpenFile, (c.run M h).file h = some f' ∧ f'.data = f.data ∧
        0 ≤ f'.position ∧ f'.position ≤ (f'.data.length : Int) + 1 := by
      rw [← hM]
      rcases hc with rfl | ⟨n, hn, rfl⟩
      · simp only [HandleCall.run, js_file_read_line, Module.putFile_fileSystem,
          JSMap.get_set_self, Module.putFile_putFile]
        by_cases hp : f.position ≥ f.data.length
        · simp only [if_pos hp, Module.file_putFile]
          exact ⟨_, rfl, rfl, h0, h1⟩
        · simp only [if_neg hp]
          have hr := indexOf_range f.data LF f.position
          by_cases hi : indexOf f.data LF f.position = -1
          · simp only [hi, if_true]
            have hge : (f.data.length : Int) + 1 ≥ f.data.length := by omega
            simp only [if_pos hge, Module.file_putFile]
            exact ⟨_, rfl, rfl, by show (0 : Int) ≤ (f.data.length : Int) + 1; omega,
              by show (f.data.length : Int) + 1 ≤ (f.data.length : Int) + 1; omega⟩
          · simp only [if_neg hi]
            rcases hr with hr | ⟨hr0, hr1⟩
            · exact absurd hr hi
            · by_cases hq : indexOf f.data LF f.position + 1 ≥ f.data.length
              · simp only [if_pos hq, Module.file_putFile]
                exact ⟨_, rfl, rfl,
                  by show (0 : Int) ≤ indexOf f.data LF f.position + 1; omega,
                  by show indexOf f.data LF f.position + 1 ≤ (f.data.length : Int) + 1; omega⟩
              · simp only [if_neg hq, Module.file_putFile]
                exact ⟨_, rfl, rfl,
                  by show (0 : Int) ≤ indexOf f.data LF f.position + 1; omega,
                  by show indexOf f.data LF f.position + 1 ≤ (f.data.length : Int) + 1; omega⟩
      · have hb := substring_length_le f.data f.position (f.position + n) h0 (by omega)
        rw [HandleCall.run, js_file_read_chars_putFile]
        by_cases hq : f.position + (substring f.data f.position (f.position + n)).length ≥
            f.data.length
        · simp only [if_pos hq, Module.file_putFile]
          exact ⟨_, rfl, rfl,
            by show (0 : Int) ≤ f.position + (substring f.data f.position (f.position + n)).length
               omega,
            by show f.position + (substring f.data f.position (f.position + n)).length ≤
                 (f.data.length : Int) + 1
               omega⟩
        · simp only [if_neg hq, Module.file_putFile]
          exact ⟨_, rfl, rfl,
            by show (0 : Int) ≤ f.position + (substring f.data f.position (f.position + n)).length
               omega,
            by show f.position + (substring f.data f.position (f.position + n)).length ≤
                 (f.data.length : Int) + 1
               omega⟩
    obtain ⟨f', hf', hd', h0', h1'⟩ := step
    obtain ⟨g, hg, hgd, hg0, hg1⟩ := ih hrest (c.run M h) f' hf' h0' h1'
    exact ⟨g, hg, by rw [hgd, hd'], hg0, hg1⟩

/-! ## C17: handles -/

theorem Module.file_none_of_no_fileSystem (M : Module) (hM : M.fileSystem = none) (h : Int) :
    M.file h = none := by
  simp [Module.file, Module.table, hM, JSMap.get]

/-- What `js_file_open` does to the counter and the table: the counter goes up by one, and
either the call returns `-1` and leaves the table as it was, or it returns the old counter
and enters a file under it. -/
theorem js_file_open_next (M : Module) (fname : JSString) (mode rl : Int) :
    (js_file_open M fname mode rl).1.next = M.next + 1 ∧
    (((js_file_open M fname mode rl).2 = -1 ∧ (js_file_open M fname mode rl).1.table = M.table) ∨
     ((js_file_open M fname mode rl).2 = M.next ∧
       ∃ f, (js_file_open M fname mode rl).1.table = M.table.set M.next f)) := by
  unfold Module.next
  rw [← M.fsOrFresh_table]
  unfold js_file_open
  cases hh : M.onFileOpen with
  | some hook =>
    simp only
    cases hd : hook fname (modeStrOf mode) rl with
    | some d => exact ⟨rfl, Or.inr ⟨rfl, _, rfl⟩⟩
    | none => exact ⟨rfl, Or.inl ⟨rfl, rfl⟩⟩
  | none =>
    simp only
    split
    · exact ⟨rfl, Or.inl ⟨rfl, rfl⟩⟩
    · exact ⟨rfl, Or.inr ⟨rfl, _, rfl⟩⟩

theorem Module.next_of_fileSystem (M : Module) (fs : FileSystem) (hM : M.fileSystem = some fs) :
    M.next = fs.nextHandle := by
  simp [Module.next, Module.fsOrFresh, hM]

/-- Rewriting the entry of an open handle adds no handle and keeps the counter. -/
theorem Module.putFile_keeps (M : Module) (fs : FileSystem) (h : Int) (f f' : OpenFile) :
    (M.putFile fs h f').next = (M.putFile fs h f).next ∧
    ∀ h' g, (M.putFile fs h f').file h' = some g → ∃ g₀, (M.putFile fs h f).file h' = some g₀ := by
  refine ⟨rfl, ?_⟩
  intro h' g hg
  by_cases hh : h' = h
  · subst hh; exact ⟨f, Module.file_putFile _ _ _ _⟩
  · refine ⟨g, ?_⟩
    simp only [Module.file, Module.table_putFile, JSMap.get_set_of_ne _ _ _ _ hh] at hg ⊢
    exact hg

/-- A call other than `open` keeps the counter and adds no handle to the table. -/
theorem FileCall.run_keeps (M : Module) (c : FileCall)
    (hc : ∀ fname mode rl, c ≠ .openCall fname mode rl) :
    (c.run M).1.next = M.next ∧ (c.run M).2 = none ∧
    ∀ h g, (c.run M).1.file h = some g → ∃ g₀, M.file h = some g₀ := by
  cases c with
  | openCall fname mode rl => exact absurd rfl (hc fname mode rl)
  | closeCall handle =>
    simp only [FileCall.run]
    cases hf : M.file handle with
    | none => rw [js_file_close_absent M handle hf]; exact ⟨rfl, trivial, fun h g hg => ⟨g, hg⟩⟩
    | some f =>
      obtain ⟨fs, hfs, -, hM⟩ := M.exists_putFile handle f hf
      have hc' := js_file_close_putFile M fs handle f
      rw [hM] at hc'
      have ht : M.table = fs.files := by simp [Module.table, hfs]
      refine ⟨?_, trivial, ?_⟩
      · rw [hc', M.next_of_fileSystem fs hfs]
        split <;> rfl
      · intro h g hg
        have htab := (js_file_close_open M handle f hf).1
        simp only [Module.file, htab] at hg ⊢
        by_cases hh : h = handle
        · subst hh; rw [JSMap.get_delete_self] at hg; exact absurd hg (by simp)
        · rw [JSMap.get_delete_of_ne _ _ _ hh] at hg; exact ⟨g, hg⟩
  | handleCall handle call =>
    simp only [FileCall.run]
    cases hf : M.file handle with
    | none => rw [HandleCall.run_absent M handle call hf]; exact ⟨rfl, trivial, fun h g hg => ⟨g, hg⟩⟩
    | some f =>
      obtain ⟨fs, hfs, -, hM⟩ := M.exists_putFile handle f hf
      by_cases hfl : call = .flush
      · subst hfl
        have htab := (js_file_flush_open M handle f hf).1
        have hfp := js_file_flush_putFile M fs handle f
        rw [hM] at hfp
        refine ⟨?_, trivial, ?_⟩
        · show (js_file_flush M handle).next = M.next
          rw [hfp, M.next_of_fileSystem fs hfs]; rfl
        · intro h g hg
          simp only [HandleCall.run, Module.file, htab] at hg
          exact ⟨g, hg⟩
      · obtain ⟨f', hrun, -⟩ := HandleCall.run_putFile M fs handle f call hfl
        rw [hM] at hrun
        rw [hrun]
        have hk := Module.putFile_keeps M fs handle f f'
        rw [hM] at hk
        exact ⟨hk.1, trivial, hk.2⟩
  | removeCall fname =>
    simp only [FileCall.run]
    refine ⟨?_, trivial, ?_⟩
    · cases hM : M.fileSystem with
      | none => simp [js_file_remove, hM]
      | some fs => simp [js_file_remove, hM, Module.next, Module.fsOrFresh]
    · intro h g hg
      simp only [Module.file, (js_file_remove_store M fname).2.2] at hg
      exact ⟨g, hg⟩
  | renameCall oldName newName =>
    simp only [FileCall.run]
    cases hh : M.store.has oldName with
    | false =>
      rw [js_file_rename_absent M oldName newName hh]
      exact ⟨rfl, trivial, fun h g hg => ⟨g, hg⟩⟩
    | true =>
      obtain ⟨c, hc'⟩ := (JSMap.has_eq_true_iff _ _).1 hh
      obtain ⟨fs, hM, hg'⟩ := M.store_get_some oldName c hc'
      rw [js_file_rename_present M fs oldName newName c hM hg']
      refine ⟨?_, trivial, ?_⟩
      · rw [M.next_of_fileSystem fs hM]; rfl
      · intro h g hg
        refine ⟨g, ?_⟩
        simp only [Module.file, Module.table, hM] at hg ⊢
        exact hg

/-- One call keeps the handles below the counter, never lowers the counter, and an `open`
returns `-1` or the counter it found, which it raises by one. -/
theorem FileCall.run_handlesBelow (M : Module) (c : FileCall) (hM : M.HandlesBelow) :
    (c.run M).1.HandlesBelow ∧ M.next ≤ (c.run M).1.next ∧
    ∀ v, (c.run M).2 = some v → v = -1 ∨ (v = M.next ∧ (c.run M).1.next = M.next + 1) := by
  by_cases hc : ∀ fname mode rl, c ≠ .openCall fname mode rl
  · obtain ⟨hn, hr, hk⟩ := FileCall.run_keeps M c hc
    refine ⟨⟨by rw [hn]; exact hM.1, ?_⟩, by rw [hn], ?_⟩
    · intro h g hg
      obtain ⟨g₀, hg₀⟩ := hk h g hg
      rw [hn]; exact hM.2 h g₀ hg₀
    · intro v hv; rw [hr] at hv; exact absurd hv (by simp)
  · have hex : ∃ fname mode rl, c = .openCall fname mode rl := by
      by_contra hne
      exact hc (fun fname mode rl e => hne ⟨fname, mode, rl, e⟩)
    obtain ⟨fname, mode, rl, rfl⟩ := hex
    obtain ⟨hn, hcase⟩ := js_file_open_next M fname mode rl
    simp only [FileCall.run]
    refine ⟨⟨by rw [hn]; have := hM.1; omega, ?_⟩, by rw [hn]; omega, ?_⟩
    · intro h g hg
      rw [hn]
      rcases hcase with ⟨-, ht⟩ | ⟨-, f, ht⟩
      · simp only [Module.file, ht] at hg
        have := hM.2 h g hg
        omega
      · simp only [Module.file, ht] at hg
        by_cases hh : h = M.next
        · omega
        · rw [JSMap.get_set_of_ne _ _ _ _ hh] at hg
          have := hM.2 h g hg
          omega
    · intro v hv
      have hv' : (js_file_open M fname mode rl).2 = v := by simpa using hv
      rcases hcase with ⟨h1, -⟩ | ⟨h1, -⟩
      · left; rw [← hv', h1]
      · right; exact ⟨by rw [← hv', h1], hn⟩

/-- Along any sequence of calls the handles stay below the counter, the counter never
goes down, and the handles returned by the successful opens lie between the counter at the
start and the counter at the end, in strictly increasing order. -/
theorem runCalls_handlesBelow (calls : List FileCall) :
    ∀ M : Module, M.HandlesBelow →
      (runCalls M calls).1.HandlesBelow ∧ M.next ≤ (runCalls M calls).1.next ∧
      (∀ v ∈ (runCalls M calls).2, M.next ≤ v ∧ v < (runCalls M calls).1.next) ∧
      (runCalls M calls).2.Pairwise (· < ·) := by
  induction calls with
  | nil =>
    intro M hM
    exact ⟨hM, le_refl _, by simp [runCalls], by simp [runCalls]⟩
  | cons c cs ih =>
    intro M hM
    obtain ⟨hB, hle, hret⟩ := FileCall.run_handlesBelow M c hM
    obtain ⟨hB', hle', hmem, hpw⟩ := ih (c.run M).1 hB
    have hrest : (runCalls (c.run M).1 cs).1.HandlesBelow ∧
        M.next ≤ (runCalls (c.run M).1 cs).1.next ∧
        (∀ v ∈ (runCalls (c.run M).1 cs).2, M.next ≤ v ∧ v < (runCalls (c.run M).1 cs).1.next) ∧
        (runCalls (c.run M).1 cs).2.Pairwise (· < ·) :=
      ⟨hB', le_trans hle hle', fun v hv => ⟨le_trans hle (hmem v hv).1, (hmem v hv).2⟩, hpw⟩
    unfold runCalls
    cases hr : (c.run M).2 with
    | none => simpa [hr] using hrest
    | some v =>
      by_cases hv : v = -1
      · simpa [hr, hv] using hrest
      · simp only [hr, if_neg hv]
        rcases hret v hr with h1 | ⟨h1, h2⟩
        · exact absurd h1 hv
        · refine ⟨hB', hrest.2.1, ?_, ?_⟩
          · intro w hw
            rcases List.mem_cons.1 hw with hw | hw
            · subst hw; exact ⟨by omega, by omega⟩
            · exact hrest.2.2.1 w hw
          · refine List.pairwise_cons.2 ⟨?_, hpw⟩
            intro w hw
            have := (hmem w hw).1
            omega

theorem Module.handlesBelow_of_no_fileSystem (M : Module) (hM : M.fileSystem = none) :
    M.HandlesBelow := by
  refine ⟨by simp [Module.next, Module.fsOrFresh, hM, FileSystem.fresh], ?_⟩
  intro h f hf
  rw [M.file_none_of_no_fileSystem hM h] at hf
  exact absurd hf (by simp)

/-- C17: in every state reached from a module with no file system yet by any sequence of
file calls, every handle in the open-file table is strictly below the next-handle counter;
a successful open returns a handle that is not in the table, differs from every handle
an earlier open returned, and is in the table afterwards; the handles the opens returned
are pairwise different (strictly increasing, whatever closes and failed opens came in
between); and a closed handle is no longer in the table. -/
theorem C17_handles (M₀ : Module) (h₀ : M₀.fileSystem = none) (calls : List FileCall)
    (fname : JSString) (mode rl : Int) (h : Int) :
    (∀ h' f, (runCalls M₀ calls).1.file h' = some f → h' < (runCalls M₀ calls).1.next) ∧
    ((js_file_open (runCalls M₀ calls).1 fname mode rl).2 ≠ -1 →
      (runCalls M₀ calls).1.file (js_file_open (runCalls M₀ calls).1 fname mode rl).2 = none ∧
      (js_file_open (runCalls M₀ calls).1 fname mode rl).2 ∉ (runCalls M₀ calls).2 ∧
      (js_file_open (runCalls M₀ calls).1 fname mode rl).2 = (runCalls M₀ calls).1.next ∧
      ((js_file_open (runCalls M₀ calls).1 fname mode rl).1.file
        (js_file_open (runCalls M₀ calls).1 fname mode rl).2).isSome = true) ∧
    (runCalls M₀ calls).2.Pairwise (· < ·) ∧
    (runCalls M₀ calls).2.Nodup ∧
    (js_file_close (runCalls M₀ calls).1 h).file h = none := by
  obtain ⟨hB, -, hmem, hpw⟩ :=
    runCalls_handlesBelow calls M₀ (M₀.handlesBelow_of_no_fileSystem h₀)
  refine ⟨hB.2, ?_, hpw, ?_, ?_⟩
  · intro hok
    obtain ⟨-, hcase⟩ := js_file_open_next (runCalls M₀ calls).1 fname mode rl
    rcases hcase with ⟨h1, -⟩ | ⟨h1, f, ht⟩
    · exact absurd h1 hok
    · rw [h1]
      refine ⟨?_, ?_, rfl, ?_⟩
      · cases hf : (runCalls M₀ calls).1.file (runCalls M₀ calls).1.next with
        | none => rfl
        | some g => have := hB.2 _ g hf; omega
      · intro hin
        have := (hmem _ hin).2
        omega
      · simp only [Module.file, ht, JSMap.get_set_self, Option.isSome_some]
  · exact hpw.imp (fun hlt => ne_of_lt hlt)
  · cases hf : (runCalls M₀ calls).1.file h with
    | none => rw [js_file_close_absent _ h hf]; exact hf
    | some f =>
      simp only [Module.file, (js_file_close_open _ h f hf).1, JSMap.get_delete_self]

theorem C17_handles_witness :
    (3 : Int) < (runCalls Module.initial
      [.openCall [70] 0 128, .openCall [70] 1 128, .closeCall 2, .openCall [71] 3 64]).1.next ∧
    (runCalls Module.initial
      [.openCall [70] 0 128, .openCall [70] 1 128, .closeCall 2, .openCall [71] 3 64]).2 = [2, 3] ∧
    (js_file_open (runCalls Module.initial
      [.openCall [70] 0 128, .openCall [70] 1 128, .closeCall 2, .openCall [71] 3 64]).1
      [70] 0 128).2 = 4 ∧
    (js_file_close (runCalls Module.initial
      [.openCall [70] 0 128, .openCall [70] 1 128, .closeCall 2, .openCall [71] 3 64]).1 3).file 3
      = none :=
  have w := C17_handles Module.initial rfl
    [.openCall [70] 0 128, .openCall [70] 1 128, .closeCall 2, .openCall [71] 3 64] [70] 0 128 3
  ⟨w.1 3 (OpenFile.opened [71] (some .random) 64 []) (by decide), by decide,
    (w.2.1 (by decide)).2.2.1, w.2.2.2.2⟩

/-! ## C18: a runtime fault during tick -/

theorem cppChars_append (a b : String) : cppChars (a ++ b) = cppChars a ++ cppChars b := by
  simp [cppChars, String.data_append, List.flatMap_append]

theorem cppChars_newline : cppChars "\n" = [10] := by decide

theorem WasmIO.print_newline_end ( io : WasmIO) (terminal : Terminal) (text : List Byte) :
    ( WasmIO.print io terminal (text ++ [10])).1.column_ = 0 := by
  simp [ WasmIO.print, List.foldl_append, WasmIO.track]

/-- C18: when the engine raises a runtime fault with line `L` and message `m` during
`tick()` on a loaded session, `tick` returns false and lets no exception through,
`getLastError()` afterwards is `Runtime error at line L: m`, that text between two
newlines is the text sent to the terminal after whatever the engine itself printed,
the tracked column is left at 0, and `isLoaded()` answers as before; and on a session that
is not loaded, or has no engine, `tick()` returns false and leaves the session and the
terminal as they were. -/
theorem C18_tick_runtime_fault {Program Runtime Interpreter : Type}
    (T : Stepper Runtime Interpreter) (s : MBasicSession Program Runtime Interpreter)
    (terminal : Terminal) (i : Interpreter) (hl : s.loaded_ = true)
    (hi : s.interpreter_ = some i) (L : Int) (m : String)
    (hfault : (T.tick i s.runtime_ s.io_ terminal).result = .error (.RuntimeError L m)) :
    (MBasicSession.tick T s terminal).2 = .ok false ∧
    (MBasicSession.tick T s terminal).1.1.getLastError =
      "Runtime error at line " ++ toString L ++ ": " ++ m ∧
    (MBasicSession.tick T s terminal).1.2 =
      (T.tick i s.runtime_ s.io_ terminal).terminal ++
        [cppChars ("\n" ++ ("Runtime error at line " ++ toString L ++ ": " ++ m) ++ "\n")] ∧
    (MBasicSession.tick T s terminal).1.1.io_.column_ = 0 ∧
    (MBasicSession.tick T s terminal).1.1.isLoaded = s.isLoaded ∧
    (∀ s' : MBasicSession Program Runtime Interpreter,
      s'.loaded_ = false ∨ s'.interpreter_ = none →
      MBasicSession.tick T s' terminal = ((s', terminal), .ok false)) := by
  have ht : MBasicSession.tick T s terminal =
      (MBasicSession.reportError
        { s with interpreter_ := some (T.tick i s.runtime_ s.io_ terminal).interpreter,
                 runtime_ := (T.tick i s.runtime_ s.io_ terminal).runtime,
                 io_ := (T.tick i s.runtime_ s.io_ terminal).io }
        (T.tick i s.runtime_ s.io_ terminal).terminal
        ("Runtime error at line " ++ toString L ++ ": " ++ m), .ok false) := by
    simp only [MBasicSession.tick, hl, hi, hfault]
  rw [ht]
  refine ⟨rfl, rfl, rfl, ?_, ?_, ?_⟩
  · simp only [MBasicSession.reportError, cppChars_append, cppChars_newline]
    exact WasmIO.print_newline_end _ _ _
  · simp [MBasicSession.reportError, MBasicSession.isLoaded]
  · intro s' hs'
    rcases hs' with h1 | h1
    · simp only [MBasicSession.tick, h1]
    · cases hl' : s'.loaded_ <;> simp only [MBasicSession.tick, hl', h1]

theorem C18_tick_runtime_fault_witness :
    (MBasicSession.tick sampleStepper loadedSession []).2 = .ok false ∧
    (MBasicSession.tick sampleStepper loadedSession []).1.1.getLastError =
      "Runtime error at line " ++ toString (20 : Int) ++ ": " ++ "Division by zero" ∧
    (MBasicSession.tick sampleStepper loadedSession []).1.2 =
      [[72, 73]] ++
        [cppChars ("\n" ++ ("Runtime error at line " ++ toString (20 : Int) ++ ": " ++
          "Division by zero") ++ "\n")] ∧
    (MBasicSession.tick sampleStepper loadedSession []).1.1.io_.column_ = 0 ∧
    (MBasicSession.tick sampleStepper loadedSession []).1.1.isLoaded = true ∧
    MBasicSession.tick sampleStepper (MBasicSession.new : MBasicSession String Unit Unit) [] =
      ((MBasicSession.new, []), .ok false) :=
  have w := C18_tick_runtime_fault sampleStepper loadedSession [] () rfl rfl 20
    "Division by zero" rfl
  ⟨w.1, w.2.1, w.2.2.1, w.2.2.2.1, w.2.2.2.2.1, w.2.2.2.2.2 MBasicSession.new (Or.inl rfl)⟩

/-! ## C19: the lines `read_line` returns -/

theorem splitOnLF_ne_nil (d : JSString) : splitOnLF d ≠ [] := by
  cases d with
  | nil => simp [splitOnLF]
  | cons x xs =>
    unfold splitOnLF
    split
    · simp
    · split <;> simp

theorem splitOnLF_of_not_mem (t : JSString) (ht : LF ∉ t) : splitOnLF t = [t] := by
  induction t with
  | nil => rfl
  | cons x xs ih =>
    have hx : x ≠ LF := fun e => ht (by simp [e])
    have hxs : LF ∉ xs := fun e => ht (by simp [e])
    simp [splitOnLF, hx, ih hxs]

theorem splitOnLF_line (t rest : JSString) (ht : LF ∉ t) :
    splitOnLF (t ++ LF :: rest) = t :: splitOnLF rest := by
  induction t with
  | nil => simp [splitOnLF]
  | cons x xs ih =>
    have hx : x ≠ LF := fun e => ht (by simp [e])
    have hxs : LF ∉ xs := fun e => ht (by simp [e])
    simp [splitOnLF, hx, ih hxs]

/-- Splitting loses nothing: the segments joined with `'\n'` give the text back. -/
theorem splitOnLF_join (d : JSString) : [LF].intercalate (splitOnLF d) = d := by
  induction d with
  | nil => simp [splitOnLF, List.intercalate]
  | cons x xs ih =>
    unfold splitOnLF
    by_cases hx : x = LF
    · simp only [if_pos hx]
      have hne := splitOnLF_ne_nil xs
      cases hs : splitOnLF xs with
      | nil => exact absurd hs hne
      | cons s ss =>
        rw [hs] at ih
        simp only [List.intercalate, List.intersperse, List.flatten] at ih ⊢
        simp [ih, hx]
    · simp only [if_neg hx]
      have hne := splitOnLF_ne_nil xs
      cases hs : splitOnLF xs with
      | nil => exact absurd hs hne
      | cons s ss =>
        rw [hs] at ih
        cases ss with
        | nil =>
          simp only [List.intercalate, List.intersperse, List.flatten] at ih ⊢
          simp at ih ⊢
          exact ih
        | cons s' ss' =>
          simp only [List.intercalate, List.intersperse, List.flatten] at ih ⊢
          simp at ih ⊢
          exact ih

/-- No segment holds a `'\n'`. -/
theorem splitOnLF_no_LF (d : JSString) : ∀ s ∈ splitOnLF d, LF ∉ s := by
  induction d with
  | nil => simp [splitOnLF]
  | cons x xs ih =>
    unfold splitOnLF
    by_cases hx : x = LF
    · simp only [if_pos hx]
      intro s hs
      rcases List.mem_cons.1 hs with h | h
      · subst h; simp
      · exact ih s h
    · simp only [if_neg hx]
      cases hs : splitOnLF xs with
      | nil => simp [Ne.symm hx]
      | cons s ss =>
        rw [hs] at ih
        intro u hu
        rcases List.mem_cons.1 hu with h | h
        · subst h
          have := ih s (by simp)
          simp [Ne.symm hx, this]
        · exact ih u (by simp [h])

theorem lineSegments_nil : lineSegments [] = [] := by
  simp [lineSegments, splitOnLF]

theorem lineSegments_last (t : JSString) (ht : LF ∉ t) (hne : t ≠ []) :
    lineSegments t = [t] := by
  have hl : t.getLast? ≠ some LF := by
    intro h
    exact ht (List.mem_of_getLast?_eq_some h)
  simp [lineSegments, hne, hl, splitOnLF_of_not_mem t ht]

theorem lineSegments_line (t rest : JSString) (ht : LF ∉ t) :
    lineSegments (t ++ LF :: rest) = t :: lineSegments rest := by
  have hne : t ++ LF :: rest ≠ [] := by simp
  cases rest with
  | nil =>
    simp [lineSegments, splitOnLF_line t [] ht, splitOnLF]
  | cons y ys =>
    have hlast : (t ++ LF :: y :: ys).getLast? = (y :: ys).getLast? := by
      have hsome : (y :: ys).getLast? = some ((y :: ys).getLast (by simp)) :=
        List.getLast?_eq_getLast _ _
      simp [List.getLast?_append, List.getLast?_cons_cons, hsome]
    have hs := splitOnLF_ne_nil (y :: ys)
    simp only [lineSegments, hne, false_or, hlast, splitOnLF_line t (y :: ys) ht]
    have hne' : (y :: ys) ≠ [] := by simp
    simp only [hne', false_or]
    by_cases hl : (y :: ys).getLast? = some LF
    · simp only [if_pos hl]
      cases hsp : splitOnLF (y :: ys) with
      | nil => exact absurd hsp hs
      | cons s ss => simp [List.dropLast]
    · simp only [if_neg hl]

/-- A text has no `'\n'`, or it starts with a line: a text without `'\n'`, a `'\n'`, and
the rest. -/
theorem line_decomposition (d : JSString) :
    LF ∉ d ∨ ∃ t rest, d = t ++ LF :: rest ∧ LF ∉ t := by
  induction d with
  | nil => left; simp
  | cons x xs ih =>
    by_cases hx : x = LF
    · right; exact ⟨[], xs, by simp [hx], by simp⟩
    · rcases ih with h | ⟨t, rest, h1, h2⟩
      · left; simp [Ne.symm hx, h]
      · right; exact ⟨x :: t, rest, by simp [h1], by simp [Ne.symm hx, h2]⟩

theorem lineSegments_length_le (d : JSString) : (lineSegments d).length ≤ d.length := by
  have key : ∀ (n : Nat) (d : JSString), d.length ≤ n → (lineSegments d).length ≤ d.length := by
    intro n
    induction n with
    | zero =>
      intro d hd
      have : d = [] := List.length_eq_zero.mp (Nat.le_zero.mp hd)
      subst this
      simp [lineSegments_nil]
    | succ n ih =>
      intro d hd
      rcases line_decomposition d with h | ⟨t, rest, h1, h2⟩
      · by_cases hd0 : d = []
        · subst hd0; simp [lineSegments_nil]
        · rw [lineSegments_last d h hd0]
          have : 0 < d.length := List.length_pos.mpr hd0
          simp only [List.length_singleton]
          omega
      · subst h1
        rw [lineSegments_line t rest h2]
        have hlen : (t ++ LF :: rest).length = t.length + (rest.length + 1) := by simp
        have := ih rest (by omega)
        simp only [List.length_cons, hlen]
        omega
  exact key d.length d (le_refl _)

theorem findUnit_none (c : Nat) (t : JSString) (h : c ∉ t) : findUnit c t = none := by
  induction t with
  | nil => rfl
  | cons x xs ih =>
    have hx : x ≠ c := fun e => h (by simp [e])
    have hxs : c ∉ xs := fun e => h (by simp [e])
    simp [findUnit, hx, ih hxs]

/-- Reading the last line of a buffer that does not end with `'\n'`: the line is returned,
the eof flag is set and the position is left one past the end of the buffer. -/
theorem js_file_read_line_putFile_last (M : Module) (fs : FileSystem) (h : Int) (f : OpenFile)
    (pre t : JSString) (hdata : f.data = pre ++ t) (hpos : f.position = (pre.length : Nat))
    (ht : LF ∉ t) (hne : t ≠ []) :
    js_file_read_line (M.putFile fs h f) h =
      (M.putFile fs h { f with position := (f.data.length : Int) + 1, eof := true }, some t) := by
  have hpl : 0 < t.length := List.length_pos.mpr hne
  have hlt : ¬ f.position ≥ f.data.length := by
    rw [hpos, hdata, List.length_append]; push_cast; omega
  have hidx : indexOf f.data LF f.position = -1 := by
    rw [hpos, hdata]
    unfold indexOf
    rw [clampIndex_natCast]
    have h1 : min pre.length (pre ++ t).length = pre.length := by simp
    simp only [h1, List.drop_left, findUnit_none LF t ht]
  have hsub : substring f.data f.position (f.data.length : Int) = t := by
    rw [hpos, hdata]
    have := substring_middle pre t []
    simpa using this
  have hge : (f.data.length : Int) + 1 ≥ f.data.length := by omega
  simp only [js_file_read_line, Module.putFile_fileSystem, JSMap.get_set_self,
    Module.putFile_putFile, if_neg hlt, hidx, if_true, hsub, if_pos hge]

/-- Reading a buffer from the start of its unread part `rest`: as many reads succeed as
`rest` has line segments, they return the segments in order, and the next read reports
`no more lines`. -/
theorem readLines_lineSegments (M : Module) (fs : FileSystem) (h : Int) :
    ∀ (n : Nat) (rest pre : JSString) (f : OpenFile), rest.length ≤ n →
      f.data = pre ++ rest → f.position = (pre.length : Nat) →
      (readLines (M.putFile fs h f) h ((lineSegments rest).length + 1)).map Prod.fst =
        (lineSegments rest).map some ++ [none] := by
  intro n
  induction n with
  | zero =>
    intro rest pre f hn hdata hpos
    have hr : rest = [] := List.length_eq_zero.mp (Nat.le_zero.mp hn)
    subst hr
    have hp : f.position ≥ f.data.length := by rw [hpos, hdata]; simp
    simp [lineSegments_nil, readLines, js_file_read_line_putFile_end M fs h f hp]
  | succ n ih =>
    intro rest pre f hn hdata hpos
    rcases line_decomposition rest with hno | ⟨t, rest', h1, h2⟩
    · by_cases hr : rest = []
      · subst hr
        have hp : f.position ≥ f.data.length := by rw [hpos, hdata]; simp
        simp [lineSegments_nil, readLines, js_file_read_line_putFile_end M fs h f hp]
      · rw [lineSegments_last rest hno hr]
        have hread := js_file_read_line_putFile_last M fs h f pre rest hdata hpos hno hr
        obtain ⟨g, hg⟩ : ∃ g : OpenFile,
            g = { f with position := (f.data.length : Int) + 1, eof := true } := ⟨_, rfl⟩
        have hp : g.position ≥ g.data.length := by
          rw [hg]; show (f.data.length : Int) + 1 ≥ f.data.length; omega
        rw [← hg] at hread
        simp [readLines, hread, js_file_read_line_putFile_end M fs h g hp]
    · subst h1
      rw [lineSegments_line t rest' h2]
      have hread := js_file_read_line_putFile_line M fs h f pre t rest' hdata hpos h2
      have hlen : (t ++ LF :: rest').length = t.length + (rest'.length + 1) := by simp
      have hdata' : f.data = (pre ++ (t ++ [LF])) ++ rest' := by rw [hdata]; simp
      have hposn : (((pre.length + t.length : Nat) : Int) + 1) =
          ((pre ++ (t ++ [LF])).length : Nat) := by simp; omega
      simp only [List.length_cons, List.map_cons, List.cons_append]
      show (_ :: (readLines _ h ((lineSegments rest').length + 1))).map Prod.fst = _
      rw [hread, List.map_cons]
      refine congrArg₂ List.cons rfl ?_
      by_cases hr : rest' = []
      · simp only [if_pos hr]
        exact ih rest' (pre ++ (t ++ [LF])) _ (by omega) hdata' hposn
      · simp only [if_neg hr]
        exact ih rest' (pre ++ (t ++ [LF])) _ (by omega) hdata' hposn

/-- C19: on a buffer `d` read from position 0, `read_line` succeeds as many times as `d`
has line segments (at most `length d` times), returns in order the segments obtained by
splitting `d` at every `'\n'`, without the final empty segment when `d` is empty or ends
with `'\n'`, and then reports `no more lines`; a successful read of a line that ends with
`'\n'` leaves the position just past that `'\n'`; and a `read_line` at a position at or past
the end returns `no more lines`, sets the eof flag and leaves position and buffer
unchanged. -/
theorem C19_read_line_segments (M : Module) (h : Int) (f : OpenFile) (hf : M.file h = some f) :
    (f.position = 0 →
      (readLines M h ((lineSegments f.data).length + 1)).map Prod.fst =
        (lineSegments f.data).map some ++ [none]) ∧
    (lineSegments f.data).length ≤ f.data.length ∧
    (∀ pre t rest, f.data = pre ++ (t ++ LF :: rest) → f.position = (pre.length : Nat) →
      LF ∉ t →
      (js_file_read_line M h).2 = some t ∧
      ((js_file_read_line M h).1.file h).map (fun g => (g.position, g.data)) =
        some (((pre.length + t.length : Nat) : Int) + 1, f.data)) ∧
    (f.position ≥ f.data.length →
      (js_file_read_line M h).2 = none ∧
      (js_file_read_line M h).1.file h = some { f with eof := true }) := by
  obtain ⟨fs, -, -, hM⟩ := M.exists_putFile h f hf
  rw [← hM]
  refine ⟨?_, lineSegments_length_le f.data, ?_, ?_⟩
  · intro hp
    exact readLines_lineSegments M fs h f.data.length f.data [] f (le_refl _) (by simp)
      (by simpa using hp)
  · intro pre t rest hdata hpos ht
    rw [js_file_read_line_putFile_line M fs h f pre t rest hdata hpos ht]
    refine ⟨rfl, ?_⟩
    by_cases hr : rest = []
    · simp only [if_pos hr, Module.file_putFile, Option.map_some']
    · simp only [if_neg hr, Module.file_putFile, Option.map_some']
  · intro hp
    rw [js_file_read_line_putFile_end M fs h f hp]
    exact ⟨rfl, Module.file_putFile _ _ _ _⟩

theorem C19_read_line_segments_witness :
    (readLines threeLineFile 2 4).map Prod.fst = [some [97], some [], some [98, 99], none] ∧
    (lineSegments [97, 10, 10, 98, 99]).length ≤ 5 ∧
    ((js_file_read_line threeLineFile 2).2 = some [97] ∧
      ((js_file_read_line threeLineFile 2).1.file 2).map (fun g => (g.position, g.data)) =
        some (2, [97, 10, 10, 98, 99])) ∧
    ((js_file_read_line emptyRandomFile 1).2 = none ∧
      (js_file_read_line emptyRandomFile 1).1.file 1 =
        some { OpenFile.opened [70] (some .random) 1 [] with eof := true }) :=
  have w := C19_read_line_segments threeLineFile 2
    (OpenFile.opened [70] (some .input) 128 [97, 10, 10, 98, 99]) (by decide)
  have v := C19_read_line_segments emptyRandomFile 1 (OpenFile.opened [70] (some .random) 1 [])
    (by decide)
  ⟨w.1 rfl, w.2.1, w.2.2.1 [] [97] [10, 98, 99] rfl rfl (by decide), v.2.2.2 (by decide)⟩

/-! ## C20: what a raw write leaves of the buffer -/

theorem rawWritten_eq (d : JSString) (p : Nat) (hp : p ≤ d.length) (b : List Byte) :
    rawWritten d (p : Int) b =
      d.take p ++ ((b.map fun x => x.val) ++ d.drop (p + b.length)) := by
  by_cases hlt : (p : Int) < d.length
  · have h0 : substring d 0 (p : Int) = d.take p := by
      simp [substring, clampIndex, hp]
    have h1 : substringFrom d ((p : Int) + (b.length : Nat)) = d.drop (p + b.length) := by
      have e : ((p : Int) + (b.length : Nat)) = ((p + b.length : Nat) : Int) := by simp
      rw [e]
      unfold substringFrom
      rw [clampIndex_natCast]
      by_cases hle : p + b.length ≤ d.length
      · rw [min_eq_left hle]
      · have hge : d.length ≤ p + b.length := by omega
        rw [min_eq_right hge, List.drop_length, List.drop_eq_nil_of_le hge]
    simp only [rawWritten, if_pos hlt, h0, h1, List.append_assoc]
  · have hpe : p = d.length := by omega
    subst hpe
    simp only [rawWritten, if_neg hlt, List.take_length]
    rw [List.drop_eq_nil_of_le (by omega), List.append_nil]

/-- C20: on an open file with buffer `d` at a position `P` with `0 ≤ P ≤ length d`, after
`write_raw(b)` with `b` of size `S` the buffer has length `max (length d) (P + S)`, holds
`b` at the offsets `P .. P+S-1`, equals `d` at every offset below `P` and at every offset
from `P + S` up to `length d - 1`, and the position is `P + S`; when `P + S ≤ length d` the
buffer length is unchanged; the name, mode, record length and eof flag of the entry are
as they were. -/
theorem C20_write_raw_frame (M : Module) (h : Int) (f : OpenFile) (hf : M.file h = some f)
    (p : Nat) (hpos : f.position = (p : Int)) (hp : p ≤ f.data.length) (b : List Byte) :
    ∃ g : OpenFile, (js_file_write_raw M h b).file h = some g ∧
      g.data.length = max f.data.length (p + b.length) ∧
      (∀ i (hi : i < b.length), g.data[p + i]? = some (b[i]).val) ∧
      (∀ i, i < p → g.data[i]? = f.data[i]?) ∧
      (∀ i, p + b.length ≤ i → i < f.data.length → g.data[i]? = f.data[i]?) ∧
      g.position = ((p + b.length : Nat) : Int) ∧
      (p + b.length ≤ f.data.length → g.data.length = f.data.length) ∧
      g.name = f.name ∧ g.mode = f.mode ∧ g.recordLength = f.recordLength ∧ g.eof = f.eof := by
  obtain ⟨fs, -, -, hM⟩ := M.exists_putFile h f hf
  rw [← hM, js_file_write_raw_putFile, Module.file_putFile, hpos]
  have hd := rawWritten_eq f.data p hp b
  have htl : (f.data.take p).length = p := by simp [hp]
  have hlen : (rawWritten f.data (p : Int) b).length = max f.data.length (p + b.length) := by
    rw [hd]
    simp only [List.length_append, List.length_take, List.length_map, List.length_drop]
    omega
  refine ⟨_, rfl, hlen, ?_, ?_, ?_, by simp, ?_, rfl, rfl, rfl, rfl⟩
  · intro i hi
    show (rawWritten f.data (p : Int) b)[p + i]? = _
    rw [hd, List.getElem?_append_right (by omega), htl]
    have : p + i - p = i := by omega
    rw [this, List.getElem?_append_left (by simpa using hi)]
    simp [hi]
  · intro i hi
    show (rawWritten f.data (p : Int) b)[i]? = _
    rw [hd, List.getElem?_append_left (by omega), List.getElem?_take_of_lt hi]
  · intro i hi hlt
    show (rawWritten f.data (p : Int) b)[i]? = _
    rw [hd, List.getElem?_append_right (by omega), htl,
      List.getElem?_append_right (by simp; omega), List.getElem?_drop]
    congr 1
    simp only [List.length_map]
    omega
  · intro hle
    show (rawWritten f.data (p : Int) b).length = _
    rw [hlen]; omega

theorem C20_write_raw_frame_witness :
    ∃ g : OpenFile, (js_file_write_raw (js_file_seek_record fiveByteFile 1 2 2) 1 [65, 66]).file 1
        = some g ∧
      g.data.length = max 5 (2 + 2) ∧
      (∀ i (hi : i < 2), g.data[2 + i]? = some (([65, 66] : List Byte)[i]).val) ∧
      (∀ i, i < 2 → g.data[i]? = ([1, 2, 3, 4, 5] : JSString)[i]?) ∧
      (∀ i, 2 + 2 ≤ i → i < 5 → g.data[i]? = ([1, 2, 3, 4, 5] : JSString)[i]?) ∧
      g.position = 4 ∧
      (2 + 2 ≤ 5 → g.data.length = 5) ∧
      g.name = [70] ∧ g.mode = some .random ∧ g.recordLength = 2 ∧ g.eof = false :=
  C20_write_raw_frame (js_file_seek_record fiveByteFile 1 2 2) 1
    { name := [70], mode := some .random, recordLength := 2, data := [1, 2, 3, 4, 5],
      position := 2, eof := false } (by decide) 2 rfl (by decide) [65, 66]

/-! ## C21: the eof flag -/

/-- A successful `js_file_open` enters a file at position 0 with the eof flag not set. -/
theorem js_file_open_entry (M : Module) (fname : JSString) (mode rl : Int)
    (hok : (js_file_open M fname mode rl).2 ≠ -1) :
    ∃ data, (js_file_open M fname mode rl).1.file (js_file_open M fname mode rl).2 =
      some (OpenFile.opened fname (modeStrOf mode) rl data) := by
  unfold js_file_open at hok ⊢
  cases hh : M.onFileOpen with
  | some hook =>
    simp only [hh] at hok ⊢
    cases hd : hook fname (modeStrOf mode) rl with
    | some d =>
      refine ⟨d, ?_⟩
      simp [Module.file, Module.table, Module.withFS, JSMap.get_set_self]
    | none => simp [hd] at hok
  | none =>
    simp only [hh] at hok ⊢
    split
    · rename_i hc
      simp [hc] at hok
    · refine ⟨(if mode = 0 then (M.fsOrFresh.virtualFiles.get fname).getD []
        else if mode = 1 then []
        else if mode = 2 then (M.fsOrFresh.virtualFiles.get fname).getD []
        else if mode = 3 then (M.fsOrFresh.virtualFiles.get fname).getD []
        else []), ?_⟩
      simp [Module.file, Module.table, Module.withFS, JSMap.get_set_self]

/-- One admissible call on an open handle keeps the handle open and the eof flag sound. -/
theorem HandleCall.run_eofSound (M : Module) (h : Int) (f : OpenFile) (c : HandleCall)
    (hf : M.file h = some f) (hs : f.EofSound) (hc : c.Admissible) :
    ∃ g : OpenFile, (c.run M h).file h = some g ∧ g.EofSound := by
  obtain ⟨fs, -, -, hM⟩ := M.exists_putFile h f hf
  unfold OpenFile.EofSound at hs ⊢
  cases c with
  | flush =>
    refine ⟨f, ?_, hs⟩
    simp only [HandleCall.run, Module.file, (js_file_flush_open M h f hf).1]
    exact hf
  | read_line =>
    rw [← hM]
    simp only [HandleCall.run, js_file_read_line, Module.putFile_fileSystem,
      JSMap.get_set_self, Module.putFile_putFile]
    by_cases hp : f.position ≥ f.data.length
    · simp only [if_pos hp, Module.file_putFile]
      exact ⟨_, rfl, fun _ => hp⟩
    · simp only [if_neg hp]
      have hfe : f.eof = false := by
        cases he : f.eof with
        | false => rfl
        | true => exact absurd (hs he) hp
      by_cases hq : (if indexOf f.data LF f.position = -1 then (f.data.length : Int)
          else indexOf f.data LF f.position) + 1 ≥ f.data.length
      · simp only [if_pos hq, Module.file_putFile]
        exact ⟨_, rfl, fun _ => hq⟩
      · simp only [if_neg hq, Module.file_putFile]
        refine ⟨_, rfl, fun he => ?_⟩
        rw [hfe] at he
        exact absurd he (by simp)
  | write_line t =>
    rw [← hM, HandleCall.run, js_file_write_line_putFile, Module.file_putFile]
    exact ⟨_, rfl, fun _ => le_refl _⟩
  | write t =>
    rw [← hM, HandleCall.run, js_file_write_putFile, Module.file_putFile]
    exact ⟨_, rfl, fun _ => le_refl _⟩
  | read_chars n =>
    rw [← hM, HandleCall.run, js_file_read_chars_putFile]
    by_cases hq : f.position + (substring f.data f.position (f.position + n)).length ≥
        f.data.length
    · simp only [if_pos hq, Module.file_putFile]
      exact ⟨_, rfl, fun _ => hq⟩
    · simp only [if_neg hq, Module.file_putFile]
      refine ⟨_, rfl, fun he => ?_⟩
      have := hs he
      exact absurd (show f.position + (substring f.data f.position (f.position + n)).length ≥
        f.data.length by omega) hq
  | seek_record r L =>
    rw [← hM, HandleCall.run, js_file_seek_record_putFile, Module.file_putFile]
    refine ⟨_, rfl, fun he => ?_⟩
    exact of_decide_eq_true he
  | read_raw size =>
    have hsz : 0 ≤ size := hc
    rw [← hM, HandleCall.run, js_file_read_raw_putFile]
    by_cases hq : f.position + size ≥ f.data.length
    · simp only [if_pos hq, Module.file_putFile]
      exact ⟨_, rfl, fun _ => hq⟩
    · simp only [if_neg hq, Module.file_putFile]
      refine ⟨_, rfl, fun he => ?_⟩
      have := hs he
      exact absurd (show f.position + size ≥ f.data.length by omega) hq
  | write_raw b =>
    rw [← hM, HandleCall.run, js_file_write_raw_putFile, Module.file_putFile]
    refine ⟨_, rfl, fun he => ?_⟩
    have hge : f.position ≥ f.data.length := hs he
    have hnlt : ¬ f.position < f.data.length := by omega
    show f.position + (b.length : Int) ≥ ((rawWritten f.data f.position b).length : Int)
    simp only [rawWritten, if_neg hnlt, List.length_append, List.length_map]
    push_cast
    omega

/-- Admissible calls on an open handle keep it open and its eof flag sound. -/
theorem runHandleCalls_eofSound (h : Int) (cs : List HandleCall)
    (hcs : ∀ c ∈ cs, c.Admissible) :
    ∀ (M : Module) (f : OpenFile), M.file h = some f → f.EofSound →
      ∃ g : OpenFile, (runHandleCalls M h cs).file h = some g ∧ g.EofSound := by
  induction cs with
  | nil => intro M f hf hs; exact ⟨f, hf, hs⟩
  | cons c cs ih =>
    intro M f hf hs
    obtain ⟨f', hf', hs'⟩ := HandleCall.run_eofSound M h f c hf hs (hcs c (by simp))
    exact ih (fun c' hc' => hcs c' (by simp [hc'])) (c.run M h) f' hf' hs'

theorem js_file_eof_of_file (M : Module) (h : Int) (g : OpenFile) (hg : M.file h = some g) :
    js_file_eof M h = if g.eof || decide (g.position ≥ g.data.length) then 1 else 0 := by
  obtain ⟨fs, -, -, hM⟩ := M.exists_putFile h g hg
  rw [← hM, js_file_eof_putFile]

theorem js_file_eof_absent (M : Module) (h : Int) (hf : M.file h = none) :
    js_file_eof M h = 1 := by
  cases hM : M.fileSystem with
  | none => simp [js_file_eof, hM]
  | some fs =>
    have hg : fs.files.get h = none := by simpa [Module.file, Module.table, hM] using hf
    simp [js_file_eof, hM, hg]

/-- C21: after a successful open and any sequence of `read_line`, `read_chars(n)` with
`n ≥ 0`, `read_raw(size)` with `size ≥ 0`, `write`, `write_line`, `write_raw`,
`seek_record(record, record_length)` with `record ≥ 1` and `record_length ≥ 0`, and `flush`
calls on the handle, the handle is still open and its stored eof flag is true only if the
position is at or past the buffer length; so the `eof()` query answers true if and only if
the position is at or past the buffer length; and `eof()` on a handle that is not open
answers true. -/
theorem C21_eof_flag (M : Module) (fname : JSString) (mode rl : Int)
    (hok : (js_file_open M fname mode rl).2 ≠ -1) (cs : List HandleCall)
    (hcs : ∀ c ∈ cs, c.Admissible) :
    (∃ g : OpenFile,
      (runHandleCalls (js_file_open M fname mode rl).1 (js_file_open M fname mode rl).2 cs).file
        (js_file_open M fname mode rl).2 = some g ∧
      (g.eof = true → g.position ≥ g.data.length) ∧
      (js_file_eof
          (runHandleCalls (js_file_open M fname mode rl).1 (js_file_open M fname mode rl).2 cs)
          (js_file_open M fname mode rl).2 = 1 ↔ g.position ≥ g.data.length) ∧
      (WasmFileHandle.eof
          (runHandleCalls (js_file_open M fname mode rl).1 (js_file_open M fname mode rl).2 cs)
          ⟨(js_file_open M fname mode rl).2, true⟩ = true ↔ g.position ≥ g.data.length)) ∧
    (∀ (M' : Module) (h' : Int), M'.file h' = none →
      js_file_eof M' h' = 1 ∧ WasmFileHandle.eof M' ⟨h', true⟩ = true) := by
  constructor
  · obtain ⟨data, hentry⟩ := js_file_open_entry M fname mode rl hok
    have hs0 : (OpenFile.opened fname (modeStrOf mode) rl data).EofSound := by
      intro he
      simp [OpenFile.opened] at he
    obtain ⟨g, hg, hs⟩ := runHandleCalls_eofSound (js_file_open M fname mode rl).2 cs hcs
      (js_file_open M fname mode rl).1 _ hentry hs0
    have heof := js_file_eof_of_file _ _ g hg
    have hiff : js_file_eof
        (runHandleCalls (js_file_open M fname mode rl).1 (js_file_open M fname mode rl).2 cs)
        (js_file_open M fname mode rl).2 = 1 ↔ g.position ≥ g.data.length := by
      rw [heof]
      by_cases hp : g.position ≥ g.data.length
      · simp [hp]
      · have he : g.eof = false := by
          cases hge : g.eof with
          | false => rfl
          | true => exact absurd (hs hge) hp
        simp [hp, he]
    refine ⟨g, hg, hs, hiff, ?_⟩
    rw [← hiff]
    simp only [WasmFileHandle.eof, heof]
    by_cases hb : (g.eof || decide (g.position ≥ g.data.length)) = true
    · simp [hb]
    · simp [hb]
  · intro M' h' hf
    have h1 := js_file_eof_absent M' h' hf
    exact ⟨h1, by simp [WasmFileHandle.eof, h1]⟩

theorem C21_eof_flag_witness :
    (∃ g : OpenFile,
      (runHandleCalls (js_file_open Module.initial [70] 3 1).1
        (js_file_open Module.initial [70] 3 1).2
        [.write [65, 66], .seek_record 1 1, .read_raw 5, .seek_record 2 1, .read_line,
          .write_raw [67], .read_chars 3, .flush]).file
        (js_file_open Module.initial [70] 3 1).2 = some g ∧
      (g.eof = true → g.position ≥ g.data.length) ∧
      (js_file_eof
          (runHandleCalls (js_file_open Module.initial [70] 3 1).1
            (js_file_open Module.initial [70] 3 1).2
            [.write [65, 66], .seek_record 1 1, .read_raw 5, .seek_record 2 1, .read_line,
              .write_raw [67], .read_chars 3, .flush])
          (js_file_open Module.initial [70] 3 1).2 = 1 ↔ g.position ≥ g.data.length) ∧
      (WasmFileHandle.eof
          (runHandleCalls (js_file_open Module.initial [70] 3 1).1
            (js_file_open Module.initial [70] 3 1).2
            [.write [65, 66], .seek_record 1 1, .read_raw 5, .seek_record 2 1, .read_line,
              .write_raw [67], .read_chars 3, .flush])
          ⟨(js_file_open Module.initial [70] 3 1).2, true⟩ = true ↔
        g.position ≥ g.data.length)) ∧
    (js_file_eof Module.initial 7 = 1 ∧ WasmFileHandle.eof Module.initial ⟨7, true⟩ = true) :=
  have w := C21_eof_flag Module.initial [70] 3 1 (by decide)
    [.write [65, 66], .seek_record 1 1, .read_raw 5, .seek_record 2 1, .read_line,
      .write_raw [67], .read_chars 3, .flush]
    (by
      intro c hc
      simp only [List.mem_cons, List.mem_singleton, List.not_mem_nil, or_false] at hc
      rcases hc with rfl | rfl | rfl | rfl | rfl | rfl | rfl | rfl <;>
        simp [HandleCall.Admissible])
  ⟨w.1, w.2 Module.initial 7 rfl⟩

/-! ## C22: the column and the width -/

/-- C22, the code at the failing input: with width 80, `print` of ten tabs from column 0
leaves the column at 80, and one tab from column 79 does too; with width 5 one tab from
column 0 leaves it at 8; the width is as it was. -/
theorem C22_tab_reaches_width :
    ( WasmIO.print WasmIO.default [] [9, 9, 9, 9, 9, 9, 9, 9, 9, 9]).1 = ⟨80, 80⟩ ∧
    ( WasmIO.print ⟨79, 80⟩ [] [9]).1 = ⟨80, 80⟩ ∧
    ( WasmIO.print ⟨0, 5⟩ [] [9]).1 = ⟨8, 5⟩ := by
  refine ⟨?_, ?_, ?_⟩ <;>
    simp [ WasmIO.print, WasmIO.track, WasmIO.default, wrapInt32, Int.tdiv]

/-- One character other than a tab keeps the column inside `[0, width)`. -/
theorem WasmIO.track_lt_width ( io : WasmIO) (c : Byte) (hc : c ≠ 9) (hw : 0 < io.width_)
    (h0 : 0 ≤ io.column_) (h1 : io.column_ < 2147483647) :
    0 ≤ ( WasmIO.track io c).column_ ∧ ( WasmIO.track io c).column_ < io.width_ := by
  have hin : wrapInt32 (io.column_ + 1) = io.column_ + 1 :=
    wrapInt32_of_range _ (by omega) (by omega)
  unfold WasmIO.track
  by_cases hn : c = 10 ∨ c = 13
  · simp only [if_pos hn]
    exact ⟨le_refl _, hw⟩
  · simp only [if_neg hn, if_neg hc, hin]
    by_cases hq : io.column_ + 1 ≥ io.width_
    · simp only [if_pos hq]
      exact ⟨le_refl _, hw⟩
    · simp only [if_neg hq]
      constructor
      · show (0 : Int) ≤ io.column_ + 1; omega
      · show io.column_ + 1 < io.width_; omega

/-- The extent of the defect behind C22: a text without tabs keeps the column inside
`[0, width)`, for every width an `int` can hold. -/
theorem WasmIO.print_lt_width_of_no_tab (text : List Byte) (ht : (9 : Byte) ∉ text) :
    ∀ ( io : WasmIO) (terminal : Terminal), 0 < io.width_ → io.width_ ≤ 2147483647 →
      0 ≤ io.column_ → io.column_ < io.width_ →
      0 ≤ ( WasmIO.print io terminal text).1.column_ ∧
      ( WasmIO.print io terminal text).1.column_ < io.width_ := by
  induction text with
  | nil => intro io terminal _ _ h0 h1; exact ⟨h0, h1⟩
  | cons c cs ih =>
    intro io terminal hw hm h0 h1
    have hc : c ≠ 9 := fun e => ht (by simp [e])
    have hcs : (9 : Byte) ∉ cs := fun e => ht (by simp [e])
    obtain ⟨t0, t1⟩ := WasmIO.track_lt_width io c hc hw h0 (by omega)
    have hwid := WasmIO.track_width io c
    have := ih hcs ( WasmIO.track io c) terminal (by rw [hwid]; exact hw)
      (by rw [hwid]; exact hm) t0 (by rw [hwid]; exact t1)
    rw [hwid] at this
    exact this

end mbasic
